import Mathlib

/-!
# DSA2HashTable: a separate-chaining hash table from strings to ints

Shallow embedding of `src/DSA2HashTable.cpp` (struct `Node`, class `HashTable`).

Modelling decisions, all taken from the source:

* A `std::string` key is the list of its `char` values (`Key := List Int`); nothing below
  restricts the range of a character code, so the results hold for signed and unsigned `char`.
* A chain (`Node*` with `next` links, `nullptr` at the end) is the list of its nodes from head
  to tail; the bucket vector `vector<Node*> table` is the list of its chains.
* `int hashValue` is a 32-bit two's complement integer: every arithmetic step is wrapped by
  `wrapInt`, and `abs` of the minimum int is the minimum int again (signed overflow is
  undefined in C++; this is what the usual compilers produce).  The operand of
  `% table.size()` is converted to the 64-bit unsigned `size_t` first (`toSizeT`).
* Code whose behaviour is undefined (the division by a table size of zero in `hash`, an access
  outside the bucket vector) returns `none`; so does a constructor call that throws.
* `count` is an `Int`, the bucket count a `Nat`: both stay far below `2^31` for every table
  that fits in memory, so the `int` casts of `table.size()` are exact and `count++`,
  `count--`, `oldCapacity * 2` do not wrap.  Allocation failure is outside the model.
* The load factor test `(float)count / table.size() >= 0.75f` is evaluated in IEEE 754
  binary32 with round to nearest, ties to even: `toFloat` converts `count` and
  `table.size()`, `floatDiv` rounds the quotient of the two converted values, and
  `PosFloat.geThreeQuarters` compares with `0.75f`, all in integer arithmetic on mantissa and
  exponent (`roundNearestEven`).  A table without buckets gives a NaN or an infinity
  (`FloatValue`).  `PosFloat.toRat` is the rational number a `float` stands for;
  `roundNearestEven_nearest` and `roundQuotient_tie` state that the rounding is to a nearest
  24-bit `float`, ties to even.  Below `2 ^ 23` buckets the rounded test decides like the
  exact test `3 * capacity ≤ 4 * count` (`loadFactorReachedAt_iff`); from there on the two
  part ways.
* `numberKey n` is the decimal numeral of `n`, a supply of pairwise distinct keys for tables
  too large to evaluate.
* The `debugMode` printing has no effect on the state and is dropped; the flag itself is kept.
* Two reachability predicates: `Reachable` starts from a construction with capacity at least
  1, `ReachableAny` from any capacity the constructor accepts (0 included, on which `put`,
  `get` and `removeKey` are undefined).  Both are closed under the public operations.
* The harness function `runTests` is modelled by the calls it makes on the table and the
  figures it prints (`TestReport`); `printTable` only reads the table.
* `specAccumulator` and `specHash` are not taken from the source: they state the hash the way
  the specification words it, for comparison with `hash`.
-/

namespace DSA2HashTable

/-- A `std::string`: the sequence of its character codes. -/
abbrev Key := List Int

/-- The character codes of an ASCII literal such as `"apple"`. -/
def str (s : String) : Key := s.toList.map (fun c => (c.toNat : Int))

/-- The `struct Node` without its `next` pointer, which is the tail of the chain list. -/
structure Node where
  key : Key
  value : Int
  deriving DecidableEq

/-- A bucket's chain, head first; `[]` is `nullptr`. -/
abbrev Chain := List Node

/-- The `class HashTable`: its private members `table`, `count` and `debugMode`. -/
structure HashTable where
  table : List Chain
  count : Int
  debugMode : Bool
  deriving DecidableEq

/-- Value of a 32-bit signed `int` after an operation whose exact result is `x`. -/
def wrapInt (x : Int) : Int := (x + 2 ^ 31) % 2 ^ 32 - 2 ^ 31

/-- The function `std::abs(int)`: the magnitude, except that the minimum int maps to
itself. -/
def absInt (x : Int) : Int := wrapInt (if x < 0 then -x else x)

/-- Conversion of an `int` to the unsigned 64-bit `size_t`. -/
def toSizeT (x : Int) : Nat := (x % 2 ^ 64).toNat

/-- The loop of `hash`: `hashValue = hashValue * 31 + c` for each character, from 0. -/
def hashValue (key : Key) : Int :=
  key.foldl (fun h c => wrapInt (h * 31 + c)) 0

/-- The function `HashTable::hash` against a bucket vector of `size` entries:
`abs(hashValue) % table.size()`; dividing by zero is undefined. -/
def hash (key : Key) (size : Nat) : Option Nat :=
  if size = 0 then none else some (toSizeT (absInt (hashValue key)) % size)

/-- The getter `getCount`. -/
def getCount (t : HashTable) : Int := t.count

/-- The getter `getCapacity`: `table.size()`. -/
def getCapacity (t : HashTable) : Nat := t.table.length

/-- The getter `getDebug`. -/
def getDebug (t : HashTable) : Bool := t.debugMode

/-- The setter `setDebug`. -/
def setDebug (t : HashTable) (debug : Bool) : HashTable := { t with debugMode := debug }

/-- The constructor `HashTable(int capacity = 11, bool debug = false)`:
`capacity` null pointers, count 0.  A negative `capacity` converts to a `size_t` above
`max_size()` and the vector constructor throws. -/
def construct (capacity : Int) (debug : Bool) : Option HashTable :=
  if capacity < 0 then none
  else some { table := List.replicate capacity.toNat [], count := 0, debugMode := debug }

/-- The search loop of `get` over one chain: the value of the first node with the key. -/
def Chain.find (key : Key) : Chain → Option Int
  | [] => none
  | n :: rest => if n.key = key then some n.value else Chain.find key rest

/-- The search loop of `put` over one chain: overwrite the value of the first node with the
key; `none` when the loop reaches `nullptr`. -/
def Chain.update (key : Key) (value : Int) : Chain → Option Chain
  | [] => none
  | n :: rest =>
    if n.key = key then some ({ n with value := value } :: rest)
    else (Chain.update key value rest).map (fun rest' => n :: rest')

/-- The search loop of `removeKey` over one chain: unlink the first node with the key;
`none` when the loop reaches `nullptr`. -/
def Chain.remove (key : Key) : Chain → Option Chain
  | [] => none
  | n :: rest =>
    if n.key = key then some rest
    else (Chain.remove key rest).map (fun rest' => n :: rest')

/-- Loop body of `resize` for one node: hash against the new vector and link the node in as
the head of its new bucket; `count++`. -/
def rehashNode (st : List Chain × Int) (n : Node) : Option (List Chain × Int) :=
  match hash n.key st.1.length with
  | none => none
  | some newIndex =>
    match st.1[newIndex]? with
    | none => none
    | some oldHead => some (st.1.set newIndex (n :: oldHead), st.2 + 1)

/-- The `while (current != nullptr)` loop of `resize` over one old chain, head to tail. -/
def rehashChain (st : List Chain × Int) (chain : Chain) : Option (List Chain × Int) :=
  chain.foldlM rehashNode st

/-- The function `HashTable::resize`: a vector of twice the size, every node of every old bucket (in
increasing index order) rehashed into it, `count` recounted from 0. -/
def resize (t : HashTable) : Option HashTable :=
  let oldCapacity := t.table.length
  let newCapacity := oldCapacity * 2
  match t.table.foldlM rehashChain (List.replicate newCapacity [], 0) with
  | none => none
  | some (table, count) => some { t with table := table, count := count }

/-- A positive finite `float` (IEEE 754 binary32): the number `mantissa * 2 ^ exponent`, with
`2 ^ 23 ≤ mantissa < 2 ^ 24`.  The exponent range of the format is not modelled: a count is
below `2 ^ 31` and a size below `2 ^ 64`, so no conversion or quotient leaves it. -/
structure PosFloat where
  mantissa : Nat
  exponent : Int
  deriving DecidableEq

/-- The number of halvings that bring `n` below 2, at most `fuel` of them. -/
def log2Fuel : Nat → Nat → Nat
  | 0, _ => 0
  | fuel + 1, n => if n < 2 then 0 else log2Fuel fuel (n / 2) + 1

/-- The position of the leading bit of `n`: the floor of its binary logarithm. -/
def floorLog2 (n : Nat) : Nat := log2Fuel n n

/-- The integer nearest to `n / dd`; a quotient half way between two integers goes to the
even one. -/
def roundQuotient (n dd : Nat) : Nat :=
  let q := n / dd
  let r := n % dd
  if 2 * r < dd then q else if dd < 2 * r then q + 1 else q + q % 2

/-- The binary exponent of the positive rational `num / den`: the integer `e` with
`2 ^ e ≤ num / den < 2 ^ (e + 1)`, found from the leading bits of `num` and `den`. -/
def quotientExponent (num den : Nat) : Int :=
  let d : Int := (floorLog2 num : Int) - (floorLog2 den : Int)
  if den * 2 ^ d.toNat ≤ num * 2 ^ (-d).toNat then d else d - 1

/-- The `float` nearest to the positive rational `num / den`, ties to the even mantissa (the
rounding of every `float` conversion and operation).  With `e` the binary exponent of
`num / den`, the quotient is scaled by `2 ^ (23 - e)` to 24 bits before the point and rounded
to an integer; a mantissa that rounds up to `2 ^ 24` moves to the next exponent. -/
def roundNearestEven (num den : Nat) : PosFloat :=
  let e := quotientExponent num den
  let s : Int := 23 - e
  let m := roundQuotient (num * 2 ^ s.toNat) (den * 2 ^ (-s).toNat)
  if m = 2 ^ 24 then { mantissa := 2 ^ 23, exponent := e - 22 }
  else { mantissa := m, exponent := e - 23 }

/-- The conversion of a positive integer to `float`: `(float)count`, and the conversion of
`table.size()` that the division by a `float` brings about. -/
def toFloat (n : Nat) : PosFloat := roundNearestEven n 1

/-- The quotient of two positive `float`s, rounded to `float`. -/
def floatDiv (a b : PosFloat) : PosFloat :=
  let r := roundNearestEven a.mantissa b.mantissa
  { mantissa := r.mantissa, exponent := r.exponent + a.exponent - b.exponent }

/-- The comparison `f >= 0.75f` for a positive `float`; `0.75f` is exactly `3 * 2 ^ (-2)`. -/
def PosFloat.geThreeQuarters (f : PosFloat) : Bool :=
  if 0 ≤ f.exponent + 2 then decide (3 ≤ f.mantissa * 2 ^ (f.exponent + 2).toNat)
  else decide (3 * 2 ^ (-(f.exponent + 2)).toNat ≤ f.mantissa)

/-- The rational number that a positive `float` stands for. -/
def PosFloat.toRat (f : PosFloat) : ℚ := (f.mantissa : ℚ) * (2 : ℚ) ^ f.exponent

/-- The values the `float` quotient of two integers can take, as far as the comparison with
`0.75f` tells them apart. -/
inductive FloatValue where
  | nan
  | negative
  | zero
  | positive (f : PosFloat)
  | infinity
  deriving DecidableEq

/-- The comparison `loadFactor >= 0.75f`: false for a NaN, a negative number and zero. -/
def FloatValue.geThreeQuarters : FloatValue → Bool
  | FloatValue.positive f => f.geThreeQuarters
  | FloatValue.infinity => true
  | _ => false

/-- The quotient `(float)count / table.size()` for a table with `count` entries and `size`
buckets: both operands are converted to `float` and the division is a `float` division.  A
size of zero gives a NaN (count 0) or an infinity. -/
def loadFactorAt (count : Int) (size : Nat) : FloatValue :=
  if size = 0 then
    if count = 0 then FloatValue.nan
    else if count < 0 then FloatValue.negative else FloatValue.infinity
  else if count = 0 then FloatValue.zero
  else if count < 0 then FloatValue.negative
  else FloatValue.positive (floatDiv (toFloat count.toNat) (toFloat size))

/-- The variable `float loadFactor = (float)count / table.size()` of `checkAndResize`. -/
def loadFactor (t : HashTable) : FloatValue := loadFactorAt t.count t.table.length

/-- The test `loadFactor >= 0.75f` on a table with `count` entries and `size` buckets. -/
def loadFactorReachedAt (count : Int) (size : Nat) : Bool :=
  (loadFactorAt count size).geThreeQuarters

/-- The test `loadFactor >= 0.75f` of `checkAndResize`. -/
def loadFactorReached (t : HashTable) : Bool := (loadFactor t).geThreeQuarters

/-- The function `HashTable::checkAndResize`. -/
def checkAndResize (t : HashTable) : Option HashTable :=
  if loadFactorReached t then resize t else some t

/-- The function `HashTable::put`. -/
def put (t : HashTable) (key : Key) (value : Int) : Option HashTable :=
  match hash key t.table.length with
  | none => none
  | some index =>
    match t.table[index]? with
    | none => none
    | some chain =>
      match Chain.update key value chain with
      | some chain' => some { t with table := t.table.set index chain' }
      | none =>
        checkAndResize
          { t with table := t.table.set index ({ key := key, value := value } :: chain),
                   count := t.count + 1 }

/-- The function `HashTable::get`: `some (some v)` is `true` with `outValue = v`, `some none` is
`false`. -/
def get (t : HashTable) (key : Key) : Option (Option Int) :=
  match hash key t.table.length with
  | none => none
  | some index =>
    match t.table[index]? with
    | none => none
    | some chain => some (Chain.find key chain)

/-- The function `HashTable::removeKey`: the returned flag and the table after the call. -/
def removeKey (t : HashTable) (key : Key) : Option (Bool × HashTable) :=
  match hash key t.table.length with
  | none => none
  | some index =>
    match t.table[index]? with
    | none => none
    | some chain =>
      match Chain.remove key chain with
      | some chain' =>
        some (true, { t with table := t.table.set index chain', count := t.count - 1 })
      | none => some (false, t)

/-- The function `HashTable::clear`: every bucket reset to `nullptr`, count 0. -/
def clear (t : HashTable) : HashTable :=
  { t with table := t.table.map (fun _ => []), count := 0 }

/-- The inner loop of the copy constructor and of `operator=`: a fresh node per node of the
chain, appended after the last one; the second component counts the `count++`. -/
def copyChain : Chain → Chain × Int
  | [] => ([], 0)
  | n :: rest =>
    let r := copyChain rest
    ({ key := n.key, value := n.value } :: r.1, r.2 + 1)

/-- The outer loop of the copy constructor and of `operator=` over the buckets. -/
def copyBuckets : List Chain → List Chain × Int
  | [] => ([], 0)
  | chain :: rest =>
    let c := copyChain chain
    let r := copyBuckets rest
    (c.1 :: r.1, c.2 + r.2)

/-- The copy constructor `HashTable(const HashTable& other)`. -/
def copyConstruct (other : HashTable) : HashTable :=
  let r := copyBuckets other.table
  { table := r.1, count := r.2, debugMode := other.debugMode }

/-- The assignment `operator=` on two distinct objects (`this != &other`): the old nodes of `self` are
deleted and `other` is copied. -/
def assign (_self other : HashTable) : HashTable :=
  let r := copyBuckets other.table
  { table := r.1, count := r.2, debugMode := other.debugMode }

/-- The tables a program can hold: built by the constructor with a capacity of at least 1
and then changed only through the public member functions. -/
inductive Reachable : HashTable → Prop
  | construct (capacity : Int) (debug : Bool) (t : HashTable) :
      1 ≤ capacity → construct capacity debug = some t → Reachable t
  | put (t t' : HashTable) (key : Key) (value : Int) :
      Reachable t → put t key value = some t' → Reachable t'
  | removeKey (t t' : HashTable) (key : Key) (b : Bool) :
      Reachable t → removeKey t key = some (b, t') → Reachable t'
  | clear (t : HashTable) : Reachable t → Reachable (clear t)
  | setDebug (t : HashTable) (debug : Bool) : Reachable t → Reachable (setDebug t debug)
  | copyConstruct (t : HashTable) : Reachable t → Reachable (copyConstruct t)
  | assign (self other : HashTable) :
      Reachable self → Reachable other → Reachable (assign self other)

/-- Every node of the table: the chains of all buckets, in bucket order. -/
def entries (t : HashTable) : List Node := t.table.flatten

/-- The representation invariant of the table: each node sits in the bucket its key hashes
to against the current size, no key is stored twice, and `count` is the number of nodes. -/
structure Inv (t : HashTable) : Prop where
  home : ∀ (i : Nat) (chain : Chain), t.table[i]? = some chain →
    ∀ n ∈ chain, hash n.key t.table.length = some i
  nodup : ((entries t).map Node.key).Nodup
  count : t.count = ((entries t).length : Int)

/-- A run of `put` calls, one per pair of the list, in order. -/
def putAll (t : HashTable) (kvs : List (Key × Int)) : Option HashTable :=
  kvs.foldlM (fun t kv => put t kv.1 kv.2) t

/-- The decimal numeral of `n` as a key, least significant digit first (`"21"` for 12):
pairwise distinct keys, one for each number. -/
def numberKey (n : Nat) : Key := (Nat.digits 10 n).map (fun (d : Nat) => (d : Int) + 48)

/-- The pairs `(numberKey i, i)` for the `n` numbers `i` from `a` on: `n` entries with
pairwise distinct keys. -/
def numberedFrom (a n : Nat) : List (Key × Int) :=
  (List.range' a n).map (fun i => (numberKey i, (i : Int)))

/-- The pairs `(numberKey i, i)` for `i` from 0 to `n - 1`. -/
def numberedEntries (n : Nat) : List (Key × Int) := numberedFrom 0 n

/-- The table `t0` after the puts of the first `n` numbered entries: the puts return a
reachable table with `n` entries and `capacity` buckets whose keys are `numberKey i` for
`i < n`. -/
def FilledFrom (t0 : HashTable) (n capacity : Nat) : Prop :=
  ∃ t : HashTable, putAll t0 (numberedEntries n) = some t ∧ Reachable t ∧
    getCount t = (n : Int) ∧ getCapacity t = capacity ∧
    ∀ m ∈ entries t, ∃ i : Nat, i < n ∧ m.key = numberKey i

/-- A call of one of the public operations `put`, `get`, `removeKey`, `clear`. -/
inductive Op where
  | put (key : Key) (value : Int)
  | get (key : Key)
  | removeKey (key : Key)
  | clear
  deriving DecidableEq

/-- The table after one call; `none` when the call has undefined behaviour. -/
def Op.apply (t : HashTable) : Op → Option HashTable
  | Op.put key value => DSA2HashTable.put t key value
  | Op.get key => (DSA2HashTable.get t key).map (fun _ => t)
  | Op.removeKey key => (DSA2HashTable.removeKey t key).map (fun r => r.2)
  | Op.clear => some (DSA2HashTable.clear t)

/-- The table after a sequence of calls. -/
def run (t : HashTable) (ops : List Op) : Option HashTable :=
  ops.foldlM Op.apply t

/-- The table `HashTable(11, false)` right after construction. -/
def table11 : HashTable := { table := List.replicate 11 [], count := 0, debugMode := false }

/-- The table `HashTable(1, false)` right after construction. -/
def table1 : HashTable := { table := [[]], count := 0, debugMode := false }

/-- The table `HashTable(0, false)` right after construction: no bucket at all. -/
def table0 : HashTable := { table := [], count := 0, debugMode := false }

/-- The table `HashTable(11, false)` after `put("a", 1)`. -/
def table11a : HashTable :=
  { table := [[], [], [], [], [], [], [], [], [], [{ key := [97], value := 1 }], []],
    count := 1, debugMode := false }

/-- The tables reachable from a construction with any capacity the constructor accepts,
through the public member functions and the copy operations. -/
inductive ReachableAny : HashTable → Prop
  | construct (capacity : Int) (debug : Bool) (t : HashTable) :
      construct capacity debug = some t → ReachableAny t
  | put (t t' : HashTable) (key : Key) (value : Int) :
      ReachableAny t → put t key value = some t' → ReachableAny t'
  | removeKey (t t' : HashTable) (key : Key) (b : Bool) :
      ReachableAny t → removeKey t key = some (b, t') → ReachableAny t'
  | clear (t : HashTable) : ReachableAny t → ReachableAny (clear t)
  | setDebug (t : HashTable) (debug : Bool) : ReachableAny t → ReachableAny (setDebug t debug)
  | copyConstruct (t : HashTable) : ReachableAny t → ReachableAny (copyConstruct t)
  | assign (self other : HashTable) :
      ReachableAny self → ReachableAny other → ReachableAny (assign self other)

/-- The number of nodes met by walking the chain of every bucket, as `printTable` does. -/
def walkCount (t : HashTable) : Nat := (t.table.map List.length).sum

/-- The check at the end of `resize`, `oldCount != count`, whose true branch prints
"ERROR: Count mismatch!". -/
def resizeCountMismatch (t : HashTable) : Option Bool :=
  (resize t).map (fun t' => decide (t.count ≠ t'.count))

/-- The accumulator as the specification words it: from 0, `acc := acc * 31 + code` for each
character in order, in wraparound arithmetic on an unsigned 32-bit integer. -/
def specAccumulator (key : Key) : Int :=
  key.foldl (fun acc c => (acc * 31 + c) % 2 ^ 32) 0

/-- The hash as the specification words it: the unsigned accumulator modulo the capacity. -/
def specHash (key : Key) (capacity : Nat) : Nat :=
  (specAccumulator key).toNat % capacity

/-- The operand of `% table.size()` in `hash`, in terms of the unsigned accumulator `a`:
the accumulator itself when its sign bit is clear, the magnitude of the negative `int` it
stands for otherwise, and the `size_t` image of the minimum int for `a = 2^31`. -/
def signedMagnitude (a : Nat) : Nat :=
  if a < 2 ^ 31 then a else if a = 2 ^ 31 then 2 ^ 64 - 2 ^ 31 else 2 ^ 32 - a

/-- The figures `runTests` prints around TEST 5, with the lookups of TEST 2 and TEST 3. -/
structure TestReport where
  appleValue : Option Int
  bananaAfterDelete : Option Int
  beforeCapacity : Nat
  beforeCount : Int
  afterCapacity : Nat
  afterCount : Int
  deriving DecidableEq

/-- The function `runTests(HashTable& ht)`: the table it leaves and the figures it prints.
The calls are made in the order of the source, consecutive `put` calls through `putAll`;
the `printTable` calls only read the table. -/
def runTests (ht : HashTable) : Option (TestReport × HashTable) :=
  let originalDebug := getDebug ht
  (putAll (clear (setDebug ht true))
    [(str "apple", 10), (str "banana", 7), (str "cherry", 3), (str "apple", 25)]).bind
  fun ht1 => (get ht1 (str "apple")).bind
  fun appleVal => (removeKey ht1 (str "banana")).bind
  fun r => (get r.2 (str "banana")).bind
  fun bananaVal =>
    (putAll r.2 [(str "bigbird", 15), (str "tinybird", 42), (str "widebird", 8),
      (str "thinbird", 12), (str "bluebird", 99), (str "redbird", 50),
      (str "reallycoolbird", 100)]).bind
  fun ht2 =>
    (putAll ht2 [(str "tiger", 200), (str "elephant", 300), (str "giraffe", 400),
      (str "weezer", 500)]).map
  fun ht3 =>
    ({ appleValue := appleVal, bananaAfterDelete := bananaVal,
       beforeCapacity := getCapacity ht2, beforeCount := getCount ht2,
       afterCapacity := getCapacity ht3, afterCount := getCount ht3 },
     setDebug ht3 originalDebug)

/-- The table `HashTable(1, false)` after `put("a", 1)`: the put has doubled the capacity. -/
def table2a : HashTable :=
  { table := [[], [{ key := [97], value := 1 }]], count := 1, debugMode := false }

/-- The table `table2a` after `put("e", 2)`: the put has doubled the capacity again, and
`"a"` is ahead of `"e"` in bucket 1. -/
def table4ae : HashTable :=
  { table := [[], [{ key := [97], value := 1 }, { key := [101], value := 2 }], [], []],
    count := 2, debugMode := false }

/-- The table `HashTable(11, false)` after `put("a", 1)` and `put("l", 2)`, which share
bucket 9. -/
def table11al : HashTable :=
  { table := [[], [], [], [], [], [], [], [], [],
      [{ key := [108], value := 2 }, { key := [97], value := 1 }], []],
    count := 2, debugMode := false }

theorem Chain.find_eq_none_iff (key : Key) (c : Chain) :
    Chain.find key c = none ↔ ∀ n ∈ c, n.key ≠ key := by
  induction c with
  | nil => simp [Chain.find]
  | cons n rest ih =>
    by_cases h : n.key = key
    · simp [Chain.find, h]
    · simp [Chain.find, h, ih]

theorem Chain.mem_of_find (key : Key) (v : Int) (c : Chain)
    (h : Chain.find key c = some v) : ({ key := key, value := v } : Node) ∈ c := by
  induction c with
  | nil => simp [Chain.find] at h
  | cons n rest ih =>
    by_cases hk : n.key = key
    · simp [Chain.find, hk] at h
      subst hk; subst h
      simp
    · simp [Chain.find, hk] at h
      exact List.mem_cons_of_mem _ (ih h)

theorem Chain.find_of_mem (key : Key) (v : Int) (c : Chain)
    (hnd : (c.map Node.key).Nodup) (h : ({ key := key, value := v } : Node) ∈ c) :
    Chain.find key c = some v := by
  induction c with
  | nil => simp at h
  | cons n rest ih =>
    simp only [List.map_cons, List.nodup_cons] at hnd
    rcases List.mem_cons.1 h with h | h
    · subst h; simp [Chain.find]
    · have hk : n.key ≠ key := by
        intro hk
        apply hnd.1
        rw [hk]
        exact List.mem_map.2 ⟨_, h, rfl⟩
      simp [Chain.find, hk, ih hnd.2 h]

theorem Chain.update_eq_none_iff (key : Key) (v : Int) (c : Chain) :
    Chain.update key v c = none ↔ Chain.find key c = none := by
  induction c with
  | nil => simp [Chain.update, Chain.find]
  | cons n rest ih =>
    by_cases h : n.key = key
    · simp [Chain.update, Chain.find, h]
    · simp [Chain.update, Chain.find, h, ih]

theorem Chain.update_keys (key : Key) (v : Int) (c c' : Chain)
    (h : Chain.update key v c = some c') : c'.map Node.key = c.map Node.key := by
  induction c generalizing c' with
  | nil => simp [Chain.update] at h
  | cons n rest ih =>
    by_cases hk : n.key = key
    · simp [Chain.update, hk] at h
      subst h; simp [hk]
    · simp [Chain.update, hk] at h
      obtain ⟨r, hr, rfl⟩ := h
      simp [ih r hr]

theorem Chain.update_length (key : Key) (v : Int) (c c' : Chain)
    (h : Chain.update key v c = some c') : c'.length = c.length := by
  have := congrArg List.length (Chain.update_keys key v c c' h)
  simpa using this

theorem Chain.find_update_self (key : Key) (v : Int) (c c' : Chain)
    (h : Chain.update key v c = some c') : Chain.find key c' = some v := by
  induction c generalizing c' with
  | nil => simp [Chain.update] at h
  | cons n rest ih =>
    by_cases hk : n.key = key
    · simp [Chain.update, hk] at h
      subst h; simp [Chain.find, hk]
    · simp [Chain.update, hk] at h
      obtain ⟨r, hr, rfl⟩ := h
      simp [Chain.find, hk, ih r hr]

theorem Chain.find_update_other (key key' : Key) (v : Int) (c c' : Chain)
    (hne : key ≠ key') (h : Chain.update key v c = some c') :
    Chain.find key' c' = Chain.find key' c := by
  induction c generalizing c' with
  | nil => simp [Chain.update] at h
  | cons n rest ih =>
    by_cases hk : n.key = key
    · simp [Chain.update, hk] at h
      subst h
      have : n.key ≠ key' := by rw [hk]; exact hne
      simp [Chain.find, this, hne]
    · simp [Chain.update, hk] at h
      obtain ⟨r, hr, rfl⟩ := h
      by_cases hk' : n.key = key'
      · simp [Chain.find, hk']
      · simp [Chain.find, hk', ih r hr]

theorem Chain.remove_eq_none_iff (key : Key) (c : Chain) :
    Chain.remove key c = none ↔ Chain.find key c = none := by
  induction c with
  | nil => simp [Chain.remove, Chain.find]
  | cons n rest ih =>
    by_cases h : n.key = key
    · simp [Chain.remove, Chain.find, h]
    · simp [Chain.remove, Chain.find, h, ih]

theorem Chain.remove_sublist (key : Key) (c c' : Chain)
    (h : Chain.remove key c = some c') : c'.Sublist c := by
  induction c generalizing c' with
  | nil => simp [Chain.remove] at h
  | cons n rest ih =>
    by_cases hk : n.key = key
    · simp [Chain.remove, hk] at h
      subst h; exact List.sublist_cons_self _ _
    · simp [Chain.remove, hk] at h
      obtain ⟨r, hr, rfl⟩ := h
      exact (ih r hr).cons₂ _

theorem Chain.remove_length (key : Key) (c c' : Chain)
    (h : Chain.remove key c = some c') : c'.length + 1 = c.length := by
  induction c generalizing c' with
  | nil => simp [Chain.remove] at h
  | cons n rest ih =>
    by_cases hk : n.key = key
    · simp [Chain.remove, hk] at h
      subst h; simp
    · simp [Chain.remove, hk] at h
      obtain ⟨r, hr, rfl⟩ := h
      simp [ih r hr]

theorem Chain.find_remove_other (key key' : Key) (c c' : Chain)
    (hne : key ≠ key') (h : Chain.remove key c = some c') :
    Chain.find key' c' = Chain.find key' c := by
  induction c generalizing c' with
  | nil => simp [Chain.remove] at h
  | cons n rest ih =>
    by_cases hk : n.key = key
    · simp [Chain.remove, hk] at h
      subst h
      have : n.key ≠ key' := by rw [hk]; exact hne
      simp [Chain.find, this]
    · simp [Chain.remove, hk] at h
      obtain ⟨r, hr, rfl⟩ := h
      by_cases hk' : n.key = key'
      · simp [Chain.find, hk']
      · simp [Chain.find, hk', ih r hr]

theorem Chain.find_remove_self (key : Key) (c c' : Chain)
    (hnd : (c.map Node.key).Nodup) (h : Chain.remove key c = some c') :
    Chain.find key c' = none := by
  induction c generalizing c' with
  | nil => simp [Chain.remove] at h
  | cons n rest ih =>
    simp only [List.map_cons, List.nodup_cons] at hnd
    by_cases hk : n.key = key
    · simp [Chain.remove, hk] at h
      subst h
      rw [Chain.find_eq_none_iff]
      intro m hm hmk
      apply hnd.1
      rw [hk, ← hmk]
      exact List.mem_map.2 ⟨m, hm, rfl⟩
    · simp [Chain.remove, hk] at h
      obtain ⟨r, hr, rfl⟩ := h
      simp [Chain.find, hk, ih r hnd.2 hr]

theorem hash_lt {key : Key} {size i : Nat} (h : hash key size = some i) : i < size := by
  unfold DSA2HashTable.hash at h
  by_cases hs : size = 0
  · simp [hs] at h
  · simp [hs] at h
    subst h
    exact Nat.mod_lt _ (Nat.pos_of_ne_zero hs)

theorem hash_isSome (key : Key) {size : Nat} (hs : 0 < size) :
    ∃ i, hash key size = some i ∧ i < size := by
  have h0 : size ≠ 0 := Nat.pos_iff_ne_zero.1 hs
  refine ⟨toSizeT (absInt (hashValue key)) % size, ?_, Nat.mod_lt _ hs⟩
  simp [DSA2HashTable.hash, h0]

theorem hash_zero (key : Key) : hash key 0 = none := by
  simp [DSA2HashTable.hash]

theorem flatten_set_decomp {L : List Chain} {i : Nat} {c : Chain} (h : L[i]? = some c) :
    ∃ A B : List Node, L.flatten = A ++ c ++ B ∧
      ∀ c' : Chain, (L.set i c').flatten = A ++ c' ++ B := by
  induction L generalizing i with
  | nil => simp at h
  | cons x xs ih =>
    cases i with
    | zero =>
      simp at h
      subst h
      exact ⟨[], xs.flatten, by simp, by intro c'; simp⟩
    | succ j =>
      simp at h
      obtain ⟨A, B, hAB, hset⟩ := ih h
      refine ⟨x ++ A, B, ?_, ?_⟩
      · simp [hAB]
      · intro c'
        simp [hset c']

theorem getElem?_set_self_of {L : List Chain} {i : Nat} {c c' : Chain} (h : L[i]? = some c) :
    (L.set i c')[i]? = some c' := by
  have hi : i < L.length := by
    by_contra hn
    simp [List.getElem?_eq_none (Nat.le_of_not_lt hn)] at h
  simp [List.getElem?_set, hi]

theorem getElem?_set_other {L : List Chain} {i j : Nat} {c' : Chain} (h : i ≠ j) :
    (L.set i c')[j]? = L[j]? := by
  simp [List.getElem?_set, h]

theorem perm_cons_middle (n : Node) (A B : List Node) :
    (A ++ n :: B).Perm (n :: (A ++ B)) := List.perm_middle

theorem mem_entries_iff (t : HashTable) (n : Node) :
    n ∈ entries t ↔ ∃ (i : Nat) (chain : Chain), t.table[i]? = some chain ∧ n ∈ chain := by
  unfold entries
  rw [List.mem_flatten]
  constructor
  · rintro ⟨chain, hc, hn⟩
    obtain ⟨i, hi⟩ := List.getElem?_of_mem hc
    exact ⟨i, chain, hi, hn⟩
  · rintro ⟨i, chain, hc, hn⟩
    exact ⟨chain, List.getElem?_mem hc, hn⟩

theorem getElem?_lt {L : List Chain} {i : Nat} {c : Chain} (h : L[i]? = some c) :
    i < L.length := by
  obtain ⟨hi, _⟩ := List.getElem?_eq_some_iff.1 h
  exact hi

theorem getElem?_isSome (L : List Chain) (i : Nat) (h : i < L.length) :
    ∃ c : Chain, L[i]? = some c :=
  ⟨L[i], by simp [h]⟩

theorem bucket_of_pos (t : HashTable) (key : Key) (hpos : 0 < t.table.length) :
    ∃ (i : Nat) (c : Chain), hash key t.table.length = some i ∧ t.table[i]? = some c := by
  obtain ⟨i, hi, hlt⟩ := hash_isSome key hpos
  obtain ⟨c, hc⟩ := getElem?_isSome _ _ hlt
  exact ⟨i, c, hi, hc⟩

theorem get_eq_of_bucket (t : HashTable) {key : Key} {i : Nat} {c : Chain}
    (hi : hash key t.table.length = some i) (hc : t.table[i]? = some c) :
    get t key = some (Chain.find key c) := by
  simp [get, hi, hc]

theorem get_isSome (t : HashTable) (key : Key) (hpos : 0 < t.table.length) :
    ∃ r, get t key = some r := by
  obtain ⟨i, c, hi, hc⟩ := bucket_of_pos t key hpos
  exact ⟨_, get_eq_of_bucket _ hi hc⟩

theorem Inv.chain_nodup {t : HashTable} (hinv : Inv t) {i : Nat} {c : Chain}
    (hc : t.table[i]? = some c) : (c.map Node.key).Nodup := by
  obtain ⟨A, B, hAB, _⟩ := flatten_set_decomp hc
  have h := hinv.nodup
  unfold entries at h
  rw [hAB] at h
  simp only [List.map_append] at h
  exact (List.nodup_append.1 (List.nodup_append.1 h).1).2.1

theorem Inv.bucket_of_mem {t : HashTable} (hinv : Inv t) {n : Node} (hn : n ∈ entries t)
    {i : Nat} {c : Chain} (hi : hash n.key t.table.length = some i)
    (hc : t.table[i]? = some c) : n ∈ c := by
  obtain ⟨j, chain, hj, hmem⟩ := (mem_entries_iff t n).1 hn
  have := hinv.home j chain hj n hmem
  rw [hi] at this
  cases this
  rw [hc] at hj
  cases hj
  exact hmem

theorem get_some_iff_mem {t : HashTable} (hinv : Inv t) (key : Key) (v : Int) :
    get t key = some (some v) ↔ ({ key := key, value := v } : Node) ∈ entries t := by
  by_cases hpos : 0 < t.table.length
  · obtain ⟨i, c, hi, hc⟩ := bucket_of_pos t key hpos
    rw [get_eq_of_bucket _ hi hc]
    constructor
    · intro h
      have h' : Chain.find key c = some v := by simpa using h
      exact (mem_entries_iff t _).2 ⟨i, c, hc, Chain.mem_of_find key v c h'⟩
    · intro h
      have hm := hinv.bucket_of_mem h hi hc
      rw [Chain.find_of_mem key v c (hinv.chain_nodup hc) hm]
  · have h0 : t.table.length = 0 := by omega
    have hnil : t.table = [] := List.length_eq_zero.1 h0
    simp [get, h0, hash_zero, entries, hnil]

theorem get_none_iff {t : HashTable} (hinv : Inv t) (hpos : 0 < t.table.length) (key : Key) :
    get t key = some none ↔ ∀ n ∈ entries t, n.key ≠ key := by
  obtain ⟨i, c, hi, hc⟩ := bucket_of_pos t key hpos
  rw [get_eq_of_bucket _ hi hc]
  constructor
  · intro h n hn hk
    have h' : Chain.find key c = none := by simpa using h
    subst hk
    exact (Chain.find_eq_none_iff _ c).1 h' n (hinv.bucket_of_mem hn hi hc) rfl
  · intro h
    have : Chain.find key c = none := by
      rw [Chain.find_eq_none_iff]
      intro n hn
      exact h n ((mem_entries_iff t n).2 ⟨i, c, hc, hn⟩)
    rw [this]

theorem get_congr {t t' : HashTable} (hinv : Inv t) (hinv' : Inv t')
    (hpos : 0 < t.table.length) (hpos' : 0 < t'.table.length) (key : Key)
    (hmem : ∀ v : Int, ({ key := key, value := v } : Node) ∈ entries t' ↔
      ({ key := key, value := v } : Node) ∈ entries t) :
    get t' key = get t key := by
  obtain ⟨r, hr⟩ := get_isSome t key hpos
  obtain ⟨r', hr'⟩ := get_isSome t' key hpos'
  have key_iff : ∀ v, get t' key = some (some v) ↔ get t key = some (some v) := by
    intro v
    rw [get_some_iff_mem hinv', get_some_iff_mem hinv, hmem]
  rw [hr, hr'] at key_iff ⊢
  cases r with
  | none =>
    cases r' with
    | none => rfl
    | some v' => exact absurd ((key_iff v').1 rfl) (by simp)
  | some v => exact (key_iff v).2 rfl

theorem Inv.set_bucket {t : HashTable} (hinv : Inv t) {i : Nat} {c : Chain}
    (hc : t.table[i]? = some c) (c' : Chain) (cnt : Int)
    (hhome : ∀ n ∈ c', hash n.key t.table.length = some i)
    (hnd : ∀ A B : List Node, entries t = A ++ c ++ B →
      ((A ++ c' ++ B).map Node.key).Nodup)
    (hcnt : cnt + c.length = t.count + c'.length) :
    Inv { t with table := t.table.set i c', count := cnt } := by
  obtain ⟨A, B, hAB, hset⟩ := flatten_set_decomp hc
  refine ⟨?_, ?_, ?_⟩
  · intro j chain hj n hn
    simp only [List.length_set]
    by_cases hij : i = j
    · subst hij
      rw [getElem?_set_self_of hc] at hj
      cases hj
      exact hhome n hn
    · simp only [getElem?_set_other hij] at hj
      exact hinv.home j chain hj n hn
  · simp only [entries, hset c']
    exact hnd A B hAB
  · have h1 := hinv.count
    simp only [entries, hAB, List.length_append] at h1
    simp only [entries, hset c', List.length_append]
    push_cast at h1 ⊢
    omega

theorem Inv.update {t : HashTable} (hinv : Inv t) {key : Key} {value : Int} {i : Nat}
    {c c' : Chain} (hc : t.table[i]? = some c) (hu : Chain.update key value c = some c') :
    Inv { t with table := t.table.set i c' } := by
  have hkeys := Chain.update_keys key value c c' hu
  have hlen := Chain.update_length key value c c' hu
  have := hinv.set_bucket hc c' t.count ?_ ?_ ?_
  · exact this
  · intro n hn
    have hk : n.key ∈ c'.map Node.key := List.mem_map.2 ⟨n, hn, rfl⟩
    rw [hkeys] at hk
    obtain ⟨m, hm, hmk⟩ := List.mem_map.1 hk
    rw [← hmk]
    exact hinv.home i c hc m hm
  · intro A B hAB
    have h := hinv.nodup
    rw [hAB] at h
    simpa [hkeys] using h
  · rw [hlen]

theorem Inv.not_mem_of_find_none {t : HashTable} (hinv : Inv t) {key : Key} {i : Nat}
    {c : Chain} (hi : hash key t.table.length = some i) (hc : t.table[i]? = some c)
    (hf : Chain.find key c = none) : key ∉ (entries t).map Node.key := by
  intro hk
  obtain ⟨m, hm, hmk⟩ := List.mem_map.1 hk
  subst hmk
  exact (Chain.find_eq_none_iff _ c).1 hf m (hinv.bucket_of_mem hm hi hc) rfl

theorem Inv.insert {t : HashTable} (hinv : Inv t) {key : Key} (value : Int) {i : Nat}
    {c : Chain} (hi : hash key t.table.length = some i) (hc : t.table[i]? = some c)
    (hf : Chain.find key c = none) :
    Inv { t with table := t.table.set i ({ key := key, value := value } :: c),
                 count := t.count + 1 } := by
  apply hinv.set_bucket hc
  · intro n hn
    rcases List.mem_cons.1 hn with h | h
    · subst h; exact hi
    · exact hinv.home i c hc n h
  · intro A B hAB
    have hperm : (A ++ ({ key := key, value := value } : Node) :: c ++ B).Perm
        (({ key := key, value := value } : Node) :: (A ++ c ++ B)) := by
      simp
    have hperm' := hperm.map Node.key
    rw [hperm'.nodup_iff, List.map_cons, List.nodup_cons, ← hAB]
    exact ⟨hinv.not_mem_of_find_none hi hc hf, hinv.nodup⟩
  · simp
    omega

theorem Inv.remove {t : HashTable} (hinv : Inv t) {key : Key} {i : Nat}
    {c c' : Chain} (hc : t.table[i]? = some c) (hr : Chain.remove key c = some c') :
    Inv { t with table := t.table.set i c', count := t.count - 1 } := by
  have hsub := Chain.remove_sublist key c c' hr
  have hlen := Chain.remove_length key c c' hr
  apply hinv.set_bucket hc
  · intro n hn
    exact hinv.home i c hc n (hsub.subset hn)
  · intro A B hAB
    have h := hinv.nodup
    rw [hAB] at h
    have hs : (A ++ c' ++ B).Sublist (A ++ c ++ B) :=
      List.Sublist.append (List.Sublist.append (List.Sublist.refl A) hsub) (List.Sublist.refl B)
    exact (hs.map Node.key).nodup h
  · rw [← hlen]
    push_cast
    omega

theorem rehashNode_spec {tbl : List Chain} (c : Int) (n : Node) (hpos : 0 < tbl.length)
    (hhome : ∀ (j : Nat) (chain : Chain), tbl[j]? = some chain →
      ∀ m ∈ chain, hash m.key tbl.length = some j) :
    ∃ tbl' : List Chain, rehashNode (tbl, c) n = some (tbl', c + 1) ∧
      tbl'.length = tbl.length ∧
      (∀ (j : Nat) (chain : Chain), tbl'[j]? = some chain →
        ∀ m ∈ chain, hash m.key tbl'.length = some j) ∧
      tbl'.flatten.Perm (n :: tbl.flatten) := by
  obtain ⟨i, hi, hlt⟩ := hash_isSome n.key hpos
  obtain ⟨old, hold⟩ := getElem?_isSome _ _ hlt
  obtain ⟨A, B, hAB, hset⟩ := flatten_set_decomp hold
  refine ⟨tbl.set i (n :: old), ?_, by simp, ?_, ?_⟩
  · simp [rehashNode, hi, hold]
  · intro j chain hj m hm
    simp only [List.length_set]
    by_cases hij : i = j
    · subst hij
      rw [getElem?_set_self_of hold] at hj
      cases hj
      rcases List.mem_cons.1 hm with h | h
      · subst h; exact hi
      · exact hhome i old hold m h
    · simp only [getElem?_set_other hij] at hj
      exact hhome j chain hj m hm
  · rw [hset, hAB]
    simp

theorem rehashNodes_spec (E : List Node) (tbl : List Chain) (c : Int) (hpos : 0 < tbl.length)
    (hhome : ∀ (j : Nat) (chain : Chain), tbl[j]? = some chain →
      ∀ m ∈ chain, hash m.key tbl.length = some j) :
    ∃ tbl' : List Chain, E.foldlM rehashNode (tbl, c) = some (tbl', c + E.length) ∧
      tbl'.length = tbl.length ∧
      (∀ (j : Nat) (chain : Chain), tbl'[j]? = some chain →
        ∀ m ∈ chain, hash m.key tbl'.length = some j) ∧
      tbl'.flatten.Perm (E ++ tbl.flatten) := by
  induction E generalizing tbl c with
  | nil => exact ⟨tbl, by simp, rfl, hhome, by simp⟩
  | cons n rest ih =>
    obtain ⟨tbl1, h1, hlen1, hhome1, hperm1⟩ := rehashNode_spec c n hpos hhome
    obtain ⟨tbl2, h2, hlen2, hhome2, hperm2⟩ := ih tbl1 (c + 1) (by omega) hhome1
    refine ⟨tbl2, ?_, by omega, hhome2, ?_⟩
    · rw [List.foldlM_cons, h1]
      simp only [Option.bind_eq_bind, Option.some_bind, h2, List.length_cons]
      push_cast
      congr 2
      omega
    · refine hperm2.trans ?_
      refine (List.Perm.append_left rest hperm1).trans ?_
      simp

theorem foldlM_rehashChain (L : List Chain) (st : List Chain × Int) :
    L.foldlM rehashChain st = L.flatten.foldlM rehashNode st := by
  induction L generalizing st with
  | nil => simp
  | cons x xs ih =>
    rw [List.foldlM_cons, List.flatten_cons, List.foldlM_append]
    simp only [rehashChain]
    congr 1
    funext st'
    exact ih st'

theorem resize_spec (t : HashTable) (hpos : 0 < t.table.length) :
    ∃ t' : HashTable, resize t = some t' ∧ t'.table.length = 2 * t.table.length ∧
      t'.debugMode = t.debugMode ∧ t'.count = ((entries t).length : Int) ∧
      (∀ (j : Nat) (chain : Chain), t'.table[j]? = some chain →
        ∀ m ∈ chain, hash m.key t'.table.length = some j) ∧
      (entries t').Perm (entries t) := by
  have hhome0 : ∀ (j : Nat) (chain : Chain),
      (List.replicate (t.table.length * 2) ([] : Chain))[j]? = some chain →
      ∀ m ∈ chain, hash m.key (List.replicate (t.table.length * 2) ([] : Chain)).length
        = some j := by
    intro j chain hj m hm
    have := List.getElem?_mem hj
    rw [List.mem_replicate] at this
    rw [this.2] at hm
    simp at hm
  obtain ⟨tbl', h, hlen, hhome, hperm⟩ :=
    rehashNodes_spec (entries t) (List.replicate (t.table.length * 2) []) 0
      (by simp; omega) hhome0
  refine ⟨{ t with table := tbl', count := ((entries t).length : Int) }, ?_, ?_, rfl, rfl,
    hhome, ?_⟩
  · simp only [resize, foldlM_rehashChain]
    unfold entries at h
    rw [h]
    simp [entries]
  · simp [hlen]; omega
  · have : (List.replicate (t.table.length * 2) ([] : Chain)).flatten = [] := by
      simp
    rw [this] at hperm
    simpa [entries] using hperm

theorem resize_total (t : HashTable) :
    ∃ t' : HashTable, resize t = some t' ∧ t'.table.length = 2 * t.table.length ∧
      t'.debugMode = t.debugMode := by
  by_cases hpos : 0 < t.table.length
  · obtain ⟨t', h, hlen, hd, _⟩ := resize_spec t hpos
    exact ⟨t', h, hlen, hd⟩
  · have h0 : t.table.length = 0 := by omega
    have hnil : t.table = [] := List.length_eq_zero.1 h0
    refine ⟨{ t with table := [], count := 0 }, ?_, by simp [hnil], rfl⟩
    simp [resize, hnil]

theorem Inv.resize {t t' : HashTable} (hinv : Inv t) (hpos : 0 < t.table.length)
    (h : resize t = some t') :
    Inv t' ∧ t'.table.length = 2 * t.table.length ∧ t'.debugMode = t.debugMode ∧
      t'.count = t.count ∧ (entries t').Perm (entries t) := by
  obtain ⟨t'', h', hlen, hd, hcnt, hhome, hperm⟩ := resize_spec t hpos
  rw [h] at h'
  cases h'
  refine ⟨⟨hhome, ?_, ?_⟩, hlen, hd, ?_, hperm⟩
  · exact ((hperm.map Node.key).nodup_iff).2 hinv.nodup
  · rw [hcnt, hperm.length_eq]
  · rw [hcnt, hinv.count]

theorem Chain.mem_update_other (key : Key) (v : Int) (c c' : Chain)
    (h : Chain.update key v c = some c') (n : Node) (hn : n.key ≠ key) :
    n ∈ c' ↔ n ∈ c := by
  induction c generalizing c' with
  | nil => simp [Chain.update] at h
  | cons m rest ih =>
    by_cases hk : m.key = key
    · simp [Chain.update, hk] at h
      subst h
      have h1 : n ≠ m := by
        intro e; rw [e] at hn; exact hn hk
      have h2 : n ≠ ({ key := key, value := v } : Node) := by
        intro e; rw [e] at hn; exact hn rfl
      simp [h1, h2]
    · simp [Chain.update, hk] at h
      obtain ⟨r, hr, rfl⟩ := h
      simp [ih r hr]

theorem Chain.mem_remove_other (key : Key) (c c' : Chain)
    (h : Chain.remove key c = some c') (n : Node) (hn : n.key ≠ key) :
    n ∈ c' ↔ n ∈ c := by
  induction c generalizing c' with
  | nil => simp [Chain.remove] at h
  | cons m rest ih =>
    by_cases hk : m.key = key
    · simp [Chain.remove, hk] at h
      subst h
      have h1 : n ≠ m := by
        intro e; rw [e] at hn; exact hn hk
      simp [h1]
    · simp [Chain.remove, hk] at h
      obtain ⟨r, hr, rfl⟩ := h
      simp [ih r hr]

theorem mem_entries_set_iff {t : HashTable} {i : Nat} {c : Chain}
    (hc : t.table[i]? = some c) (c' : Chain) (cnt : Int) (n : Node)
    (hcc : n ∈ c' ↔ n ∈ c) :
    n ∈ entries { t with table := t.table.set i c', count := cnt } ↔ n ∈ entries t := by
  rw [mem_entries_iff, mem_entries_iff]
  constructor
  · rintro ⟨j, chain, hj, hn⟩
    by_cases hij : i = j
    · subst hij
      simp only [getElem?_set_self_of hc] at hj
      cases hj
      exact ⟨i, c, hc, hcc.1 hn⟩
    · simp only [getElem?_set_other hij] at hj
      exact ⟨j, chain, hj, hn⟩
  · rintro ⟨j, chain, hj, hn⟩
    by_cases hij : i = j
    · subst hij
      rw [hc] at hj
      cases hj
      exact ⟨i, c', getElem?_set_self_of hc, hcc.2 hn⟩
    · exact ⟨j, chain, by simpa only [getElem?_set_other hij] using hj, hn⟩

theorem mem_entries_set_self {t : HashTable} {i : Nat} {c : Chain}
    (hc : t.table[i]? = some c) (c' : Chain) (cnt : Int) (n : Node) (hn : n ∈ c') :
    n ∈ entries { t with table := t.table.set i c', count := cnt } :=
  (mem_entries_iff _ n).2 ⟨i, c', getElem?_set_self_of hc, hn⟩

theorem checkAndResize_spec {t : HashTable} (hinv : Inv t) (hpos : 0 < t.table.length) :
    ∃ t' : HashTable, checkAndResize t = some t' ∧ Inv t' ∧ t'.debugMode = t.debugMode ∧
      t'.count = t.count ∧ (entries t').Perm (entries t) ∧
      t'.table.length =
        if loadFactorReachedAt t.count t.table.length = true then 2 * t.table.length
        else t.table.length := by
  have hat : loadFactorReached t = loadFactorReachedAt t.count t.table.length := rfl
  by_cases hlf : loadFactorReachedAt t.count t.table.length = true
  · obtain ⟨t', hres, _⟩ := resize_total t
    obtain ⟨hinv', hlen', hdbg', hcnt', hperm'⟩ := hinv.resize hpos hres
    refine ⟨t', ?_, hinv', hdbg', hcnt', hperm', ?_⟩
    · simp [checkAndResize, hat, hlf, hres]
    · rw [if_pos hlf, hlen']
  · refine ⟨t, ?_, hinv, rfl, rfl, List.Perm.refl _, ?_⟩
    · simp [checkAndResize, hat, hlf]
    · rw [if_neg hlf]

theorem put_spec {t : HashTable} (hinv : Inv t) (hpos : 0 < t.table.length)
    (key : Key) (value : Int) :
    ∃ t' : HashTable, put t key value = some t' ∧ Inv t' ∧ t'.debugMode = t.debugMode ∧
      ({ key := key, value := value } : Node) ∈ entries t' ∧
      (∀ n : Node, n.key ≠ key → (n ∈ entries t' ↔ n ∈ entries t)) ∧
      ((∃ v0, get t key = some (some v0)) →
        t'.count = t.count ∧ t'.table.length = t.table.length) ∧
      (get t key = some none →
        t'.count = t.count + 1 ∧
        t'.table.length =
          if loadFactorReachedAt (t.count + 1) t.table.length = true then 2 * t.table.length
          else t.table.length) := by
  obtain ⟨i, c, hi, hc⟩ := bucket_of_pos t key hpos
  have hget := get_eq_of_bucket _ hi hc
  cases hu : Chain.update key value c with
  | some c' =>
    have hfind : Chain.find key c ≠ none := by
      intro hf
      rw [← Chain.update_eq_none_iff key value c, hu] at hf
      cases hf
    refine ⟨{ t with table := t.table.set i c' }, by simp [put, hi, hc, hu],
      hinv.update hc hu, rfl, ?_, ?_, ?_, ?_⟩
    · exact mem_entries_set_self hc c' t.count _
        (Chain.mem_of_find key value c' (Chain.find_update_self key value c c' hu))
    · intro n hn
      exact mem_entries_set_iff hc c' t.count n (Chain.mem_update_other key value c c' hu n hn)
    · intro _
      exact ⟨rfl, by simp⟩
    · intro habs
      rw [hget] at habs
      exact absurd (by simpa using habs) hfind
  | none =>
    have hfind : Chain.find key c = none := (Chain.update_eq_none_iff key value c).1 hu
    have hinv1 := hinv.insert value hi hc hfind
    have hmem1 := mem_entries_set_self hc ({ key := key, value := value } :: c)
      (t.count + 1) _ (List.mem_cons_self _ _)
    have hother1 : ∀ n : Node, n.key ≠ key →
        (n ∈ entries { t with table := t.table.set i ({ key := key, value := value } :: c),
                              count := t.count + 1 } ↔ n ∈ entries t) := by
      intro n hn
      apply mem_entries_set_iff hc
      have : n ≠ ({ key := key, value := value } : Node) := by
        intro e; rw [e] at hn; exact hn rfl
      simp [this]
    have hput : put t key value = checkAndResize
        { t with table := t.table.set i ({ key := key, value := value } :: c),
                 count := t.count + 1 } := by
      simp [put, hi, hc, hu]
    have hpresent : ¬ ∃ v0, get t key = some (some v0) := by
      rintro ⟨v0, h0⟩
      rw [hget, hfind] at h0
      cases h0
    obtain ⟨t', hcr, hinv', hdbg', hcnt', hperm', hlen'⟩ :=
      checkAndResize_spec hinv1 (by simpa using hpos)
    refine ⟨t', by rw [hput, hcr], hinv', hdbg', hperm'.mem_iff.2 hmem1, ?_, ?_, ?_⟩
    · intro n hn
      rw [hperm'.mem_iff]
      exact hother1 n hn
    · intro h; exact absurd h hpresent
    · intro _
      refine ⟨hcnt', ?_⟩
      rw [hlen']
      simp

theorem get_cases {t : HashTable} {key : Key} {r : Option Int} (h : get t key = some r) :
    ∃ (i : Nat) (c : Chain), hash key t.table.length = some i ∧ t.table[i]? = some c ∧
      r = Chain.find key c := by
  unfold get at h
  cases hi : hash key t.table.length with
  | none => simp [hi] at h
  | some i =>
    cases hc : t.table[i]? with
    | none => simp [hi, hc] at h
    | some c =>
      simp [hi, hc] at h
      exact ⟨i, c, rfl, hc, h.symm⟩

theorem removeKey_of_get_none {t : HashTable} {key : Key} (h : get t key = some none) :
    removeKey t key = some (false, t) := by
  obtain ⟨i, c, hi, hc, hf⟩ := get_cases h
  have hr : Chain.remove key c = none := (Chain.remove_eq_none_iff key c).2 hf.symm
  simp [removeKey, hi, hc, hr]

theorem removeKey_of_get_some {t : HashTable} (hinv : Inv t) {key : Key} {v : Int}
    (h : get t key = some (some v)) :
    ∃ t' : HashTable, removeKey t key = some (true, t') ∧ Inv t' ∧
      t'.count = t.count - 1 ∧ t'.table.length = t.table.length ∧
      t'.debugMode = t.debugMode ∧ get t' key = some none ∧
      (∀ n : Node, n.key ≠ key → (n ∈ entries t' ↔ n ∈ entries t)) := by
  obtain ⟨i, c, hi, hc, hf⟩ := get_cases h
  cases hr : Chain.remove key c with
  | none =>
    rw [Chain.remove_eq_none_iff, ← hf] at hr
    cases hr
  | some c' =>
    refine ⟨{ t with table := t.table.set i c', count := t.count - 1 },
      by simp [removeKey, hi, hc, hr], hinv.remove hc hr, rfl, by simp, rfl, ?_, ?_⟩
    · have hi' : hash key (t.table.set i c').length = some i := by simpa using hi
      rw [get_eq_of_bucket { t with table := t.table.set i c', count := t.count - 1 }
        hi' (getElem?_set_self_of hc)]
      rw [Chain.find_remove_self key c c' (hinv.chain_nodup hc) hr]
    · intro n hn
      exact mem_entries_set_iff hc c' (t.count - 1) n (Chain.mem_remove_other key c c' hr n hn)

theorem removeKey_cases {t t' : HashTable} {key : Key} {b : Bool}
    (h : removeKey t key = some (b, t')) :
    (b = false ∧ t' = t ∧ get t key = some none) ∨
    (b = true ∧ ∃ v, get t key = some (some v)) := by
  unfold removeKey at h
  cases hi : hash key t.table.length with
  | none => simp [hi] at h
  | some i =>
    cases hc : t.table[i]? with
    | none => simp [hi, hc] at h
    | some c =>
      cases hr : Chain.remove key c with
      | none =>
        simp [hi, hc, hr] at h
        left
        refine ⟨by rw [← h.1], by rw [← h.2], ?_⟩
        rw [get_eq_of_bucket _ hi hc, (Chain.remove_eq_none_iff key c).1 hr]
      | some c' =>
        simp [hi, hc, hr] at h
        right
        refine ⟨by rw [← h.1], ?_⟩
        cases hf : Chain.find key c with
        | none =>
          rw [← Chain.remove_eq_none_iff, hr] at hf
          cases hf
        | some v => exact ⟨v, by rw [get_eq_of_bucket _ hi hc, hf]⟩

theorem copyChain_eq (c : Chain) : copyChain c = (c, (c.length : Int)) := by
  induction c with
  | nil => rfl
  | cons n rest ih =>
    simp only [copyChain, ih, List.length_cons]
    push_cast
    rfl

theorem copyBuckets_eq (L : List Chain) : copyBuckets L = (L, (L.flatten.length : Int)) := by
  induction L with
  | nil => rfl
  | cons c rest ih =>
    simp only [copyBuckets, ih, copyChain_eq, List.flatten_cons, List.length_append]
    push_cast
    rfl

theorem copyConstruct_eq {t : HashTable} (hcount : t.count = ((entries t).length : Int)) :
    copyConstruct t = t := by
  cases t with
  | mk table count debugMode =>
    simp only [entries] at hcount
    simp [copyConstruct, copyBuckets_eq, hcount]

theorem assign_eq_copyConstruct (self other : HashTable) :
    assign self other = copyConstruct other := rfl

theorem entries_clear (t : HashTable) : entries (clear t) = [] := by
  simp only [entries, clear]
  induction t.table with
  | nil => rfl
  | cons c rest ih => simp [ih]

theorem Inv.clear (t : HashTable) : Inv (clear t) := by
  refine ⟨?_, ?_, ?_⟩
  · intro i chain hi n hn
    have hmem := List.getElem?_mem hi
    simp only [DSA2HashTable.clear, List.mem_map] at hmem
    obtain ⟨_, _, rfl⟩ := hmem
    simp at hn
  · rw [entries_clear]
    exact List.nodup_nil
  · rw [entries_clear]
    rfl

theorem flatten_replicate_nil (n : Nat) : (List.replicate n ([] : Chain)).flatten = [] := by
  induction n with
  | zero => rfl
  | succ k ih => simp [List.replicate_succ, ih]

theorem construct_spec {capacity : Int} {debug : Bool} {t : HashTable}
    (h : construct capacity debug = some t) :
    0 ≤ capacity ∧ t = { table := List.replicate capacity.toNat [], count := 0,
                         debugMode := debug } := by
  unfold construct at h
  by_cases hc : capacity < 0
  · simp [hc] at h
  · simp [hc] at h
    exact ⟨by omega, h.symm⟩

theorem Inv.construct {capacity : Int} {debug : Bool} {t : HashTable}
    (h : construct capacity debug = some t) : Inv t := by
  obtain ⟨_, rfl⟩ := construct_spec h
  refine ⟨?_, ?_, ?_⟩
  · intro i chain hi n hn
    have hmem := List.getElem?_mem hi
    rw [List.mem_replicate] at hmem
    rw [hmem.2] at hn
    simp at hn
  · simp [entries, flatten_replicate_nil]
  · simp [entries, flatten_replicate_nil]

theorem Inv.setDebug {t : HashTable} (hinv : Inv t) (debug : Bool) : Inv (setDebug t debug) :=
  ⟨hinv.home, hinv.nodup, hinv.count⟩

theorem Reachable.inv {t : HashTable} (h : Reachable t) : Inv t ∧ 0 < t.table.length := by
  induction h with
  | construct capacity debug t hcap hc =>
    refine ⟨Inv.construct hc, ?_⟩
    obtain ⟨_, rfl⟩ := construct_spec hc
    simp
    omega
  | put t t' key value _ hput ih =>
    obtain ⟨t'', h', hinv', _, _, _, hpres, habs⟩ := put_spec ih.1 ih.2 key value
    rw [hput] at h'
    cases h'
    refine ⟨hinv', ?_⟩
    obtain ⟨r, hr⟩ := get_isSome t key ih.2
    cases r with
    | none =>
      have := (habs hr).2
      split at this <;> omega
    | some v0 =>
      have := (hpres ⟨v0, hr⟩).2
      omega
  | removeKey t t' key b _ hrem ih =>
    rcases removeKey_cases hrem with ⟨_, rfl, _⟩ | ⟨_, v, hv⟩
    · exact ih
    · obtain ⟨t'', h', hinv', _, hlen, _⟩ := removeKey_of_get_some ih.1 hv
      rw [hrem] at h'
      cases h'
      exact ⟨hinv', by omega⟩
  | clear t _ ih => exact ⟨Inv.clear _, by simpa [DSA2HashTable.clear] using ih.2⟩
  | setDebug t debug _ ih => exact ⟨ih.1.setDebug _, ih.2⟩
  | copyConstruct t _ ih =>
    rw [copyConstruct_eq ih.1.count]
    exact ih
  | assign self other _ _ _ ih =>
    rw [assign_eq_copyConstruct, copyConstruct_eq ih.1.count]
    exact ih

theorem reachable_table11 : Reachable table11 :=
  Reachable.construct 11 false table11 (by decide) (by decide)

theorem reachable_table1 : Reachable table1 :=
  Reachable.construct 1 false table1 (by decide) (by decide)

theorem reachable_table11a : Reachable table11a :=
  Reachable.put table11 table11a [97] 1 reachable_table11 (by decide)

/-- C1 (round trip): on every table reachable from a construction with capacity at least 1,
`put key value` returns, and `get key` on the table it leaves reports found with `value`;
this covers the overwrite of an existing entry, the insertion of a new one and the insertion
that triggers a resize. -/
theorem put_get_roundtrip (t : HashTable) (h : Reachable t) (key : Key) (value : Int) :
    ∃ t' : HashTable, put t key value = some t' ∧ get t' key = some (some value) := by
  obtain ⟨hinv, hpos⟩ := h.inv
  obtain ⟨t', hput, hinv', _, hmem, _⟩ := put_spec hinv hpos key value
  exact ⟨t', hput, (get_some_iff_mem hinv' key value).2 hmem⟩

/-- Witness of C1: the empty key put into a fresh table of capacity 1, which resizes. -/
theorem put_get_roundtrip_witness :
    Reachable table1 ∧
    put table1 [] 7 =
      some { table := [[{ key := [], value := 7 }], []], count := 1, debugMode := false } ∧
    ∃ t' : HashTable, put table1 [] 7 = some t' ∧ get t' [] = some (some 7) :=
  ⟨reachable_table1, by decide, put_get_roundtrip table1 reachable_table1 [] 7⟩

/-- C2 (collision handling): on every reachable table, `put k v` returns and leaves the
result of `get k'` as it was for every other key `k'`, whether or not the two keys share
a bucket and whether or not the put resizes; and after `put k v` then `put k' v'` both
keys are found with their own values. -/
theorem put_preserves_other_keys (t : HashTable) (h : Reachable t) (k k' : Key) (v : Int)
    (hne : k ≠ k') :
    (∃ t' : HashTable, put t k v = some t' ∧ get t' k' = get t k') ∧
    (∀ v' : Int, ∃ t1 t2 : HashTable, put t k v = some t1 ∧ put t1 k' v' = some t2 ∧
      get t2 k = some (some v) ∧ get t2 k' = some (some v')) := by
  obtain ⟨hinv, hpos⟩ := h.inv
  obtain ⟨t1, hput1, hinv1, _, hmem1, hother1, _⟩ := put_spec hinv hpos k v
  have hr1 : Reachable t1 := Reachable.put _ _ _ _ h hput1
  have hpos1 := hr1.inv.2
  have hframe : get t1 k' = get t k' :=
    get_congr hinv hinv1 hpos hpos1 k' (fun w => hother1 _ (fun e => hne e.symm))
  refine ⟨⟨t1, hput1, hframe⟩, ?_⟩
  intro v'
  obtain ⟨t2, hput2, hinv2, _, hmem2, hother2, _⟩ := put_spec hinv1 hpos1 k' v'
  refine ⟨t1, t2, hput1, hput2, ?_, (get_some_iff_mem hinv2 k' v').2 hmem2⟩
  rw [get_some_iff_mem hinv2, hother2 _ hne]
  exact hmem1

/-- Witness of C2: `"a"` and `"l"` both hash to bucket 9 of a table of capacity 11. -/
theorem put_preserves_other_keys_witness :
    Reachable table11a ∧ str "l" ≠ str "a" ∧
    hash (str "l") 11 = hash (str "a") 11 ∧
    (∃ t' : HashTable, put table11a (str "l") 2 = some t' ∧
      get t' (str "a") = get table11a (str "a")) ∧
    (∀ v' : Int, ∃ t1 t2 : HashTable, put table11a (str "l") 2 = some t1 ∧
      put t1 (str "a") v' = some t2 ∧
      get t2 (str "l") = some (some 2) ∧ get t2 (str "a") = some (some v')) :=
  ⟨reachable_table11a, by decide, by decide,
    put_preserves_other_keys table11a reachable_table11a (str "l") (str "a") 2 (by decide)⟩

/-- C3 (delete, success case): on every reachable table, when `removeKey key` returns true
the key is not found afterwards and the count is one less than before; and `removeKey key`
returns true whenever `get key` reported found before the call. -/
theorem removeKey_success (t : HashTable) (h : Reachable t) (key : Key) :
    (∀ t' : HashTable, removeKey t key = some (true, t') →
      get t' key = some none ∧ getCount t' = getCount t - 1) ∧
    (∀ v : Int, get t key = some (some v) →
      ∃ t' : HashTable, removeKey t key = some (true, t')) := by
  obtain ⟨hinv, _⟩ := h.inv
  constructor
  · intro t' hrem
    rcases removeKey_cases hrem with ⟨hb, _⟩ | ⟨_, v, hv⟩
    · cases hb
    · obtain ⟨t'', h', _, hcnt, _, _, hget, _⟩ := removeKey_of_get_some hinv hv
      rw [hrem] at h'
      cases h'
      exact ⟨hget, hcnt⟩
  · intro v hv
    obtain ⟨t', h', _⟩ := removeKey_of_get_some hinv hv
    exact ⟨t', h'⟩

/-- Witness of C3: removing `"a"` from the table that holds only `"a"`. -/
theorem removeKey_success_witness :
    Reachable table11a ∧ removeKey table11a (str "a") = some (true, table11) ∧
    (∀ t' : HashTable, removeKey table11a (str "a") = some (true, t') →
      get t' (str "a") = some none ∧ getCount t' = getCount table11a - 1) ∧
    (∀ v : Int, get table11a (str "a") = some (some v) →
      ∃ t' : HashTable, removeKey table11a (str "a") = some (true, t')) :=
  ⟨reachable_table11a, by decide, removeKey_success table11a reachable_table11a (str "a")⟩

/-- C4 (delete of an absent key): on every table, reachable or not, when `get key` reports
not-found, `removeKey key` returns false and the table after the call is the table before
it: same count, same capacity, same chain in every bucket. -/
theorem removeKey_absent (t : HashTable) (key : Key) (habs : get t key = some none) :
    ∃ t' : HashTable, removeKey t key = some (false, t') ∧ getCount t' = getCount t ∧
      getCapacity t' = getCapacity t ∧ t'.table = t.table ∧ t' = t :=
  ⟨t, removeKey_of_get_none habs, rfl, rfl, rfl, rfl⟩

/-- Witness of C4: removing `"l"`, which shares the bucket of `"a"` but is not stored. -/
theorem removeKey_absent_witness :
    Reachable table11a ∧ get table11a (str "l") = some none ∧
    ∃ t' : HashTable, removeKey table11a (str "l") = some (false, t') ∧
      getCount t' = getCount table11a ∧ getCapacity t' = getCapacity table11a ∧
      t'.table = table11a.table ∧ t' = table11a :=
  ⟨reachable_table11a, by decide,
    removeKey_absent table11a (str "l") (by decide)⟩

/-- C5 (update): on every reachable table, `put key v1` followed by `put key v2` leaves
the count as it was after the first put and `get key` then reports `v2`; a put on a key
that is present does not change the count, a put on an absent key adds exactly 1. -/
theorem put_count (t : HashTable) (h : Reachable t) (key : Key) (v1 v2 : Int) :
    (∃ t1 t2 : HashTable, put t key v1 = some t1 ∧ put t1 key v2 = some t2 ∧
      getCount t2 = getCount t1 ∧ get t2 key = some (some v2)) ∧
    (∀ v0 : Int, get t key = some (some v0) →
      ∃ t' : HashTable, put t key v1 = some t' ∧ getCount t' = getCount t) ∧
    (get t key = some none →
      ∃ t' : HashTable, put t key v1 = some t' ∧ getCount t' = getCount t + 1) := by
  obtain ⟨hinv, hpos⟩ := h.inv
  obtain ⟨t1, hput1, hinv1, _, hmem1, _, hpres1, habs1⟩ := put_spec hinv hpos key v1
  have hr1 : Reachable t1 := Reachable.put _ _ _ _ h hput1
  have hpos1 := hr1.inv.2
  obtain ⟨t2, hput2, hinv2, _, hmem2, _, hpres2, _⟩ := put_spec hinv1 hpos1 key v2
  refine ⟨⟨t1, t2, hput1, hput2, ?_, (get_some_iff_mem hinv2 key v2).2 hmem2⟩, ?_, ?_⟩
  · exact (hpres2 ⟨v1, (get_some_iff_mem hinv1 key v1).2 hmem1⟩).1
  · intro v0 hv0
    exact ⟨t1, hput1, (hpres1 ⟨v0, hv0⟩).1⟩
  · intro hnone
    exact ⟨t1, hput1, (habs1 hnone).1⟩

/-- Witness of C5: `"a"` is stored in the table and `"l"` is not. -/
theorem put_count_witness :
    Reachable table11a ∧ get table11a (str "a") = some (some 1) ∧
    (∃ t1 t2 : HashTable, put table11a (str "a") 25 = some t1 ∧
      put t1 (str "a") 30 = some t2 ∧
      getCount t2 = getCount t1 ∧ get t2 (str "a") = some (some 30)) ∧
    (∀ v0 : Int, get table11a (str "a") = some (some v0) →
      ∃ t' : HashTable, put table11a (str "a") 25 = some t' ∧
        getCount t' = getCount table11a) ∧
    (get table11a (str "a") = some none →
      ∃ t' : HashTable, put table11a (str "a") 25 = some t' ∧
        getCount t' = getCount table11a + 1) :=
  ⟨reachable_table11a, by decide, put_count table11a reachable_table11a (str "a") 25 30⟩

theorem putAll_cons (t : HashTable) (kv : Key × Int) (rest : List (Key × Int)) :
    putAll t (kv :: rest) = (put t kv.1 kv.2).bind (fun t1 => putAll t1 rest) := by
  simp [putAll, List.foldlM_cons]

theorem putAll_append (t : HashTable) (l1 l2 : List (Key × Int)) :
    putAll t (l1 ++ l2) = (putAll t l1).bind (fun t1 => putAll t1 l2) := by
  simp [putAll, List.foldlM_append]

theorem putAll_fresh (kvs : List (Key × Int)) (t : HashTable) (hinv : Inv t)
    (hpos : 0 < t.table.length) (hnd : (kvs.map Prod.fst).Nodup)
    (habs : ∀ kv ∈ kvs, ∀ n ∈ entries t, n.key ≠ kv.1)
    (hlf : ∀ k : Nat, k < kvs.length →
      loadFactorReachedAt (t.count + (k : Int) + 1) t.table.length = false) :
    ∃ t' : HashTable, putAll t kvs = some t' ∧ Inv t' ∧
      t'.table.length = t.table.length ∧ t'.count = t.count + kvs.length ∧
      (∀ n ∈ entries t', n ∈ entries t ∨ n.key ∈ kvs.map Prod.fst) := by
  induction kvs generalizing t with
  | nil => exact ⟨t, rfl, hinv, rfl, by simp, fun n hn => Or.inl hn⟩
  | cons kv rest ih =>
    simp only [List.map_cons, List.nodup_cons] at hnd
    simp only [List.length_cons] at hlf
    have hnone : get t kv.1 = some none :=
      (get_none_iff hinv hpos kv.1).2 (habs kv (List.mem_cons_self _ _))
    obtain ⟨t1, hput, hinv1, _, _, hother, _, hnew⟩ := put_spec hinv hpos kv.1 kv.2
    obtain ⟨hcnt1, hlen1⟩ := hnew hnone
    have hnlf : ¬ loadFactorReachedAt (t.count + 1) t.table.length = true := by
      have h0 := hlf 0 (Nat.succ_pos _)
      simp only [Nat.cast_zero, add_zero] at h0
      simp [h0]
    rw [if_neg hnlf] at hlen1
    have habs1 : ∀ kv' ∈ rest, ∀ n ∈ entries t1, n.key ≠ kv'.1 := by
      intro kv' hkv' n hn hk
      have hne : n.key ≠ kv.1 := by
        intro e
        apply hnd.1
        rw [← e, hk]
        exact List.mem_map.2 ⟨kv', hkv', rfl⟩
      exact habs kv' (List.mem_cons_of_mem _ hkv') n ((hother n hne).1 hn) hk
    obtain ⟨t', hall, hinv', hlen', hcnt', hmem'⟩ :=
      ih t1 hinv1 (by omega) hnd.2 habs1 (by
        intro k hk
        have hk1 := hlf (k + 1) (Nat.succ_lt_succ hk)
        rw [hcnt1, hlen1]
        have harg : t.count + 1 + (k : Int) + 1 = t.count + ((k + 1 : Nat) : Int) + 1 := by
          push_cast
          ring
        rw [harg]
        exact hk1)
    refine ⟨t', ?_, hinv', by omega, ?_, ?_⟩
    · rw [putAll_cons, hput]
      exact hall
    · rw [hcnt', hcnt1]
      simp only [List.length_cons]
      push_cast
      omega
    · intro n hn
      rcases hmem' n hn with h1 | h2
      · by_cases e : n.key = kv.1
        · right
          simp [e]
        · left
          exact (hother n e).1 h1
      · right
        simp only [List.map_cons, List.mem_cons]
        exact Or.inr h2

theorem nine_inserts (kvs : List (Key × Int)) (hlen : kvs.length = 9)
    (hnd : (kvs.map Prod.fst).Nodup) (debug : Bool) :
    ∃ t0 t8 t9 : HashTable, construct 11 debug = some t0 ∧
      putAll t0 (kvs.take 8) = some t8 ∧ getCapacity t8 = 11 ∧
      putAll t0 kvs = some t9 ∧ getCapacity t9 = 22 ∧ getCount t9 = 9 := by
  have hc : construct 11 debug =
      some { table := List.replicate 11 [], count := 0, debugMode := debug } := by
    simp [construct]
  have hinv0 := Inv.construct hc
  have hent0 : entries { table := List.replicate 11 [], count := 0, debugMode := debug } = [] :=
    flatten_replicate_nil 11
  have hsplit : kvs = kvs.take 8 ++ kvs.drop 8 := (List.take_append_drop 8 kvs).symm
  have hdrop : (kvs.drop 8).length = 1 := by simp [hlen]
  obtain ⟨kv9, hkv9⟩ := List.length_eq_one.1 hdrop
  have htake : (kvs.take 8).length = 8 := by simp [hlen]
  rw [hkv9] at hsplit
  have hnd' : ((kvs.take 8).map Prod.fst ++ [kv9.1]).Nodup := by
    have := hnd
    rw [hsplit] at this
    simpa using this
  obtain ⟨hnd8, _, hdisj⟩ := List.nodup_append.1 hnd'
  obtain ⟨t8, hall8, hinv8, hlen8, hcnt8, hmem8⟩ :=
    putAll_fresh (kvs.take 8) _ hinv0 (by simp) hnd8
      (by intro kv _ n hn; rw [hent0] at hn; cases hn)
      (by
        intro k hk
        rw [htake] at hk
        simp only [List.length_replicate, zero_add]
        interval_cases k <;> decide)
  have hpos8 : 0 < t8.table.length := by rw [hlen8]; simp
  have hnone : get t8 kv9.1 = some none := by
    rw [get_none_iff hinv8 hpos8]
    intro n hn hk
    rcases hmem8 n hn with h1 | h2
    · rw [hent0] at h1; cases h1
    · exact hdisj h2 (by simp [hk])
  obtain ⟨t9, hput9, _, _, _, _, _, hnew⟩ := put_spec hinv8 hpos8 kv9.1 kv9.2
  obtain ⟨hcnt9, hlen9⟩ := hnew hnone
  rw [hcnt8, hlen8, htake] at hlen9
  rw [hcnt8, htake] at hcnt9
  simp only [List.length_replicate] at hlen9
  rw [if_pos (by decide)] at hlen9
  refine ⟨_, t8, t9, hc, hall8, ?_, ?_, ?_, ?_⟩
  · simp [getCapacity, hlen8]
  · rw [hsplit, putAll_append, hall8]
    simp [putAll_cons, hput9, putAll]
  · simpa [getCapacity] using hlen9
  · simpa [getCount] using hcnt9

/-- With enough fuel the halving count of `n` is the position of its leading bit. -/
theorem log2Fuel_bounds : ∀ (fuel n : Nat), 1 ≤ n → n ≤ fuel →
    2 ^ log2Fuel fuel n ≤ n ∧ n < 2 ^ (log2Fuel fuel n + 1) := by
  intro fuel
  induction fuel with
  | zero =>
    intro n h1 h2
    omega
  | succ f ih =>
    intro n h1 h2
    by_cases hn : n < 2
    · simp only [log2Fuel, if_pos hn]
      constructor <;> simp <;> omega
    · simp only [log2Fuel, if_neg hn]
      obtain ⟨ha, hb⟩ := ih (n / 2) (by omega) (by omega)
      constructor
      · rw [pow_succ]
        have := Nat.div_mul_le_self n 2
        calc 2 ^ log2Fuel f (n / 2) * 2 ≤ n / 2 * 2 := Nat.mul_le_mul_right 2 ha
          _ ≤ n := this
      · rw [pow_succ]
        have h3 : n / 2 + 1 ≤ 2 ^ (log2Fuel f (n / 2) + 1) := hb
        have h4 : n < (n / 2 + 1) * 2 := by omega
        calc n < (n / 2 + 1) * 2 := h4
          _ ≤ 2 ^ (log2Fuel f (n / 2) + 1) * 2 := Nat.mul_le_mul_right 2 h3

theorem floorLog2_le (n : Nat) (h : 1 ≤ n) : 2 ^ floorLog2 n ≤ n :=
  (log2Fuel_bounds n n h (le_refl n)).1

theorem lt_floorLog2 (n : Nat) (h : 1 ≤ n) : n < 2 ^ (floorLog2 n + 1) :=
  (log2Fuel_bounds n n h (le_refl n)).2

/-- A power of two with an integer exponent, split into its numerator and denominator. -/
theorem two_zpow_toNat (z : Int) : ((2 : ℚ) ^ z.toNat) / (2 : ℚ) ^ (-z).toNat = (2 : ℚ) ^ z := by
  rcases le_total 0 z with h | h
  · have h1 : (-z).toNat = 0 := Int.toNat_eq_zero.2 (by omega)
    rw [h1, pow_zero, div_one, ← zpow_natCast, Int.toNat_of_nonneg h]
  · have h1 : z.toNat = 0 := Int.toNat_eq_zero.2 h
    have h2 : ((-z).toNat : Int) = -z := Int.toNat_of_nonneg (by omega)
    rw [h1, pow_zero, one_div, ← zpow_natCast, h2, zpow_neg, inv_inv]

/-- Rounding exceeds the exact quotient by at most one half. -/
theorem roundQuotient_le (n dd : Nat) (hdd : 0 < dd) :
    2 * (roundQuotient n dd * dd) ≤ 2 * n + dd := by
  have hdm : dd * (n / dd) + n % dd = n := Nat.div_add_mod n dd
  have hr : n % dd < dd := Nat.mod_lt n hdd
  have hc : dd * (n / dd) = n / dd * dd := Nat.mul_comm _ _
  simp only [roundQuotient]
  split_ifs with h1 h2
  · omega
  · rw [Nat.add_mul]
    omega
  · have h3 : n / dd % 2 ≤ 1 := by omega
    have h4 : n / dd % 2 * dd ≤ 1 * dd := Nat.mul_le_mul_right dd h3
    rw [Nat.add_mul]
    omega

/-- The binary exponent found for `num / den` is not above the quotient. -/
theorem quotientExponent_le (num den : Nat) (hn : 0 < num) (hd : 0 < den) :
    (2 : ℚ) ^ quotientExponent num den ≤ (num : ℚ) / den := by
  have hdq : (0 : ℚ) < den := by exact_mod_cast hd
  simp only [quotientExponent]
  split_ifs with h
  · rw [← two_zpow_toNat ((floorLog2 num : Int) - (floorLog2 den : Int)),
      div_le_div_iff₀ (by positivity) hdq]
    have h' : ((den * 2 ^ ((floorLog2 num : Int) - (floorLog2 den : Int)).toNat : Nat) : ℚ) ≤
        ((num * 2 ^ (-((floorLog2 num : Int) - (floorLog2 den : Int))).toNat : Nat) : ℚ) := by
      exact_mod_cast h
    push_cast at h'
    linarith
  · have h1 := floorLog2_le num hn
    have h2 := lt_floorLog2 den hd
    have hpow : (2 : ℚ) ^ ((floorLog2 num : Int) - (floorLog2 den : Int) - 1) =
        (2 : ℚ) ^ floorLog2 num / (2 : ℚ) ^ (floorLog2 den + 1) := by
      rw [show ((floorLog2 num : Int) - (floorLog2 den : Int) - 1) =
        (floorLog2 num : Int) - ((floorLog2 den + 1 : Nat) : Int) by push_cast; ring]
      rw [zpow_sub₀ (by norm_num), zpow_natCast, zpow_natCast]
    rw [hpow, div_le_div_iff₀ (by positivity) hdq]
    have h1q : ((2 : ℚ) ^ floorLog2 num) ≤ num := by exact_mod_cast h1
    have h2q : (den : ℚ) ≤ 2 ^ (floorLog2 den + 1) := by exact_mod_cast h2.le
    calc (2 : ℚ) ^ floorLog2 num * den ≤ num * den := mul_le_mul_of_nonneg_right h1q hdq.le
      _ ≤ num * 2 ^ (floorLog2 den + 1) := mul_le_mul_of_nonneg_left h2q (by positivity)

/-- The value of a rounded quotient: the rounded 24-bit mantissa at the quotient's exponent. -/
theorem roundNearestEven_toRat (num den : Nat) :
    (roundNearestEven num den).toRat =
      (roundQuotient (num * 2 ^ (23 - quotientExponent num den).toNat)
        (den * 2 ^ (-(23 - quotientExponent num den)).toNat) : ℚ) *
        (2 : ℚ) ^ (quotientExponent num den - 23) := by
  simp only [roundNearestEven]
  split_ifs with hm
  · simp only [PosFloat.toRat, hm]
    rw [show quotientExponent num den - 22 = (quotientExponent num den - 23) + 1 by ring,
      zpow_add₀ (by norm_num)]
    push_cast
    ring
  · rfl

/-- A rounded quotient exceeds the exact one by at most half a unit in the last place. -/
theorem roundNearestEven_toRat_le (num den : Nat) (hd : 0 < den) :
    (roundNearestEven num den).toRat ≤
      (num : ℚ) / den + (2 : ℚ) ^ (quotientExponent num den - 24) := by
  rw [roundNearestEven_toRat]
  generalize quotientExponent num den = e
  have hdd : 0 < den * 2 ^ (-(23 - e)).toNat := Nat.mul_pos hd (by positivity)
  have hM := roundQuotient_le (num * 2 ^ (23 - e).toNat) (den * 2 ^ (-(23 - e)).toNat) hdd
  generalize roundQuotient (num * 2 ^ (23 - e).toNat) (den * 2 ^ (-(23 - e)).toNat) = m at hM
  have hdq : (0 : ℚ) < den := by exact_mod_cast hd
  have hMq : (2 : ℚ) * (m * (den * 2 ^ (-(23 - e)).toNat)) ≤
      2 * (num * 2 ^ (23 - e).toNat) + den * 2 ^ (-(23 - e)).toNat := by exact_mod_cast hM
  have hb : (0 : ℚ) < 2 ^ (-(23 - e)).toNat := by positivity
  have hs : (2 : ℚ) ^ (23 - e).toNat = 2 ^ (23 - e) * 2 ^ (-(23 - e)).toNat := by
    rw [← two_zpow_toNat (23 - e)]
    field_simp
  rw [hs] at hMq
  have hm : (m : ℚ) ≤ num / den * 2 ^ (23 - e) + 1 / 2 := by
    have h1 : (2 : ℚ) * (m * den) ≤ 2 * (num * 2 ^ (23 - e)) + den := by
      have := hMq
      nlinarith [hMq, hb]
    rw [div_mul_eq_mul_div, div_add_div _ _ hdq.ne' two_ne_zero, le_div_iff₀ (by positivity)]
    linarith
  have hp : (0 : ℚ) < 2 ^ (e - 23) := by positivity
  calc (m : ℚ) * 2 ^ (e - 23) ≤ (num / den * 2 ^ (23 - e) + 1 / 2) * 2 ^ (e - 23) :=
        mul_le_mul_of_nonneg_right hm hp.le
    _ = num / den + 2 ^ (e - 24) := by
      rw [add_mul, mul_assoc, ← zpow_add₀ (by norm_num)]
      rw [show 23 - e + (e - 23) = 0 by ring, zpow_zero, mul_one]
      rw [show e - 23 = (e - 24) + 1 by ring, zpow_add₀ (by norm_num)]
      ring

/-- A `float` that compares `>= 0.75f` stands for a number of at least `3/4`. -/
theorem PosFloat.le_toRat_of_geThreeQuarters (f : PosFloat) (h : f.geThreeQuarters = true) :
    (3 : ℚ) / 4 ≤ f.toRat := by
  simp only [PosFloat.geThreeQuarters] at h
  unfold PosFloat.toRat
  split_ifs at h with he
  · have h' : 3 ≤ f.mantissa * 2 ^ (f.exponent + 2).toNat := of_decide_eq_true h
    have hq : (3 : ℚ) ≤ f.mantissa * 2 ^ (f.exponent + 2).toNat := by exact_mod_cast h'
    rw [← zpow_natCast, Int.toNat_of_nonneg he, zpow_add₀ (by norm_num)] at hq
    norm_num at hq
    linarith
  · have h' : 3 * 2 ^ (-(f.exponent + 2)).toNat ≤ f.mantissa := of_decide_eq_true h
    have hq : (3 : ℚ) * 2 ^ (-(f.exponent + 2)).toNat ≤ f.mantissa := by exact_mod_cast h'
    rw [← zpow_natCast, Int.toNat_of_nonneg (by omega), zpow_neg, zpow_add₀ (by norm_num)]
      at hq
    have hp : (0 : ℚ) < 2 ^ f.exponent := by positivity
    have h4 : (3 : ℚ) * (2 ^ f.exponent * 2 ^ (2 : Int))⁻¹ * (2 ^ f.exponent) = 3 / 4 := by
      field_simp
      ring
    calc (3 : ℚ) / 4 = 3 * (2 ^ f.exponent * 2 ^ (2 : Int))⁻¹ * (2 ^ f.exponent) := h4.symm
      _ ≤ f.mantissa * 2 ^ f.exponent := mul_le_mul_of_nonneg_right hq hp.le

/-- The value of a `float` quotient: the rounded quotient of the mantissas, scaled. -/
theorem floatDiv_toRat (a b : PosFloat) :
    (floatDiv a b).toRat =
      (roundNearestEven a.mantissa b.mantissa).toRat * (2 : ℚ) ^ (a.exponent - b.exponent) := by
  simp only [floatDiv, PosFloat.toRat]
  rw [show (roundNearestEven a.mantissa b.mantissa).exponent + a.exponent - b.exponent =
    (roundNearestEven a.mantissa b.mantissa).exponent + (a.exponent - b.exponent) by ring,
    zpow_add₀ (by norm_num)]
  ring

/-- When a `float` quotient compares `>= 0.75f`, the exact quotient of its operands is at
least `3/4 - 2 ^ (-25)`, half a unit in the last place below `0.75f`. -/
theorem floatDiv_geThreeQuarters (a b : PosFloat) (ha : 0 < a.mantissa) (hb : 0 < b.mantissa)
    (h : (floatDiv a b).geThreeQuarters = true) :
    ((3 : ℚ) / 4 - 1 / 2 ^ 25) * b.toRat ≤ a.toRat := by
  have hv := PosFloat.le_toRat_of_geThreeQuarters _ h
  rw [floatDiv_toRat] at hv
  have hr := roundNearestEven_toRat_le a.mantissa b.mantissa hb
  have he := quotientExponent_le a.mantissa b.mantissa ha hb
  generalize quotientExponent a.mantissa b.mantissa = e at hr he
  generalize (roundNearestEven a.mantissa b.mantissa).toRat = v at hv hr
  have hk : (0 : ℚ) < 2 ^ (a.exponent - b.exponent) := by positivity
  have hbq : (0 : ℚ) < b.mantissa := by exact_mod_cast hb
  have hbe : (0 : ℚ) < 2 ^ b.exponent := by positivity
  have hX : a.toRat / b.toRat =
      (a.mantissa : ℚ) / b.mantissa * 2 ^ (a.exponent - b.exponent) := by
    simp only [PosFloat.toRat]
    rw [zpow_sub₀ (by norm_num)]
    field_simp
  have hbpos : 0 < b.toRat := mul_pos hbq hbe
  rw [← le_div_iff₀ hbpos, hX]
  generalize (a.mantissa : ℚ) / b.mantissa = x at hr he
  generalize a.exponent - b.exponent = k at hv hk
  by_cases hlt : x * 2 ^ k < 3 / 4
  · have h1 : (2 : ℚ) ^ (e + k) ≤ x * 2 ^ k := by
      rw [zpow_add₀ (by norm_num)]
      exact mul_le_mul_of_nonneg_right he hk.le
    have hek : e + k < 0 := by
      by_contra hcon
      have : (1 : ℚ) ≤ 2 ^ (e + k) := one_le_zpow₀ (by norm_num) (by omega)
      linarith
    have h2 : (2 : ℚ) ^ (e - 24 + k) ≤ 2 ^ (-25 : Int) :=
      zpow_le_zpow_right₀ (by norm_num) (by omega)
    have h3 : v * 2 ^ k ≤ x * 2 ^ k + 2 ^ (e - 24 + k) := by
      rw [zpow_add₀ (by norm_num : (2 : ℚ) ≠ 0) (e - 24) k, ← add_mul]
      exact mul_le_mul_of_nonneg_right hr hk.le
    have h4 : (2 : ℚ) ^ (-25 : Int) = 1 / 2 ^ 25 := by
      rw [zpow_neg, one_div]
      norm_cast
    rw [h4] at h2
    generalize (2 : ℚ) ^ (e - 24 + k) = w at h2 h3
    generalize v * 2 ^ k = vk at hv h3
    generalize x * 2 ^ k = xk at hlt h1 h3
    linarith
  · have : (0 : ℚ) < 1 / 2 ^ 25 := by norm_num
    linarith

/-- Rounding does not go below the floor of the quotient. -/
theorem le_roundQuotient (n dd : Nat) : n / dd ≤ roundQuotient n dd := by
  simp only [roundQuotient]
  split_ifs <;> omega

theorem roundQuotient_one (n : Nat) : roundQuotient n 1 = n := by
  simp [roundQuotient, Nat.mod_one]

/-- The mantissa of a rounded positive quotient is positive. -/
theorem roundNearestEven_mantissa_pos (num den : Nat) (hn : 0 < num) (hd : 0 < den) :
    0 < (roundNearestEven num den).mantissa := by
  simp only [roundNearestEven]
  split_ifs with hm
  · exact Nat.pos_pow_of_pos 23 (by norm_num)
  · have he := quotientExponent_le num den hn hd
    generalize quotientExponent num den = e at he
    refine lt_of_lt_of_le ?_ (le_roundQuotient _ _)
    have hdd : 0 < den * 2 ^ (-(23 - e)).toNat := Nat.mul_pos hd (by positivity)
    refine Nat.div_pos ?_ hdd
    have hdq : (0 : ℚ) < den := by exact_mod_cast hd
    have hnq : (0 : ℚ) < num := by exact_mod_cast hn
    have hb : (0 : ℚ) < 2 ^ (-(23 - e)).toNat := by positivity
    have hs : (2 : ℚ) ^ (23 - e).toNat = 2 ^ (23 - e) * 2 ^ (-(23 - e)).toNat := by
      rw [← two_zpow_toNat (23 - e)]
      field_simp
    have hpe : (0 : ℚ) < 2 ^ e := by positivity
    have h1 : (den : ℚ) * 2 ^ e ≤ num := by
      rw [le_div_iff₀ hdq] at he
      linarith
    have h2 : (2 : ℚ) ^ (23 - e) * 2 ^ e = 2 ^ (23 : Int) := by
      rw [← zpow_add₀ (by norm_num)]
      congr 1
      ring
    have h3 : (den : ℚ) ≤ num * 2 ^ (23 - e) := by
      have hp : (0 : ℚ) < 2 ^ (23 - e) := by positivity
      have h23 : (1 : ℚ) ≤ 2 ^ (23 : Int) := one_le_zpow₀ (by norm_num) (by norm_num)
      have h5 : (den : ℚ) * 2 ^ (23 : Int) ≤ num * 2 ^ (23 - e) * 2 ^ (23 : Int) := by
        calc (den : ℚ) * 2 ^ (23 : Int) = den * 2 ^ e * 2 ^ (23 - e) := by
              rw [← h2]
              ring
          _ ≤ num * 2 ^ (23 - e) := mul_le_mul_of_nonneg_right h1 hp.le
          _ ≤ num * 2 ^ (23 - e) * 2 ^ (23 : Int) :=
              le_mul_of_one_le_right (mul_pos hnq hp).le h23
      exact le_of_mul_le_mul_right h5 (by positivity)
    have h4 : ((den * 2 ^ (-(23 - e)).toNat : Nat) : ℚ) ≤
        ((num * 2 ^ (23 - e).toNat : Nat) : ℚ) := by
      push_cast
      rw [hs, ← mul_assoc]
      exact mul_le_mul_of_nonneg_right h3 hb.le
    exact_mod_cast h4

theorem quotientExponent_one (n : Nat) (hn : 1 ≤ n) :
    quotientExponent n 1 = (floorLog2 n : Int) := by
  have h1 : floorLog2 1 = 0 := rfl
  have h2 := floorLog2_le n hn
  simp only [quotientExponent, h1, Nat.cast_zero, sub_zero, Int.toNat_ofNat, one_mul]
  rw [if_pos]
  have h3 : (-(floorLog2 n : Int)).toNat = 0 := Int.toNat_eq_zero.2 (by omega)
  rw [h3, pow_zero, mul_one]
  exact h2

/-- A positive integer below `2 ^ 24` converts to `float` without rounding. -/
theorem toFloat_toRat (n : Nat) (hn : 1 ≤ n) (h24 : n < 2 ^ 24) :
    (toFloat n).toRat = (n : ℚ) := by
  rw [toFloat, roundNearestEven_toRat, quotientExponent_one n hn]
  have hL : floorLog2 n ≤ 23 := by
    by_contra hc
    have h1 := floorLog2_le n hn
    have h2 : 2 ^ 24 ≤ 2 ^ floorLog2 n := Nat.pow_le_pow_right (by norm_num) (by omega)
    exact absurd (lt_of_le_of_lt (le_trans h2 h1) h24) (lt_irrefl _)
  have h2 : (-(23 - (floorLog2 n : Int))).toNat = 0 := Int.toNat_eq_zero.2 (by omega)
  rw [h2, pow_zero, mul_one, roundQuotient_one]
  push_cast
  rw [← zpow_natCast, Int.toNat_of_nonneg (by omega), mul_assoc, ← zpow_add₀ (by norm_num)]
  rw [show 23 - (floorLog2 n : Int) + ((floorLog2 n : Int) - 23) = 0 by ring, zpow_zero, mul_one]

/-- When the test `loadFactor >= 0.75f` holds, the count is positive and the quotient of the
converted count and size is at least `3/4 - 2 ^ (-25)`. -/
theorem loadFactorReachedAt_bound (count size : Nat) (hs : 0 < size)
    (h : loadFactorReachedAt (count : Int) size = true) :
    0 < count ∧
      ((3 : ℚ) / 4 - 1 / 2 ^ 25) * (toFloat size).toRat ≤ (toFloat count).toRat := by
  have hs0 : size ≠ 0 := by omega
  rcases Nat.eq_zero_or_pos count with hc | hc
  · subst hc
    simp [loadFactorReachedAt, loadFactorAt, hs0, FloatValue.geThreeQuarters] at h
  · refine ⟨hc, ?_⟩
    have hc0 : (count : Int) ≠ 0 := by omega
    have hc1 : ¬ (count : Int) < 0 := by omega
    simp only [loadFactorReachedAt, loadFactorAt, if_neg hs0, if_neg hc0, if_neg hc1,
      Int.toNat_ofNat, FloatValue.geThreeQuarters] at h
    exact floatDiv_geThreeQuarters _ _ (roundNearestEven_mantissa_pos count 1 hc Nat.one_pos)
      (roundNearestEven_mantissa_pos size 1 hs Nat.one_pos) h

/-- With 8388611 buckets the test `loadFactor >= 0.75f` fails for every count up to
6291457. -/
theorem loadFactor_below_8388611 (c : Nat) (hc : c ≤ 6291457) :
    loadFactorReachedAt (c : Int) 8388611 = false := by
  by_contra hne
  have h : loadFactorReachedAt (c : Int) 8388611 = true := by simpa using hne
  obtain ⟨hpos, hb⟩ := loadFactorReachedAt_bound c 8388611 (by norm_num) h
  have hsize : toFloat 8388611 = { mantissa := 8388611, exponent := 0 } := by decide
  rw [hsize, toFloat_toRat c hpos (by omega)] at hb
  have hcq : (c : ℚ) ≤ 6291457 := by exact_mod_cast hc
  norm_num [PosFloat.toRat] at hb
  linarith

/-- No count up to 16777220 converts to a `float` above 16777220. -/
theorem toFloat_le_16777220 (c : Nat) (hpos : 1 ≤ c) (hc : c ≤ 16777220) :
    (toFloat c).toRat ≤ 16777220 := by
  by_cases h24 : c < 2 ^ 24
  · rw [toFloat_toRat c hpos h24]
    exact_mod_cast hc
  · have h1 : 16777216 ≤ c := by
      have : (2 : Nat) ^ 24 = 16777216 := by norm_num
      omega
    have h5 : c = 16777216 ∨ c = 16777217 ∨ c = 16777218 ∨ c = 16777219 ∨ c = 16777220 := by
      omega
    rcases h5 with h | h | h | h | h
    · have e : toFloat 16777216 = { mantissa := 8388608, exponent := 1 } := by decide
      rw [h, e]
      norm_num [PosFloat.toRat]
    · have e : toFloat 16777217 = { mantissa := 8388608, exponent := 1 } := by decide
      rw [h, e]
      norm_num [PosFloat.toRat]
    · have e : toFloat 16777218 = { mantissa := 8388609, exponent := 1 } := by decide
      rw [h, e]
      norm_num [PosFloat.toRat]
    · have e : toFloat 16777219 = { mantissa := 8388610, exponent := 1 } := by decide
      rw [h, e]
      norm_num [PosFloat.toRat]
    · have e : toFloat 16777220 = { mantissa := 8388610, exponent := 1 } := by decide
      rw [h, e]
      norm_num [PosFloat.toRat]

/-- With 22369628 buckets the test `loadFactor >= 0.75f` fails for every count up to
16777220. -/
theorem loadFactor_below_22369628 (c : Nat) (hc : c ≤ 16777220) :
    loadFactorReachedAt (c : Int) 22369628 = false := by
  by_contra hne
  have h : loadFactorReachedAt (c : Int) 22369628 = true := by simpa using hne
  obtain ⟨hpos, hb⟩ := loadFactorReachedAt_bound c 22369628 (by norm_num) h
  have hsize : toFloat 22369628 = { mantissa := 11184814, exponent := 1 } := by decide
  have hcq := toFloat_le_16777220 c hpos hc
  have hsz : (toFloat 22369628).toRat = 22369628 := by
    rw [hsize]
    norm_num [PosFloat.toRat]
  rw [hsz] at hb
  generalize (toFloat c).toRat = v at hb hcq
  norm_num at hb
  linarith

/-- Different numbers have different keys. -/
theorem numberKey_injective : Function.Injective numberKey := by
  intro a b h
  have hinj : Function.Injective (fun d : Nat => (d : Int) + 48) := by
    intro x y hxy
    simp only at hxy
    omega
  unfold numberKey at h
  exact Nat.digits.injective 10 (List.map_injective_iff.2 hinj h)

/-- The keys of the numbers 0, 7 and 6291457: the empty string, `"7"` and `"7541926"`. -/
theorem numberKey_examples :
    numberKey 0 = str "" ∧ numberKey 7 = str "7" ∧ numberKey 6291457 = str "7541926" := by
  have h : str "7541926" = [55, 53, 52, 49, 57, 50, 54] := by decide
  have h7 : str "7" = [55] := by decide
  have h0 : str "" = [] := by decide
  rw [h, h7, h0]
  refine ⟨?_, ?_, ?_⟩ <;> norm_num [numberKey]

theorem numberedFrom_keys (a n : Nat) :
    (numberedFrom a n).map Prod.fst = (List.range' a n).map numberKey := by
  simp [numberedFrom, Function.comp_def]

theorem numberedFrom_nodup (a n : Nat) : ((numberedFrom a n).map Prod.fst).Nodup := by
  rw [numberedFrom_keys]
  exact (List.nodup_range' a n).map numberKey_injective

theorem numberedFrom_length (a n : Nat) : (numberedFrom a n).length = n := by
  simp [numberedFrom]

theorem numberedEntries_add (n k : Nat) :
    numberedEntries (n + k) = numberedEntries n ++ numberedFrom n k := by
  simp only [numberedEntries, numberedFrom, ← List.map_append]
  congr 1
  have h := List.range'_append_1 0 n k
  rw [Nat.zero_add] at h
  rw [h, Nat.add_comm]

/-- A run of puts on a reachable table leaves a reachable table. -/
theorem reachable_putAll (kvs : List (Key × Int)) : ∀ (t t' : HashTable), Reachable t →
    putAll t kvs = some t' → Reachable t' := by
  induction kvs with
  | nil =>
    intro t t' h hp
    simp only [DSA2HashTable.putAll, List.foldlM_nil] at hp
    cases hp
    exact h
  | cons kv rest ih =>
    intro t t' h hp
    rw [putAll_cons] at hp
    cases hput : DSA2HashTable.put t kv.1 kv.2 with
    | none => simp [hput] at hp
    | some t1 =>
      rw [hput] at hp
      exact ih t1 t' (Reachable.put t t1 kv.1 kv.2 h hput) hp

/-- An empty reachable table is filled with no keys. -/
theorem FilledFrom.start (t0 : HashTable) (hr : Reachable t0) (hcnt : getCount t0 = 0)
    (hent : entries t0 = []) : FilledFrom t0 0 (getCapacity t0) := by
  refine ⟨t0, rfl, hr, ?_, rfl, ?_⟩
  · simpa using hcnt
  · intro m hm
    rw [hent] at hm
    simp at hm

/-- The next key is not in a filled table. -/
theorem get_numberKey_absent {t : HashTable} {n : Nat} (hr : Reachable t)
    (hkeys : ∀ m ∈ entries t, ∃ i : Nat, i < n ∧ m.key = numberKey i) (j : Nat) (hj : n ≤ j) :
    get t (numberKey j) = some none := by
  obtain ⟨hinv, hpos⟩ := hr.inv
  rw [get_none_iff hinv hpos]
  intro m hm hk
  obtain ⟨i, hi, hik⟩ := hkeys m hm
  rw [hik] at hk
  have := numberKey_injective hk
  omega

/-- Filling on while the test `loadFactor >= 0.75f` fails: `k` more keys are put, no put
resizes. -/
theorem FilledFrom.fill {t0 : HashTable} {n capacity : Nat} (h : FilledFrom t0 n capacity)
    (k : Nat)
    (hlf : ∀ c : Nat, n < c → c ≤ n + k → loadFactorReachedAt (c : Int) capacity = false) :
    FilledFrom t0 (n + k) capacity := by
  obtain ⟨t, hall, hr, hcnt, hcap, hkeys⟩ := h
  obtain ⟨hinv, hpos⟩ := hr.inv
  simp only [getCount, getCapacity] at hcnt hcap
  obtain ⟨t', hall', hinv', hlen', hcnt', hmem'⟩ :=
    putAll_fresh (numberedFrom n k) t hinv hpos (numberedFrom_nodup n k)
      (by
        intro kv hkv m hm hk
        obtain ⟨i, hi, hik⟩ := hkeys m hm
        have hmem : kv.1 ∈ (numberedFrom n k).map Prod.fst := List.mem_map.2 ⟨kv, hkv, rfl⟩
        rw [numberedFrom_keys, List.mem_map] at hmem
        obtain ⟨j, hj, hjk⟩ := hmem
        rw [List.mem_range'_1] at hj
        rw [hik, ← hjk] at hk
        have := numberKey_injective hk
        omega)
      (by
        intro j hj
        rw [numberedFrom_length] at hj
        rw [hcnt, hcap]
        have := hlf (n + j + 1) (by omega) (by omega)
        exact_mod_cast this)
  refine ⟨t', ?_, reachable_putAll _ _ _ hr hall', ?_, ?_, ?_⟩
  · rw [numberedEntries_add, putAll_append, hall]
    exact hall'
  · simp only [getCount]
    rw [hcnt', hcnt, numberedFrom_length]
    push_cast
    rfl
  · simp only [getCapacity]
    rw [hlen', hcap]
  · intro m hm
    rcases hmem' m hm with h1 | h2
    · obtain ⟨i, hi, hik⟩ := hkeys m h1
      exact ⟨i, by omega, hik⟩
    · rw [numberedFrom_keys, List.mem_map] at h2
      obtain ⟨j, hj, hjk⟩ := h2
      rw [List.mem_range'_1] at hj
      exact ⟨j, by omega, hjk.symm⟩

/-- The put of the next key when the test `loadFactor >= 0.75f` holds: the capacity
doubles. -/
theorem FilledFrom.double {t0 : HashTable} {n capacity : Nat} (h : FilledFrom t0 n capacity)
    (hlf : loadFactorReachedAt ((n + 1 : Nat) : Int) capacity = true) :
    FilledFrom t0 (n + 1) (2 * capacity) := by
  obtain ⟨t, hall, hr, hcnt, hcap, hkeys⟩ := h
  obtain ⟨hinv, hpos⟩ := hr.inv
  simp only [getCount, getCapacity] at hcnt hcap
  have hnone : get t (numberKey n) = some none :=
    get_numberKey_absent hr hkeys n (le_refl n)
  obtain ⟨t', hput, _, _, _, hother, _, hnew⟩ := put_spec hinv hpos (numberKey n) (n : Int)
  obtain ⟨hcnt', hlen'⟩ := hnew hnone
  rw [hcnt, hcap] at hlen'
  have harg : (n : Int) + 1 = ((n + 1 : Nat) : Int) := by
    push_cast
    rfl
  rw [harg, if_pos hlf] at hlen'
  refine ⟨t', ?_, Reachable.put t t' _ _ hr hput, ?_, ?_, ?_⟩
  · rw [numberedEntries_add, putAll_append, hall]
    have h1 : numberedFrom n 1 = [(numberKey n, (n : Int))] := by
      simp [numberedFrom, List.range']
    rw [h1]
    simp [putAll_cons, hput, putAll]
  · simp only [getCount]
    rw [hcnt', hcnt]
    push_cast
    rfl
  · simp only [getCapacity]
    exact hlen'
  · intro m hm
    by_cases hk : m.key = numberKey n
    · exact ⟨n, by omega, hk⟩
    · obtain ⟨i, hi, hik⟩ := hkeys m ((hother m hk).1 hm)
      exact ⟨i, by omega, hik⟩

/-- A table constructed with `capacity` buckets and filled with the `n` keys `numberKey 0`,
..., `numberKey (n - 1)`, when the test `loadFactor >= 0.75f` fails for every count up to `n`:
no put resizes, the table is reachable with capacity `capacity` and count `n`, and
`numberKey n` is not in it. -/
theorem reachable_filled (capacity n : Nat) (hcap : 1 ≤ capacity)
    (hlf : ∀ c : Nat, c ≤ n → loadFactorReachedAt (c : Int) capacity = false) :
    ∃ t0 t : HashTable, construct (capacity : Int) false = some t0 ∧
      putAll t0 (numberedEntries n) = some t ∧ Reachable t ∧
      getCapacity t = capacity ∧ getCount t = (n : Int) ∧
      get t (numberKey n) = some none := by
  have hc : construct (capacity : Int) false =
      some (HashTable.mk (List.replicate capacity []) 0 false) := by
    have hneg : ¬ (capacity : Int) < 0 := by omega
    simp [construct, hneg]
  have hr0 : Reachable (HashTable.mk (List.replicate capacity []) 0 false) :=
    Reachable.construct (capacity : Int) false _ (by exact_mod_cast hcap) hc
  have hent : entries (HashTable.mk (List.replicate capacity []) 0 false) = [] := by
    simp [entries, flatten_replicate_nil]
  have hstart := FilledFrom.start _ hr0 rfl hent
  have hfill := hstart.fill n (by
    intro c _ hcn
    simp only [getCapacity, List.length_replicate]
    exact hlf c (by omega))
  rw [Nat.zero_add] at hfill
  obtain ⟨t, hall, hr, hcnt, hcap', hkeys⟩ := hfill
  refine ⟨_, t, hc, hall, hr, ?_, hcnt, get_numberKey_absent hr hkeys n (le_refl n)⟩
  simpa [getCapacity] using hcap'

/-- A `float` that stands for a number of at least `3/4` compares `>= 0.75f`. -/
theorem PosFloat.geThreeQuarters_of_le_toRat (f : PosFloat) (h : (3 : ℚ) / 4 ≤ f.toRat) :
    f.geThreeQuarters = true := by
  unfold PosFloat.toRat at h
  simp only [PosFloat.geThreeQuarters]
  have hp : (0 : ℚ) < 2 ^ f.exponent := by positivity
  split_ifs with he
  · apply decide_eq_true
    have hq : (3 : ℚ) ≤ f.mantissa * 2 ^ (f.exponent + 2).toNat := by
      rw [← zpow_natCast, Int.toNat_of_nonneg he, zpow_add₀ (by norm_num)]
      norm_num
      linarith
    exact_mod_cast hq
  · apply decide_eq_true
    have hq : (3 : ℚ) * 2 ^ (-(f.exponent + 2)).toNat ≤ f.mantissa := by
      rw [← zpow_natCast, Int.toNat_of_nonneg (by omega), zpow_neg, zpow_add₀ (by norm_num)]
      have h4 : (3 : ℚ) * (2 ^ f.exponent * 2 ^ (2 : Int))⁻¹ * (2 ^ f.exponent) = 3 / 4 := by
        field_simp
        ring
      have h5 : (3 : ℚ) * (2 ^ f.exponent * 2 ^ (2 : Int))⁻¹ * (2 ^ f.exponent) ≤
          f.mantissa * 2 ^ f.exponent := by
        rw [h4]
        exact h
      exact le_of_mul_le_mul_right h5 hp
    exact_mod_cast hq

theorem scaled_quotient (num den : Nat) (s : Int) (hd : 0 < den) :
    ((num * 2 ^ s.toNat : Nat) : ℚ) / ((den * 2 ^ (-s).toNat : Nat) : ℚ) =
      (num : ℚ) / den * 2 ^ s := by
  have hdq : (0 : ℚ) < den := by exact_mod_cast hd
  push_cast
  rw [← two_zpow_toNat s]
  field_simp

theorem le_roundQuotient_of (K num den : Nat) (s : Int) (hd : 0 < den)
    (h : (K : ℚ) ≤ (num : ℚ) / den * 2 ^ s) :
    K ≤ roundQuotient (num * 2 ^ s.toNat) (den * 2 ^ (-s).toNat) := by
  have hdd : 0 < den * 2 ^ (-s).toNat := Nat.mul_pos hd (by positivity)
  refine le_trans ((Nat.le_div_iff_mul_le hdd).2 ?_) (le_roundQuotient _ _)
  have hddq : (0 : ℚ) < ((den * 2 ^ (-s).toNat : Nat) : ℚ) := by exact_mod_cast hdd
  rw [← scaled_quotient num den s hd, le_div_iff₀ hddq] at h
  exact_mod_cast h

/-- When the exact quotient of two `float`s is at least `3/4`, so is the rounded one:
`0.75f` is a `float`, and rounding does not pass it. -/
theorem floatDiv_geThreeQuarters_of_le (a b : PosFloat) (ha : 0 < a.mantissa)
    (hb : 0 < b.mantissa) (h : (3 : ℚ) / 4 * b.toRat ≤ a.toRat) :
    (floatDiv a b).geThreeQuarters = true := by
  apply PosFloat.geThreeQuarters_of_le_toRat
  rw [floatDiv_toRat, roundNearestEven_toRat]
  have he := quotientExponent_le a.mantissa b.mantissa ha hb
  generalize quotientExponent a.mantissa b.mantissa = e at he ⊢
  have hbq : (0 : ℚ) < b.mantissa := by exact_mod_cast hb
  have hbe : (0 : ℚ) < 2 ^ b.exponent := by positivity
  have hbpos : 0 < b.toRat := mul_pos hbq hbe
  have hX : a.toRat / b.toRat =
      (a.mantissa : ℚ) / b.mantissa * 2 ^ (a.exponent - b.exponent) := by
    simp only [PosFloat.toRat]
    rw [zpow_sub₀ (by norm_num)]
    field_simp
  rw [← le_div_iff₀ hbpos, hX] at h
  have hK := fun K hK => le_roundQuotient_of K a.mantissa b.mantissa (23 - e) hb hK
  generalize roundQuotient (a.mantissa * 2 ^ (23 - e).toNat)
    (b.mantissa * 2 ^ (-(23 - e)).toNat) = m at hK
  generalize (a.mantissa : ℚ) / b.mantissa = x at h he hK
  generalize a.exponent - b.exponent = k at h
  have hk : (0 : ℚ) < 2 ^ k := by positivity
  have hpe : (0 : ℚ) < 2 ^ (e - 23) := by positivity
  have hpek : (0 : ℚ) < 2 ^ (e - 23) * 2 ^ k := mul_pos hpe hk
  rw [mul_assoc]
  by_cases hek : 0 ≤ e + k
  · have h1 : (2 : Nat) ^ 23 ≤ m := by
      apply hK
      have h2 : (2 : ℚ) ^ e * 2 ^ (23 - e) = 2 ^ (23 : Int) := by
        rw [← zpow_add₀ (by norm_num)]
        congr 1
        ring
      have h3 : (2 : ℚ) ^ e * 2 ^ (23 - e) ≤ x * 2 ^ (23 - e) :=
        mul_le_mul_of_nonneg_right he (by positivity)
      rw [h2] at h3
      push_cast
      exact_mod_cast h3
    have h1q : ((2 : ℚ) ^ (23 : Int)) ≤ m := by exact_mod_cast h1
    have h4 : (2 : ℚ) ^ (23 : Int) * (2 ^ (e - 23) * 2 ^ k) = 2 ^ (e + k) := by
      rw [← zpow_add₀ (by norm_num), ← zpow_add₀ (by norm_num)]
      congr 1
      ring
    have h5 : (1 : ℚ) ≤ 2 ^ (e + k) := one_le_zpow₀ (by norm_num) hek
    calc (3 : ℚ) / 4 ≤ 1 := by norm_num
      _ ≤ 2 ^ (e + k) := h5
      _ = 2 ^ (23 : Int) * (2 ^ (e - 23) * 2 ^ k) := h4.symm
      _ ≤ m * (2 ^ (e - 23) * 2 ^ k) := mul_le_mul_of_nonneg_right h1q hpek.le
  · have hj : ((21 - e - k).toNat : Int) = 21 - e - k := Int.toNat_of_nonneg (by omega)
    have hpow : ((2 : ℚ) ^ (21 - e - k).toNat) = 2 ^ (21 - e - k) := by
      rw [← zpow_natCast, hj]
    have h1 : 3 * 2 ^ (21 - e - k).toNat ≤ m := by
      apply hK
      push_cast
      rw [hpow]
      have h2 : (3 : ℚ) * 2 ^ (21 - e - k) = 3 / 4 * (2 ^ (23 - e) * (2 ^ k)⁻¹) := by
        rw [← zpow_neg, ← zpow_add₀ (by norm_num)]
        rw [show 23 - e + -k = (21 - e - k) + 2 by ring, zpow_add₀ (by norm_num)]
        norm_num
        ring
      have h3 : x * 2 ^ (23 - e) = x * 2 ^ k * (2 ^ (23 - e) * (2 ^ k)⁻¹) := by
        field_simp
        ring
      rw [h2, h3]
      exact mul_le_mul_of_nonneg_right h (by positivity)
    have h1q : (3 : ℚ) * 2 ^ (21 - e - k) ≤ m := by
      rw [← hpow]
      exact_mod_cast h1
    have h4 : (3 : ℚ) * 2 ^ (21 - e - k) * (2 ^ (e - 23) * 2 ^ k) = 3 / 4 := by
      rw [mul_assoc, ← zpow_add₀ (by norm_num), ← zpow_add₀ (by norm_num)]
      rw [show 21 - e - k + (e - 23 + k) = -2 by ring]
      norm_num
    calc (3 : ℚ) / 4 = 3 * 2 ^ (21 - e - k) * (2 ^ (e - 23) * 2 ^ k) := h4.symm
      _ ≤ m * (2 ^ (e - 23) * 2 ^ k) := mul_le_mul_of_nonneg_right h1q hpek.le

/-- The binary exponent found for `num / den` is the right one: the quotient is below
`2 ^ (e + 1)`. -/
theorem quotientExponent_lt (num den : Nat) (hn : 0 < num) (hd : 0 < den) :
    (num : ℚ) / den < (2 : ℚ) ^ (quotientExponent num den + 1) := by
  have hdq : (0 : ℚ) < den := by exact_mod_cast hd
  simp only [quotientExponent]
  split_ifs with h
  · have h1 := lt_floorLog2 num hn
    have h2 := floorLog2_le den hd
    have hpow : (2 : ℚ) ^ ((floorLog2 num : Int) - (floorLog2 den : Int) + 1) =
        (2 : ℚ) ^ (floorLog2 num + 1) / (2 : ℚ) ^ floorLog2 den := by
      rw [show ((floorLog2 num : Int) - (floorLog2 den : Int) + 1) =
        ((floorLog2 num + 1 : Nat) : Int) - (floorLog2 den : Int) by push_cast; ring]
      rw [zpow_sub₀ (by norm_num), zpow_natCast, zpow_natCast]
    rw [hpow, div_lt_div_iff₀ hdq (by positivity)]
    have h1q : (num : ℚ) < 2 ^ (floorLog2 num + 1) := by exact_mod_cast h1
    have h2q : ((2 : ℚ) ^ floorLog2 den) ≤ den := by exact_mod_cast h2
    have hnq : (0 : ℚ) < num := by exact_mod_cast hn
    calc (num : ℚ) * 2 ^ floorLog2 den ≤ num * den := mul_le_mul_of_nonneg_left h2q hnq.le
      _ < 2 ^ (floorLog2 num + 1) * den := mul_lt_mul_of_pos_right h1q hdq
  · rw [sub_add_cancel, ← two_zpow_toNat ((floorLog2 num : Int) - (floorLog2 den : Int)),
      div_lt_div_iff₀ hdq (by positivity)]
    have h' : ((num * 2 ^ (-((floorLog2 num : Int) - (floorLog2 den : Int))).toNat : Nat) : ℚ) <
        ((den * 2 ^ ((floorLog2 num : Int) - (floorLog2 den : Int)).toNat : Nat) : ℚ) := by
      exact_mod_cast not_le.1 h
    push_cast at h'
    linarith

/-- Rounding falls short of the exact quotient by at most one half. -/
theorem roundQuotient_ge (n dd : Nat) (hdd : 0 < dd) :
    2 * n ≤ 2 * (roundQuotient n dd * dd) + dd := by
  have hdm : dd * (n / dd) + n % dd = n := Nat.div_add_mod n dd
  have hr : n % dd < dd := Nat.mod_lt n hdd
  have hc : dd * (n / dd) = n / dd * dd := Nat.mul_comm _ _
  simp only [roundQuotient]
  split_ifs with h1 h2
  · omega
  · rw [Nat.add_mul]
    omega
  · rw [Nat.add_mul]
    omega

/-- A quotient half way between two integers rounds to the even one. -/
theorem roundQuotient_tie (n dd : Nat) (h : 2 * (n % dd) = dd) :
    roundQuotient n dd % 2 = 0 := by
  simp only [roundQuotient]
  rw [if_neg (by omega), if_neg (by omega)]
  omega

theorem roundQuotient_le_succ (n dd : Nat) : roundQuotient n dd ≤ n / dd + 1 := by
  simp only [roundQuotient]
  split_ifs <;> omega

/-- The `float` that `roundNearestEven` returns is a nearest one: its mantissa has 24 bits,
and its value differs from `num / den` by at most half a unit in the last place of the
binade of `num / den`. -/
theorem roundNearestEven_nearest (num den : Nat) (hn : 0 < num) (hd : 0 < den) :
    2 ^ 23 ≤ (roundNearestEven num den).mantissa ∧
    (roundNearestEven num den).mantissa < 2 ^ 24 ∧
    (roundNearestEven num den).toRat ≤
      (num : ℚ) / den + (2 : ℚ) ^ (quotientExponent num den - 24) ∧
    (num : ℚ) / den ≤
      (roundNearestEven num den).toRat + (2 : ℚ) ^ (quotientExponent num den - 24) := by
  have hle := quotientExponent_le num den hn hd
  have hlt := quotientExponent_lt num den hn hd
  have hup := roundNearestEven_toRat_le num den hd
  have hval := roundNearestEven_toRat num den
  have hdq : (0 : ℚ) < den := by exact_mod_cast hd
  have hlo := fun K hK =>
    le_roundQuotient_of K num den (23 - quotientExponent num den) hd hK
  have hMge := roundQuotient_ge (num * 2 ^ (23 - quotientExponent num den).toNat)
    (den * 2 ^ (-(23 - quotientExponent num den)).toNat) (Nat.mul_pos hd (by positivity))
  have hsucc := roundQuotient_le_succ (num * 2 ^ (23 - quotientExponent num den).toNat)
    (den * 2 ^ (-(23 - quotientExponent num den)).toNat)
  have hsq := scaled_quotient num den (23 - quotientExponent num den) hd
  have hdd : 0 < den * 2 ^ (-(23 - quotientExponent num den)).toNat :=
    Nat.mul_pos hd (by positivity)
  have hm23 : 2 ^ 23 ≤ roundQuotient (num * 2 ^ (23 - quotientExponent num den).toNat)
      (den * 2 ^ (-(23 - quotientExponent num den)).toNat) := by
    apply hlo
    have h2 : (2 : ℚ) ^ quotientExponent num den * 2 ^ (23 - quotientExponent num den) =
        2 ^ (23 : Int) := by
      rw [← zpow_add₀ (by norm_num)]
      congr 1
      ring
    have h3 := mul_le_mul_of_nonneg_right hle
      (by positivity : (0 : ℚ) ≤ 2 ^ (23 - quotientExponent num den))
    rw [h2] at h3
    push_cast
    exact_mod_cast h3
  have hq24 : (num * 2 ^ (23 - quotientExponent num den).toNat) /
      (den * 2 ^ (-(23 - quotientExponent num den)).toNat) < 2 ^ 24 := by
    rw [Nat.div_lt_iff_lt_mul hdd]
    have h2 : (2 : ℚ) ^ (quotientExponent num den + 1) *
        2 ^ (23 - quotientExponent num den) = 2 ^ (24 : Int) := by
      rw [← zpow_add₀ (by norm_num)]
      congr 1
      ring
    have h3 := mul_lt_mul_of_pos_right hlt
      (by positivity : (0 : ℚ) < 2 ^ (23 - quotientExponent num den))
    rw [h2, ← hsq, div_lt_iff₀ (by exact_mod_cast hdd)] at h3
    exact_mod_cast h3
  refine ⟨?_, ?_, hup, ?_⟩
  · simp only [roundNearestEven]
    split_ifs with hm
    · exact le_refl _
    · exact hm23
  · simp only [roundNearestEven]
    split_ifs with hm
    · norm_num
    · show roundQuotient (num * 2 ^ (23 - quotientExponent num den).toNat)
        (den * 2 ^ (-(23 - quotientExponent num den)).toNat) < 2 ^ 24
      omega
  · rw [hval]
    generalize quotientExponent num den = e at *
    generalize roundQuotient (num * 2 ^ (23 - e).toNat) (den * 2 ^ (-(23 - e)).toNat) = m at *
    have hddq : (0 : ℚ) < ((den * 2 ^ (-(23 - e)).toNat : Nat) : ℚ) := by exact_mod_cast hdd
    have hMq : (2 : ℚ) * ((num * 2 ^ (23 - e).toNat : Nat) : ℚ) ≤
        2 * (m * ((den * 2 ^ (-(23 - e)).toNat : Nat) : ℚ)) +
          ((den * 2 ^ (-(23 - e)).toNat : Nat) : ℚ) := by exact_mod_cast hMge
    have hy : (num : ℚ) / den * 2 ^ (23 - e) ≤ m + 1 / 2 := by
      rw [← hsq, div_le_iff₀ hddq]
      linarith
    have hp : (0 : ℚ) < 2 ^ (e - 23) := by positivity
    have h5 := mul_le_mul_of_nonneg_right hy hp.le
    have h6 : (num : ℚ) / den * 2 ^ (23 - e) * 2 ^ (e - 23) = num / den := by
      rw [mul_assoc, ← zpow_add₀ (by norm_num)]
      rw [show 23 - e + (e - 23) = 0 by ring, zpow_zero, mul_one]
    have h7 : ((m : ℚ) + 1 / 2) * 2 ^ (e - 23) = m * 2 ^ (e - 23) + 2 ^ (e - 24) := by
      rw [show e - 23 = (e - 24) + 1 by ring, zpow_add₀ (by norm_num)]
      ring
    rw [h6, h7] at h5
    exact h5

theorem loadFactorReachedAt_pos (count size : Nat) (hc : 0 < count) (hs : 0 < size) :
    loadFactorReachedAt (count : Int) size =
      (floatDiv (toFloat count) (toFloat size)).geThreeQuarters := by
  have hs0 : size ≠ 0 := by omega
  have hc0 : (count : Int) ≠ 0 := by omega
  have hc1 : ¬ (count : Int) < 0 := by omega
  simp only [loadFactorReachedAt, loadFactorAt, if_neg hs0, if_neg hc0, if_neg hc1,
    Int.toNat_ofNat, FloatValue.geThreeQuarters]

/-- Below `2 ^ 23` buckets and `2 ^ 24` entries the test `loadFactor >= 0.75f` holds exactly
when `3 * size ≤ 4 * count`. -/
theorem loadFactorReachedAt_iff (count size : Nat) (hs : 0 < size) (hs23 : size < 2 ^ 23)
    (hc24 : count < 2 ^ 24) :
    loadFactorReachedAt (count : Int) size = true ↔ 3 * size ≤ 4 * count := by
  have h23 : (2 : Nat) ^ 23 = 8388608 := by norm_num
  have h24 : (2 : Nat) ^ 24 = 16777216 := by norm_num
  have hsz : (toFloat size).toRat = (size : ℚ) := toFloat_toRat size hs (by omega)
  constructor
  · intro h
    obtain ⟨hpos, hb⟩ := loadFactorReachedAt_bound count size hs h
    rw [hsz, toFloat_toRat count hpos hc24] at hb
    have hb' : (25165823 : ℚ) * size ≤ 33554432 * count := by
      norm_num at hb
      linarith
    have hn : 25165823 * size ≤ 33554432 * count := by exact_mod_cast hb'
    omega
  · intro h
    have hpos : 0 < count := by omega
    rw [loadFactorReachedAt_pos count size hpos hs]
    have ha : 0 < (toFloat count).mantissa :=
      roundNearestEven_mantissa_pos count 1 hpos Nat.one_pos
    have hb : 0 < (toFloat size).mantissa :=
      roundNearestEven_mantissa_pos size 1 hs Nat.one_pos
    apply floatDiv_geThreeQuarters_of_le _ _ ha hb
    rw [hsz, toFloat_toRat count hpos hc24]
    have hq : (3 : ℚ) * size ≤ 4 * count := by exact_mod_cast h
    linarith

/-- A reachable table with fewer than `2 ^ 23` buckets has `4 * count < 3 * capacity`. -/
theorem Reachable.load_small {t : HashTable} (h : Reachable t) :
    t.table.length < 2 ^ 23 → 4 * t.count < 3 * (t.table.length : Int) := by
  have h23 : (2 : Nat) ^ 23 = 8388608 := by norm_num
  have h24 : (2 : Nat) ^ 24 = 16777216 := by norm_num
  induction h with
  | construct capacity debug t hcap hc =>
    intro _
    obtain ⟨_, rfl⟩ := construct_spec hc
    simp
    omega
  | put t t' key value hr hput ih =>
    intro hsmall
    obtain ⟨hinv, hpos⟩ := hr.inv
    obtain ⟨t'', h', _, _, _, _, hpres, habs⟩ := put_spec hinv hpos key value
    rw [hput] at h'
    cases h'
    obtain ⟨r, hr'⟩ := get_isSome t key hpos
    cases r with
    | none =>
      obtain ⟨hcnt, hlen⟩ := habs hr'
      have hle : t.table.length ≤ t'.table.length := by
        rw [hlen]
        split_ifs <;> omega
      have ih' := ih (by omega)
      have hcn := hinv.count
      have hiff := loadFactorReachedAt_iff ((entries t).length + 1) t.table.length hpos
        (by omega) (by omega)
      have harg : t.count + 1 = (((entries t).length + 1 : Nat) : Int) := by
        rw [hcn]
        push_cast
        rfl
      rw [harg] at hlen
      by_cases hlf : 3 * t.table.length ≤ 4 * ((entries t).length + 1)
      · rw [if_pos (hiff.2 hlf)] at hlen
        rw [hcnt, hlen]
        push_cast
        rcases (by omega : t.table.length = 1 ∨ 2 ≤ t.table.length) with h1 | h1
        · rw [h1] at ih' ⊢
          omega
        · omega
      · rw [if_neg (fun hc => hlf (hiff.1 hc))] at hlen
        rw [hcnt, hlen]
        omega
    | some v0 =>
      obtain ⟨hcnt, hlen⟩ := hpres ⟨v0, hr'⟩
      rw [hcnt, hlen]
      rw [hlen] at hsmall
      exact ih hsmall
  | removeKey t t' key b hr hrem ih =>
    intro hsmall
    rcases removeKey_cases hrem with ⟨_, rfl, _⟩ | ⟨_, v, hv⟩
    · exact ih hsmall
    · obtain ⟨t'', h', _, hcnt, hlen, _⟩ := removeKey_of_get_some hr.inv.1 hv
      rw [hrem] at h'
      cases h'
      rw [hlen] at hsmall
      have := ih hsmall
      rw [hcnt, hlen]
      omega
  | clear t hr _ =>
    intro _
    have := hr.inv.2
    simp [DSA2HashTable.clear]
    omega
  | setDebug t debug _ ih => exact ih
  | copyConstruct t hr ih =>
    rw [copyConstruct_eq hr.inv.1.count]
    exact ih
  | assign self other _ hr _ ih =>
    rw [assign_eq_copyConstruct, copyConstruct_eq hr.inv.1.count]
    exact ih

/-- The leading bit of `n` is at position `L` when `2 ^ L ≤ n < 2 ^ (L + 1)`. -/
theorem floorLog2_eq (L n : Nat) (h1 : 2 ^ L ≤ n) (h2 : n < 2 ^ (L + 1)) : floorLog2 n = L := by
  have hn : 1 ≤ n := le_trans (Nat.one_le_two_pow) h1
  have ha := floorLog2_le n hn
  have hb := lt_floorLog2 n hn
  rcases Nat.lt_trichotomy (floorLog2 n) L with h | h | h
  · have : 2 ^ (floorLog2 n + 1) ≤ 2 ^ L := Nat.pow_le_pow_right (by norm_num) h
    exact absurd (lt_of_lt_of_le hb (le_trans this h1)) (lt_irrefl _)
  · exact h
  · have : 2 ^ (L + 1) ≤ 2 ^ floorLog2 n := Nat.pow_le_pow_right (by norm_num) h
    exact absurd (lt_of_lt_of_le h2 (le_trans this ha)) (lt_irrefl _)

/-- An integer from `2 ^ 24` up to `2 ^ 25` converts to the even integer nearest to it. -/
theorem toFloat_toRat_even (n : Nat) (h1 : 2 ^ 24 ≤ n) (h2 : n < 2 ^ 25) :
    (toFloat n).toRat = 2 * (roundQuotient n 2 : ℚ) := by
  have hn : 1 ≤ n := le_trans (Nat.one_le_two_pow) h1
  rw [toFloat, roundNearestEven_toRat, quotientExponent_one n hn, floorLog2_eq 24 n h1 h2]
  have e1 : (23 - ((24 : Nat) : Int)).toNat = 0 := by decide
  have e2 : (-(23 - ((24 : Nat) : Int))).toNat = 1 := by decide
  rw [e1, e2]
  norm_num
  ring

/-- No count up to 17301502 converts to a `float` above 17301502. -/
theorem toFloat_le_17301502 (c : Nat) (hpos : 1 ≤ c) (hc : c ≤ 17301502) :
    (toFloat c).toRat ≤ 17301502 := by
  have h24 : (2 : Nat) ^ 24 = 16777216 := by norm_num
  have h25 : (2 : Nat) ^ 25 = 33554432 := by norm_num
  by_cases hlt : c < 2 ^ 24
  · rw [toFloat_toRat c hpos hlt]
    exact_mod_cast hc
  · rw [toFloat_toRat_even c (by omega) (by omega)]
    have hr := roundQuotient_le c 2 (by norm_num)
    have hle : 2 * roundQuotient c 2 ≤ 17301502 := by omega
    exact_mod_cast hle

/-- With `11 * 2 ^ 21` buckets the test `loadFactor >= 0.75f` fails for every count up to
17301502. -/
theorem loadFactor_below_23068672 (c : Nat) (hc : c ≤ 17301502) :
    loadFactorReachedAt (c : Int) 23068672 = false := by
  by_contra hne
  have h : loadFactorReachedAt (c : Int) 23068672 = true := by simpa using hne
  obtain ⟨hpos, hb⟩ := loadFactorReachedAt_bound c 23068672 (by norm_num) h
  have hsize : toFloat 23068672 = { mantissa := 11534336, exponent := 1 } := by decide
  have hcq := toFloat_le_17301502 c hpos hc
  have hsz : (toFloat 23068672).toRat = 23068672 := by
    rw [hsize]
    norm_num [PosFloat.toRat]
  rw [hsz] at hb
  generalize (toFloat c).toRat = v at hb hcq
  norm_num at hb
  linarith

/-- One doubling below `2 ^ 23` buckets: the table is filled on to the first count `N` with
`3 * capacity ≤ 4 * N`, and the put that reaches it doubles the capacity. -/
theorem FilledFrom.stage {t0 : HashTable} {n capacity : Nat} (h : FilledFrom t0 n capacity)
    (N : Nat) (hC : 0 < capacity) (hC23 : capacity < 2 ^ 23) (hn : n < N)
    (h1 : 3 * capacity ≤ 4 * N) (h2 : 4 * (N - 1) < 3 * capacity) :
    FilledFrom t0 N (2 * capacity) := by
  have h23 : (2 : Nat) ^ 23 = 8388608 := by norm_num
  have h24 : (2 : Nat) ^ 24 = 16777216 := by norm_num
  have hfill := h.fill (N - 1 - n) (by
    intro c _ hc
    by_contra hne
    have ht : loadFactorReachedAt (c : Int) capacity = true := by simpa using hne
    have := (loadFactorReachedAt_iff c capacity hC hC23 (by omega)).1 ht
    omega)
  have hdouble := hfill.double (by
    rw [loadFactorReachedAt_iff _ capacity hC hC23 (by omega)]
    omega)
  have e : n + (N - 1 - n) + 1 = N := by omega
  rw [e] at hdouble
  exact hdouble

/-- The table `HashTable(11)` filled with numbered keys doubles its capacity at the counts 9,
17, 33, 66, ...: after `33 * 2 ^ i` keys it has `88 * 2 ^ i` buckets. -/
theorem table11_doublings (i : Nat) (hi : i ≤ 17) :
    FilledFrom table11 (33 * 2 ^ i) (88 * 2 ^ i) := by
  have h23 : (2 : Nat) ^ 23 = 8388608 := by norm_num
  induction i with
  | zero =>
    have h0 : FilledFrom table11 0 11 := FilledFrom.start table11 reachable_table11 rfl rfl
    have h1 : FilledFrom table11 9 22 :=
      h0.stage 9 (by norm_num) (by norm_num) (by norm_num) (by norm_num) (by norm_num)
    have h2 : FilledFrom table11 17 44 :=
      h1.stage 17 (by norm_num) (by norm_num) (by norm_num) (by norm_num) (by norm_num)
    exact h2.stage 33 (by norm_num) (by norm_num) (by norm_num) (by norm_num) (by norm_num)
  | succ j ih =>
    have hj := ih (by omega)
    have hp : 2 ^ j ≤ 2 ^ 16 := Nat.pow_le_pow_right (by norm_num) (by omega)
    have hp1 : 1 ≤ 2 ^ j := Nat.one_le_two_pow
    have h16 : (2 : Nat) ^ 16 = 65536 := by norm_num
    have hs := hj.stage (33 * 2 ^ (j + 1)) (by omega) (by omega) (by rw [pow_succ]; omega)
      (by rw [pow_succ]; omega) (by rw [pow_succ]; omega)
    have e : 2 * (88 * 2 ^ j) = 88 * 2 ^ (j + 1) := by
      rw [pow_succ]
      ring
    rw [e] at hs
    exact hs

/-- With `11 * 2 ^ 20` buckets the test `loadFactor >= 0.75f` fails for every count up to
8650751. -/
theorem loadFactor_below_11534336 (c : Nat) (hc : c ≤ 8650751) :
    loadFactorReachedAt (c : Int) 11534336 = false := by
  by_contra hne
  have h : loadFactorReachedAt (c : Int) 11534336 = true := by simpa using hne
  obtain ⟨hpos, hb⟩ := loadFactorReachedAt_bound c 11534336 (by norm_num) h
  rw [toFloat_toRat 11534336 (by norm_num) (by norm_num),
    toFloat_toRat c hpos (by norm_num; omega)] at hb
  have hcq : (c : ℚ) ≤ 8650751 := by exact_mod_cast hc
  norm_num at hb
  linarith

/-- The table `HashTable(11)` after the puts of 17301502 keys, `numberKey 0`,
`numberKey 1`, ...: it has `11 * 2 ^ 21` buckets, reached by 21 doublings. -/
theorem table11_filled : FilledFrom table11 17301502 23068672 := by
  have h17 := table11_doublings 17 (le_refl 17)
  have e1 : 33 * 2 ^ 17 = 4325376 := by norm_num
  have e2 : 88 * 2 ^ 17 = 11534336 := by norm_num
  rw [e1, e2] at h17
  have hfill := h17.fill 4325375 (by
    intro c _ hc
    exact loadFactor_below_11534336 c (by omega))
  have hdouble := hfill.double (by decide)
  have hfill2 := hdouble.fill 8650750 (by
    intro c _ hc
    exact loadFactor_below_23068672 c (by omega))
  exact hfill2

/-- The rule of the resize in `put`: on every reachable table with capacity `c` and count
`n`, a put of an absent key returns with count `n + 1` and doubles the capacity exactly when
the `float` quotient `(float)(n + 1) / c` compares `>= 0.75f`, leaving it at `c` otherwise;
a put of a present key leaves the capacity as it is.  From `HashTable(11)`, any nine pairwise
distinct keys leave the capacity at 11 after the eighth put and at 22, with count 9, after
the ninth. -/
theorem put_capacity_rule (t : HashTable) (h : Reachable t) (key : Key) (value : Int) :
    (get t key = some none →
      ∃ t' : HashTable, put t key value = some t' ∧ getCount t' = getCount t + 1 ∧
        getCapacity t' =
          if loadFactorReachedAt (getCount t + 1) (getCapacity t) = true
          then 2 * getCapacity t else getCapacity t) ∧
    (∀ v0 : Int, get t key = some (some v0) →
      ∃ t' : HashTable, put t key value = some t' ∧ getCapacity t' = getCapacity t) ∧
    (∀ (kvs : List (Key × Int)) (debug : Bool), kvs.length = 9 →
      (kvs.map Prod.fst).Nodup →
      ∃ t0 t8 t9 : HashTable, construct 11 debug = some t0 ∧
        putAll t0 (kvs.take 8) = some t8 ∧ getCapacity t8 = 11 ∧
        putAll t0 kvs = some t9 ∧ getCapacity t9 = 22 ∧ getCount t9 = 9) := by
  obtain ⟨hinv, hpos⟩ := h.inv
  obtain ⟨t', hput, _, _, _, _, hpres, hnew⟩ := put_spec hinv hpos key value
  refine ⟨?_, ?_, ?_⟩
  · intro hnone
    exact ⟨t', hput, (hnew hnone).1, (hnew hnone).2⟩
  · intro v0 hv0
    exact ⟨t', hput, (hpres ⟨v0, hv0⟩).2⟩
  · intro kvs debug hlen hnd
    exact nine_inserts kvs hlen hnd debug

/-- The rule at small tables: a put into the fresh table of capacity 1 doubles it, and nine
concrete keys put into `HashTable(11)`. -/
theorem put_capacity_rule_witness :
    Reachable table1 ∧ get table1 [] = some none ∧
    loadFactorReachedAt (getCount table1 + 1) (getCapacity table1) = true ∧
    (∃ t' : HashTable, put table1 [] 7 = some t' ∧ getCount t' = getCount table1 + 1 ∧
      getCapacity t' =
        if loadFactorReachedAt (getCount table1 + 1) (getCapacity table1) = true
        then 2 * getCapacity table1 else getCapacity table1) ∧
    (∃ t0 t8 t9 : HashTable, construct 11 false = some t0 ∧
      putAll t0 ([([1], 1), ([2], 2), ([3], 3), ([4], 4), ([5], 5), ([6], 6), ([7], 7),
        ([8], 8), ([9], 9)].take 8) = some t8 ∧ getCapacity t8 = 11 ∧
      putAll t0 [([1], 1), ([2], 2), ([3], 3), ([4], 4), ([5], 5), ([6], 6), ([7], 7),
        ([8], 8), ([9], 9)] = some t9 ∧ getCapacity t9 = 22 ∧ getCount t9 = 9) :=
  ⟨reachable_table1, by decide, by decide,
    (put_capacity_rule table1 reachable_table1 [] 7).1 (by decide),
    (put_capacity_rule table1 reachable_table1 [] 7).2.2 _ false (by decide) (by decide)⟩

/-- Below `2 ^ 23` buckets the `float` test of `checkAndResize` decides like the exact
comparison.  Every reachable table with capacity `c < 2 ^ 23` and count `n` has
`4 * n < 3 * c`, and a put of an absent key returns with count `n + 1`, doubles the capacity
exactly when `3 * c ≤ 4 * (n + 1)` and leaves it at `c` otherwise; the table it returns has
`4 * count < 3 * capacity` again. -/
theorem put_capacity_rule_small (t : HashTable) (h : Reachable t)
    (hsmall : getCapacity t < 2 ^ 23) (key : Key) (value : Int) :
    4 * getCount t < 3 * (getCapacity t : Int) ∧
    (get t key = some none →
      ∃ t' : HashTable, put t key value = some t' ∧ getCount t' = getCount t + 1 ∧
        getCapacity t' =
          (if 3 * (getCapacity t : Int) ≤ 4 * (getCount t + 1)
           then 2 * getCapacity t else getCapacity t) ∧
        4 * getCount t' < 3 * (getCapacity t' : Int)) := by
  have h23 : (2 : Nat) ^ 23 = 8388608 := by norm_num
  have h24 : (2 : Nat) ^ 24 = 16777216 := by norm_num
  simp only [getCapacity, getCount] at hsmall ⊢
  have hload := h.load_small hsmall
  refine ⟨hload, ?_⟩
  intro hnone
  obtain ⟨hinv, hpos⟩ := h.inv
  obtain ⟨t', hput, _, _, _, _, _, hnew⟩ := put_spec hinv hpos key value
  obtain ⟨hcnt, hlen⟩ := hnew hnone
  have hcn := hinv.count
  have hiff := loadFactorReachedAt_iff ((entries t).length + 1) t.table.length hpos
    (by omega) (by omega)
  have harg : t.count + 1 = (((entries t).length + 1 : Nat) : Int) := by
    rw [hcn]
    push_cast
    rfl
  refine ⟨t', hput, hcnt, ?_, ?_⟩
  · rw [hlen, harg]
    by_cases hlf : 3 * t.table.length ≤ 4 * ((entries t).length + 1)
    · rw [if_pos (hiff.2 hlf), if_pos (by exact_mod_cast hlf)]
    · rw [if_neg (fun hc => hlf (hiff.1 hc)), if_neg (by exact_mod_cast hlf)]
  · rw [harg] at hlen
    by_cases hlf : 3 * t.table.length ≤ 4 * ((entries t).length + 1)
    · rw [if_pos (hiff.2 hlf)] at hlen
      rw [hcnt, hlen]
      push_cast
      rcases (by omega : t.table.length = 1 ∨ 2 ≤ t.table.length) with h1 | h1
      · rw [h1] at hload ⊢
        omega
      · omega
    · rw [if_neg (fun hc => hlf (hiff.1 hc))] at hlen
      rw [hcnt, hlen]
      omega

/-- The exact rule at the table `HashTable(1)`: the first put doubles the capacity. -/
theorem put_capacity_rule_small_witness :
    Reachable table1 ∧ getCapacity table1 < 2 ^ 23 ∧ get table1 [] = some none ∧
    4 * getCount table1 < 3 * (getCapacity table1 : Int) ∧
    (∃ t' : HashTable, put table1 [] 7 = some t' ∧ getCount t' = getCount table1 + 1 ∧
      getCapacity t' =
        (if 3 * (getCapacity table1 : Int) ≤ 4 * (getCount table1 + 1)
         then 2 * getCapacity table1 else getCapacity table1) ∧
      4 * getCount t' < 3 * (getCapacity t' : Int)) :=
  ⟨reachable_table1, by decide, by decide,
    (put_capacity_rule_small table1 reachable_table1 (by decide) [] 7).1,
    (put_capacity_rule_small table1 reachable_table1 (by decide) [] 7).2 (by decide)⟩

/-- C6 (resize trigger) against the `float` test of `checkAndResize`.  The claim has a put of
an absent key double the capacity exactly when `3 * c ≤ 4 * (n + 1)`.  With 8388611 buckets
and the 6291458th key, and with `11 * 2 ^ 21` buckets and the 17301503rd key, the quotient
rounds to `0.75f` and the put doubles the capacity although `4 * (n + 1) < 3 * c`; with
22369628 buckets and the 16777221st key, `(float)16777221` is 16777220, the quotient rounds
below `0.75f` and the put does not resize although `4 * (n + 1) = 3 * c`.  The three tables
are reachable: `HashTable(8388611)` filled with the 6291457 keys `numberKey 0`,
`numberKey 1`, ... does not resize on the way, nor does `HashTable(22369628)` filled with
16777220 keys, and `HashTable(11)` filled with 17301502 keys has `11 * 2 ^ 21` buckets; the
put of the next key goes wrong on each, as it does on every reachable table of these
capacities and counts. -/
theorem resize_trigger_float_rounding :
    (loadFactorAt 6291458 8388611 =
        FloatValue.positive { mantissa := 12582912, exponent := -24 } ∧
      loadFactorReachedAt 6291458 8388611 = true ∧ ¬ 3 * (8388611 : Int) ≤ 4 * 6291458) ∧
    (loadFactorAt 17301503 23068672 =
        FloatValue.positive { mantissa := 12582912, exponent := -24 } ∧
      loadFactorReachedAt 17301503 23068672 = true ∧ ¬ 3 * (23068672 : Int) ≤ 4 * 17301503) ∧
    (loadFactorAt 16777221 22369628 =
        FloatValue.positive { mantissa := 12582911, exponent := -24 } ∧
      loadFactorReachedAt 16777221 22369628 = false ∧ 3 * (22369628 : Int) ≤ 4 * 16777221) ∧
    (∃ t0 t t' : HashTable, construct 8388611 false = some t0 ∧
      putAll t0 (numberedEntries 6291457) = some t ∧ Reachable t ∧
      getCapacity t = 8388611 ∧ getCount t = 6291457 ∧
      get t (numberKey 6291457) = some none ∧
      put t (numberKey 6291457) 1 = some t' ∧ getCapacity t' = 2 * getCapacity t ∧
      ¬ 3 * (getCapacity t : Int) ≤ 4 * (getCount t + 1)) ∧
    (∃ t t' : HashTable, construct 11 false = some table11 ∧
      putAll table11 (numberedEntries 17301502) = some t ∧ Reachable t ∧
      getCapacity t = 23068672 ∧ getCount t = 17301502 ∧
      get t (numberKey 17301502) = some none ∧
      put t (numberKey 17301502) 1 = some t' ∧ getCapacity t' = 2 * getCapacity t ∧
      ¬ 3 * (getCapacity t : Int) ≤ 4 * (getCount t + 1)) ∧
    (∃ t0 t t' : HashTable, construct 22369628 false = some t0 ∧
      putAll t0 (numberedEntries 16777220) = some t ∧ Reachable t ∧
      getCapacity t = 22369628 ∧ getCount t = 16777220 ∧
      get t (numberKey 16777220) = some none ∧
      put t (numberKey 16777220) 1 = some t' ∧ getCapacity t' = getCapacity t ∧
      3 * (getCapacity t : Int) ≤ 4 * (getCount t + 1)) ∧
    (∀ (t : HashTable) (key : Key) (value : Int), Reachable t → getCapacity t = 8388611 →
      getCount t = 6291457 → get t key = some none →
      ∃ t' : HashTable, put t key value = some t' ∧ getCapacity t' = 2 * 8388611 ∧
        ¬ 3 * (getCapacity t : Int) ≤ 4 * (getCount t + 1)) ∧
    (∀ (t : HashTable) (key : Key) (value : Int), Reachable t → getCapacity t = 23068672 →
      getCount t = 17301502 → get t key = some none →
      ∃ t' : HashTable, put t key value = some t' ∧ getCapacity t' = 2 * 23068672 ∧
        ¬ 3 * (getCapacity t : Int) ≤ 4 * (getCount t + 1)) ∧
    (∀ (t : HashTable) (key : Key) (value : Int), Reachable t → getCapacity t = 22369628 →
      getCount t = 16777220 → get t key = some none →
      ∃ t' : HashTable, put t key value = some t' ∧ getCapacity t' = 22369628 ∧
        3 * (getCapacity t : Int) ≤ 4 * (getCount t + 1)) := by
  have hup : ∀ (t : HashTable) (key : Key) (value : Int), Reachable t →
      getCapacity t = 8388611 → getCount t = 6291457 → get t key = some none →
      ∃ t' : HashTable, put t key value = some t' ∧ getCapacity t' = 2 * 8388611 ∧
        ¬ 3 * (getCapacity t : Int) ≤ 4 * (getCount t + 1) := by
    intro t key value h hcap hcnt hnone
    obtain ⟨hinv, hpos⟩ := h.inv
    obtain ⟨t', hput, _, _, _, _, _, hnew⟩ := put_spec hinv hpos key value
    obtain ⟨_, hlen⟩ := hnew hnone
    simp only [getCapacity, getCount] at hcap hcnt
    rw [hcap, hcnt] at hlen
    rw [if_pos (by decide)] at hlen
    refine ⟨t', hput, hlen, ?_⟩
    simp only [getCapacity, getCount, hcap, hcnt]
    decide
  have hup11 : ∀ (t : HashTable) (key : Key) (value : Int), Reachable t →
      getCapacity t = 23068672 → getCount t = 17301502 → get t key = some none →
      ∃ t' : HashTable, put t key value = some t' ∧ getCapacity t' = 2 * 23068672 ∧
        ¬ 3 * (getCapacity t : Int) ≤ 4 * (getCount t + 1) := by
    intro t key value h hcap hcnt hnone
    obtain ⟨hinv, hpos⟩ := h.inv
    obtain ⟨t', hput, _, _, _, _, _, hnew⟩ := put_spec hinv hpos key value
    obtain ⟨_, hlen⟩ := hnew hnone
    simp only [getCapacity, getCount] at hcap hcnt
    rw [hcap, hcnt] at hlen
    rw [if_pos (by decide)] at hlen
    refine ⟨t', hput, hlen, ?_⟩
    simp only [getCapacity, getCount, hcap, hcnt]
    decide
  have hdown : ∀ (t : HashTable) (key : Key) (value : Int), Reachable t →
      getCapacity t = 22369628 → getCount t = 16777220 → get t key = some none →
      ∃ t' : HashTable, put t key value = some t' ∧ getCapacity t' = 22369628 ∧
        3 * (getCapacity t : Int) ≤ 4 * (getCount t + 1) := by
    intro t key value h hcap hcnt hnone
    obtain ⟨hinv, hpos⟩ := h.inv
    obtain ⟨t', hput, _, _, _, _, _, hnew⟩ := put_spec hinv hpos key value
    obtain ⟨_, hlen⟩ := hnew hnone
    simp only [getCapacity, getCount] at hcap hcnt
    rw [hcap, hcnt] at hlen
    rw [if_neg (by decide)] at hlen
    refine ⟨t', hput, hlen, ?_⟩
    simp only [getCapacity, getCount, hcap, hcnt]
    decide
  refine ⟨⟨by decide, by decide, by decide⟩, ⟨by decide, by decide, by decide⟩,
    ⟨by decide, by decide, by decide⟩, ?_, ?_, ?_, hup, hup11, hdown⟩
  · obtain ⟨t0, t, hc, hall, hr, hcap, hcnt, hnone⟩ :=
      reachable_filled 8388611 6291457 (by norm_num) loadFactor_below_8388611
    obtain ⟨t', hput, hcap', hnot⟩ := hup t (numberKey 6291457) 1 hr hcap hcnt hnone
    exact ⟨t0, t, t', hc, hall, hr, hcap, hcnt, hnone, hput, by rw [hcap', hcap], hnot⟩
  · obtain ⟨t, hall, hr, hcnt, hcap, hkeys⟩ := table11_filled
    have hnone := get_numberKey_absent hr hkeys 17301502 (le_refl _)
    obtain ⟨t', hput, hcap', hnot⟩ := hup11 t (numberKey 17301502) 1 hr hcap hcnt hnone
    exact ⟨t, t', by decide, hall, hr, hcap, hcnt, hnone, hput, by rw [hcap', hcap], hnot⟩
  · obtain ⟨t0, t, hc, hall, hr, hcap, hcnt, hnone⟩ :=
      reachable_filled 22369628 16777220 (by norm_num) loadFactor_below_22369628
    obtain ⟨t', hput, hcap', hle⟩ := hdown t (numberKey 16777220) 1 hr hcap hcnt hnone
    exact ⟨t0, t, t', hc, hall, hr, hcap, hcnt, hnone, hput, by rw [hcap', hcap], hle⟩

/-- C7 (clear) at the table `HashTable(0)`, which the constructor produces: `clear()` leaves
it as it is, with count 0 and no bucket, and `get` on the cleared table computes
`abs(hashValue) % table.size()` with a size of zero, a division by zero that reports nothing,
where the claim, like the docstring of `get` (if not found: return false), has it report
not-found. -/
theorem clear_get_capacity_zero :
    construct 0 false = some table0 ∧ clear table0 = table0 ∧
    get (clear table0) (str "a") = none ∧ get (clear table0) (str "a") ≠ some none := by
  decide

/-- What `clear()` does on every table: the count is 0, the capacity is the one before the
call and every bucket is empty; when the table has at least one bucket, `get` reports
not-found for every key. -/
theorem clear_spec (t : HashTable) :
    getCount (clear t) = 0 ∧ getCapacity (clear t) = getCapacity t ∧
    (∀ chain ∈ (clear t).table, chain = []) ∧
    (∀ (i : Nat), i < getCapacity t → (clear t).table[i]? = some []) ∧
    (1 ≤ getCapacity t → ∀ key : Key, get (clear t) key = some none) := by
  have hlen : (clear t).table.length = t.table.length := by simp [clear]
  have hempty : ∀ chain ∈ (clear t).table, chain = [] := by
    intro chain hc
    simp only [clear, List.mem_map] at hc
    obtain ⟨_, _, rfl⟩ := hc
    rfl
  refine ⟨rfl, hlen, hempty, ?_, ?_⟩
  · intro i hi
    obtain ⟨c, hc⟩ := getElem?_isSome (clear t).table i (by rw [hlen]; exact hi)
    rw [hc, hempty c (List.getElem?_mem hc)]
  · intro hcap key
    have hpos : 0 < (clear t).table.length := by rw [hlen]; exact hcap
    obtain ⟨i, c, hi, hc⟩ := bucket_of_pos (clear t) key hpos
    rw [get_eq_of_bucket _ hi hc, hempty c (List.getElem?_mem hc)]
    rfl

/-- Clearing the table that holds `"a"`: the key is no longer found. -/
theorem clear_spec_witness :
    1 ≤ getCapacity table11a ∧ clear table11a = table11 ∧
    get (clear table11a) (str "a") = some none :=
  ⟨by decide, by decide, (clear_spec table11a).2.2.2.2 (by decide) (str "a")⟩

theorem checkAndResize_capacity (t : HashTable) :
    ∃ t' : HashTable, checkAndResize t = some t' ∧
      (t'.table.length = t.table.length ∨ t'.table.length = 2 * t.table.length) := by
  unfold checkAndResize
  by_cases hlf : loadFactorReached t = true
  · obtain ⟨t', hres, hlen, _⟩ := resize_total t
    exact ⟨t', by simp [hlf, hres], Or.inr hlen⟩
  · exact ⟨t, by simp [hlf], Or.inl rfl⟩

theorem put_capacity (t : HashTable) (key : Key) (value : Int) :
    (0 < t.table.length → ∃ t' : HashTable, put t key value = some t') ∧
    (∀ t' : HashTable, put t key value = some t' →
      t'.table.length = t.table.length ∨ t'.table.length = 2 * t.table.length) := by
  unfold put
  cases hi : hash key t.table.length with
  | none =>
    refine ⟨fun hpos => ?_, fun t' h => by simp at h⟩
    obtain ⟨i, hi', _⟩ := hash_isSome key hpos
    rw [hi] at hi'
    cases hi'
  | some i =>
    obtain ⟨c, hc⟩ := getElem?_isSome t.table i (hash_lt hi)
    cases hu : Chain.update key value c with
    | some c' =>
      simp only [hc, hu]
      refine ⟨fun _ => ⟨_, rfl⟩, fun t' h => ?_⟩
      simp only [Option.some.injEq] at h
      subst h
      left
      simp
    | none =>
      simp only [hc, hu]
      obtain ⟨t1, h1, hlen1⟩ := checkAndResize_capacity
        { t with table := t.table.set i ({ key := key, value := value } :: c),
                 count := t.count + 1 }
      refine ⟨fun _ => ⟨t1, h1⟩, fun t' h => ?_⟩
      rw [h1] at h
      cases h
      simpa using hlen1

theorem get_total (t : HashTable) (key : Key) (hpos : 0 < t.table.length) :
    ∃ r, get t key = some r := get_isSome t key hpos

theorem removeKey_capacity (t : HashTable) (key : Key) :
    (0 < t.table.length → ∃ r : Bool × HashTable, removeKey t key = some r) ∧
    (∀ (b : Bool) (t' : HashTable), removeKey t key = some (b, t') →
      t'.table.length = t.table.length) := by
  unfold removeKey
  cases hi : hash key t.table.length with
  | none =>
    refine ⟨fun hpos => ?_, fun b t' h => by simp at h⟩
    obtain ⟨i, hi', _⟩ := hash_isSome key hpos
    rw [hi] at hi'
    cases hi'
  | some i =>
    obtain ⟨c, hc⟩ := getElem?_isSome t.table i (hash_lt hi)
    cases hr : Chain.remove key c with
    | some c' =>
      simp only [hc, hr]
      refine ⟨fun _ => ⟨_, rfl⟩, fun b t' h => ?_⟩
      simp only [Option.some.injEq, Prod.mk.injEq] at h
      rw [← h.2]
      simp
    | none =>
      simp only [hc, hr]
      refine ⟨fun _ => ⟨_, rfl⟩, fun b t' h => ?_⟩
      simp only [Option.some.injEq, Prod.mk.injEq] at h
      rw [← h.2]

theorem Op.apply_capacity (t : HashTable) (op : Op) :
    (0 < t.table.length → ∃ t' : HashTable, Op.apply t op = some t') ∧
    (∀ t' : HashTable, Op.apply t op = some t' →
      (t'.table.length = t.table.length ∨ t'.table.length = 2 * t.table.length) ∧
      ((∀ (k : Key) (v : Int), op ≠ Op.put k v) → t'.table.length = t.table.length)) := by
  cases op with
  | put key value =>
    refine ⟨(put_capacity t key value).1, fun t' h => ⟨(put_capacity t key value).2 t' h, ?_⟩⟩
    intro hne
    exact absurd rfl (hne key value)
  | get key =>
    refine ⟨fun hpos => ?_, fun t' h => ?_⟩
    · obtain ⟨r, hr⟩ := get_isSome t key hpos
      exact ⟨t, by simp [Op.apply, hr]⟩
    · simp only [Op.apply, Option.map_eq_some'] at h
      obtain ⟨_, _, rfl⟩ := h
      exact ⟨Or.inl rfl, fun _ => rfl⟩
  | removeKey key =>
    refine ⟨fun hpos => ?_, fun t' h => ?_⟩
    · obtain ⟨r, hr⟩ := (removeKey_capacity t key).1 hpos
      exact ⟨r.2, by simp [Op.apply, hr]⟩
    · simp only [Op.apply, Option.map_eq_some'] at h
      obtain ⟨⟨b, t''⟩, hr, rfl⟩ := h
      have := (removeKey_capacity t key).2 b t'' hr
      exact ⟨Or.inl this, fun _ => this⟩
  | clear =>
    refine ⟨fun _ => ⟨_, rfl⟩, fun t' h => ?_⟩
    simp only [Op.apply, Option.some.injEq] at h
    subst h
    have : (DSA2HashTable.clear t).table.length = t.table.length := by
      simp [DSA2HashTable.clear]
    exact ⟨Or.inl this, fun _ => this⟩

theorem run_cons (t : HashTable) (op : Op) (ops : List Op) :
    run t (op :: ops) = (Op.apply t op).bind (fun t1 => run t1 ops) := by
  simp [run, List.foldlM_cons]

theorem run_append (t : HashTable) (ops1 ops2 : List Op) :
    run t (ops1 ++ ops2) = (run t ops1).bind (fun t1 => run t1 ops2) := by
  simp [run, List.foldlM_append]

theorem run_capacity (ops : List Op) (t : HashTable) :
    (0 < t.table.length → ∃ t' : HashTable, run t ops = some t') ∧
    (∀ t' : HashTable, run t ops = some t' →
      ∃ k : Nat, t'.table.length = t.table.length * 2 ^ k) := by
  induction ops generalizing t with
  | nil =>
    refine ⟨fun _ => ⟨t, rfl⟩, fun t' h => ?_⟩
    simp only [run, List.foldlM_nil] at h
    cases h
    exact ⟨0, by simp⟩
  | cons op rest ih =>
    obtain ⟨htot, hcap⟩ := Op.apply_capacity t op
    refine ⟨fun hpos => ?_, fun t' h => ?_⟩
    · obtain ⟨t1, h1⟩ := htot hpos
      have hpos1 : 0 < t1.table.length := by
        rcases (hcap t1 h1).1 with e | e <;> omega
      obtain ⟨t', h'⟩ := (ih t1).1 hpos1
      exact ⟨t', by rw [run_cons, h1]; exact h'⟩
    · rw [run_cons] at h
      cases h1 : Op.apply t op with
      | none => rw [h1] at h; cases h
      | some t1 =>
        rw [h1] at h
        obtain ⟨k, hk⟩ := (ih t1).2 t' h
        rcases (hcap t1 h1).1 with e | e
        · exact ⟨k, by rw [hk, e]⟩
        · exact ⟨k + 1, by rw [hk, e, pow_succ]; ring⟩

/-- C8 (capacity monotonicity): for every table, each public operation that returns leaves
the capacity equal to the one before or exactly twice it, and `get`, `removeKey` and `clear`
leave it equal; hence after any sequence of operations on a table constructed with capacity
`c0` the capacity is `c0 * 2^k` for some `k`, and at no point of a sequence is it smaller
than before.  On a table with at least one bucket every sequence of operations returns. -/
theorem capacity_monotone :
    (∀ (t t' : HashTable) (op : Op), Op.apply t op = some t' →
      getCapacity t' = getCapacity t ∨ getCapacity t' = 2 * getCapacity t) ∧
    (∀ (t t' : HashTable) (op : Op), (∀ (k : Key) (v : Int), op ≠ Op.put k v) →
      Op.apply t op = some t' → getCapacity t' = getCapacity t) ∧
    (∀ (c0 : Int) (debug : Bool) (t0 t : HashTable) (ops : List Op),
      construct c0 debug = some t0 → run t0 ops = some t →
      ∃ k : Nat, (getCapacity t : Int) = c0 * 2 ^ k) ∧
    (∀ (t t1 t2 : HashTable) (ops1 ops2 : List Op), run t ops1 = some t1 →
      run t (ops1 ++ ops2) = some t2 →
      getCapacity t1 ≤ getCapacity t2 ∧ ∃ k : Nat, getCapacity t2 = getCapacity t1 * 2 ^ k) ∧
    (∀ (t : HashTable) (ops : List Op), 1 ≤ getCapacity t →
      ∃ t' : HashTable, run t ops = some t') := by
  refine ⟨?_, ?_, ?_, ?_, ?_⟩
  · intro t t' op h
    exact ((Op.apply_capacity t op).2 t' h).1
  · intro t t' op hne h
    exact ((Op.apply_capacity t op).2 t' h).2 hne
  · intro c0 debug t0 t ops hc hrun
    obtain ⟨k, hk⟩ := (run_capacity ops t0).2 t hrun
    obtain ⟨h0, rfl⟩ := construct_spec hc
    refine ⟨k, ?_⟩
    simp only [getCapacity, hk, List.length_replicate]
    push_cast
    rw [Int.toNat_of_nonneg h0]
  · intro t t1 t2 ops1 ops2 h1 h2
    rw [run_append, h1] at h2
    obtain ⟨k, hk⟩ := (run_capacity ops2 t1).2 t2 h2
    refine ⟨?_, k, hk⟩
    simp only [getCapacity, hk]
    exact Nat.le_mul_of_pos_right _ (by positivity)
  · intro t ops hpos
    exact (run_capacity ops t).1 hpos

/-- Witness of C8: a put that doubles the capacity 1, then a get, a removal and a clear. -/
theorem capacity_monotone_witness :
    run table1 [Op.put [] 7, Op.get [], Op.removeKey [], Op.clear] =
      some { table := [[], []], count := 0, debugMode := false } ∧
    ∃ k : Nat, (getCapacity { table := [[], []], count := 0, debugMode := false } : Int)
      = 1 * 2 ^ k :=
  ⟨by decide,
    capacity_monotone.2.2.1 1 false table1 _ [Op.put [] 7, Op.get [], Op.removeKey [], Op.clear]
      (by decide) (by decide)⟩

/-- C9 at the initial capacity 0: the constructor produces a table without buckets, on
which the index computation of `put` divides by zero, so that `put` does not succeed. -/
theorem put_capacity_zero :
    construct 0 false = some table0 ∧ getCapacity table0 = 0 ∧
    hash (str "a") (getCapacity table0) = none ∧ put table0 (str "a") 1 = none := by
  decide

/-- Away from the capacity 0, `put` has no error condition: for every table the constructor
produces from an initial capacity other than 0, every key and every value, the index that
`put` computes is a valid bucket index and `put` returns.  (A negative capacity produces no
table.) -/
theorem put_succeeds (capacity : Int) (debug : Bool) (t : HashTable)
    (hc : construct capacity debug = some t) (h0 : capacity ≠ 0) (key : Key) (value : Int) :
    (∃ (index : Nat) (chain : Chain), hash key (getCapacity t) = some index ∧
      index < getCapacity t ∧ t.table[index]? = some chain) ∧
    ∃ t' : HashTable, put t key value = some t' := by
  obtain ⟨hnn, ht⟩ := construct_spec hc
  have hpos : 0 < t.table.length := by
    rw [ht]
    simp
    omega
  obtain ⟨i, c, hi, hc'⟩ := bucket_of_pos t key hpos
  exact ⟨⟨i, c, hi, hash_lt hi, hc'⟩, (put_capacity t key value).1 hpos⟩

/-- The empty key put into `HashTable(1)`. -/
theorem put_succeeds_witness :
    construct 1 false = some table1 ∧ (1 : Int) ≠ 0 ∧
    (∃ (index : Nat) (chain : Chain), hash [] (getCapacity table1) = some index ∧
      index < getCapacity table1 ∧ table1.table[index]? = some chain) ∧
    ∃ t' : HashTable, put table1 [] 7 = some t' :=
  ⟨by decide, by decide, put_succeeds 1 false table1 (by decide) (by decide) [] 7⟩

/-- C10 (duplication): for every reachable table `A`, the copy constructor and the
assignment onto any other table `self` both give a table with the capacity of `A`, its
debug flag, in every bucket the same chain in the same order, and the same count; hence
`get` gives the same result on the copy as on `A` for every key. -/
theorem duplication (A : HashTable) (h : Reachable A) (self : HashTable) :
    (getCapacity (copyConstruct A) = getCapacity A ∧
      getDebug (copyConstruct A) = getDebug A ∧
      (∀ i : Nat, (copyConstruct A).table[i]? = A.table[i]?) ∧
      getCount (copyConstruct A) = getCount A ∧
      ∀ key : Key, get (copyConstruct A) key = get A key) ∧
    (getCapacity (assign self A) = getCapacity A ∧
      getDebug (assign self A) = getDebug A ∧
      (∀ i : Nat, (assign self A).table[i]? = A.table[i]?) ∧
      getCount (assign self A) = getCount A ∧
      ∀ key : Key, get (assign self A) key = get A key) := by
  have hcopy : copyConstruct A = A := copyConstruct_eq h.inv.1.count
  have hassign : assign self A = A := by rw [assign_eq_copyConstruct, hcopy]
  rw [hcopy, hassign]
  exact ⟨⟨rfl, rfl, fun _ => rfl, rfl, fun _ => rfl⟩, ⟨rfl, rfl, fun _ => rfl, rfl, fun _ => rfl⟩⟩

/-- Witness of C10: the table holding `"a"` copied, and assigned onto an empty table. -/
theorem duplication_witness :
    Reachable table11a ∧ copyConstruct table11a = table11a ∧
    assign table1 table11a = table11a ∧
    (getCapacity (copyConstruct table11a) = getCapacity table11a ∧
      getDebug (copyConstruct table11a) = getDebug table11a ∧
      (∀ i : Nat, (copyConstruct table11a).table[i]? = table11a.table[i]?) ∧
      getCount (copyConstruct table11a) = getCount table11a ∧
      ∀ key : Key, get (copyConstruct table11a) key = get table11a key) :=
  ⟨reachable_table11a, by decide, by decide,
    (duplication table11a reachable_table11a table1).1⟩

theorem wrapInt_emod (x : Int) : wrapInt x % 2 ^ 32 = x % 2 ^ 32 := by
  unfold wrapInt
  norm_num
  omega

theorem hashValue_foldl (key : Key) (h a : Int) (hha : a = h % 2 ^ 32) :
    key.foldl (fun acc c => (acc * 31 + c) % 2 ^ 32) a =
      key.foldl (fun h c => wrapInt (h * 31 + c)) h % 2 ^ 32 := by
  induction key generalizing h a with
  | nil => simpa using hha
  | cons c rest ih =>
    simp only [List.foldl_cons]
    apply ih
    rw [wrapInt_emod, hha]
    norm_num
    omega

theorem specAccumulator_eq (key : Key) : specAccumulator key = hashValue key % 2 ^ 32 :=
  hashValue_foldl key 0 0 (by norm_num)

theorem hashValue_range (key : Key) : -2 ^ 31 ≤ hashValue key ∧ hashValue key < 2 ^ 31 := by
  unfold hashValue
  induction key using List.reverseRecOn with
  | nil => norm_num
  | append_singleton rest c _ =>
    simp only [List.foldl_append, List.foldl_cons, List.foldl_nil, wrapInt]
    norm_num
    omega

theorem specAccumulator_range (key : Key) :
    0 ≤ specAccumulator key ∧ specAccumulator key < 2 ^ 32 := by
  rw [specAccumulator_eq]
  constructor
  · exact Int.emod_nonneg _ (by norm_num)
  · exact Int.emod_lt_of_pos _ (by norm_num)

theorem toSizeT_absInt (key : Key) :
    toSizeT (absInt (hashValue key)) = signedMagnitude (specAccumulator key).toNat := by
  have hr := hashValue_range key
  have hs := specAccumulator_eq key
  have hsr := specAccumulator_range key
  generalize hashValue key = h at hr hs
  generalize specAccumulator key = a at hs hsr
  obtain ⟨n, rfl⟩ := Int.eq_ofNat_of_zero_le hsr.1
  simp only [Int.toNat_ofNat]
  unfold toSizeT absInt wrapInt signedMagnitude
  norm_num at hr hs hsr ⊢
  by_cases hneg : h < 0
  · simp only [hneg, if_true]
    by_cases hmin : h = -2147483648
    · subst hmin
      have hn : n = 2147483648 := by omega
      subst hn
      rfl
    · have h1 : ¬ n < 2147483648 := by omega
      have h2 : ¬ n = 2147483648 := by omega
      simp only [h1, h2, if_false]
      omega
  · simp only [hneg, if_false]
    have h1 : n < 2147483648 := by omega
    simp only [h1, if_true]
    omega

/-- C11 (hash range): for every key and every capacity of at least 1, `hash` returns an
index below the capacity, whatever the accumulator does on the way (overflow, a negative
value, the minimum int); the index is a function of the key and the capacity alone, the
same on any two tables of equal capacity; and `hash("a")` is 9 at capacity 11. -/
theorem hash_range :
    (∀ (key : Key) (capacity : Nat), 1 ≤ capacity →
      ∃ i : Nat, hash key capacity = some i ∧ 0 ≤ i ∧ i < capacity) ∧
    (∀ (key : Key) (t t' : HashTable), getCapacity t = getCapacity t' →
      hash key (getCapacity t) = hash key (getCapacity t')) ∧
    hash (str "a") 11 = some 9 := by
  refine ⟨?_, ?_, by decide⟩
  · intro key capacity hcap
    obtain ⟨i, hi, hlt⟩ := hash_isSome key hcap
    exact ⟨i, hi, Nat.zero_le i, hlt⟩
  · intro key t t' h
    rw [h]

/-- Witness of C11: `"bigbird"` has a negative accumulator and `"alxexlnb"` the minimum
int; both get an index below 11. -/
theorem hash_range_witness :
    hashValue (str "bigbird") = -114744903 ∧ hash (str "bigbird") 11 = some 9 ∧
    hashValue (str "alxexlnb") = -2147483648 ∧ hash (str "alxexlnb") 11 = some 3 ∧
    ∃ i : Nat, hash (str "alxexlnb") 11 = some i ∧ 0 ≤ i ∧ i < 11 :=
  ⟨by decide, by decide, by decide, by decide, hash_range.1 (str "alxexlnb") 11 (by decide)⟩

/-- Counterexample to C17 as stated: the accumulator of `"bigbird"` has its sign bit set;
the code returns bucket 9 at capacity 11, the unsigned accumulator modulo 11 is 6. -/
theorem hash_ne_specHash :
    specAccumulator (str "bigbird") = 4180222393 ∧ specHash (str "bigbird") 11 = 6 ∧
    hash (str "bigbird") 11 = some 9 ∧
    hash (str "bigbird") 11 ≠ some (specHash (str "bigbird") 11) := by
  decide

/-- C17 (hash definition), amended: for every key and every capacity of at least 1, with
`A` the accumulator in unsigned 32-bit wraparound arithmetic, `hash` is `A mod capacity`
when `A < 2^31`; when the sign bit of `A` is set, the code reduces the magnitude of the
negative `int` instead, `(2^32 - A) mod capacity`, and `(2^64 - 2^31) mod capacity` for
`A = 2^31`, the minimum int. -/
theorem hash_eq_signedMagnitude (key : Key) (capacity : Nat) (hcap : 1 ≤ capacity) :
    hash key capacity =
      some (signedMagnitude (specAccumulator key).toNat % capacity) ∧
    (specAccumulator key < 2 ^ 31 → hash key capacity = some (specHash key capacity)) ∧
    (2 ^ 31 < specAccumulator key →
      hash key capacity = some ((2 ^ 32 - (specAccumulator key).toNat) % capacity)) ∧
    (specAccumulator key = 2 ^ 31 →
      hash key capacity = some ((2 ^ 64 - 2 ^ 31) % capacity)) := by
  have h0 : capacity ≠ 0 := by omega
  have hmain : hash key capacity =
      some (signedMagnitude (specAccumulator key).toNat % capacity) := by
    simp only [DSA2HashTable.hash, h0, if_false, toSizeT_absInt]
  have hsr := specAccumulator_range key
  refine ⟨hmain, ?_, ?_, ?_⟩
  · intro hlt
    have h1 : (specAccumulator key).toNat < 2 ^ 31 := by omega
    rw [hmain, specHash, signedMagnitude, if_pos h1]
  · intro hgt
    have h1 : ¬ (specAccumulator key).toNat < 2 ^ 31 := by omega
    have h2 : ¬ (specAccumulator key).toNat = 2 ^ 31 := by omega
    rw [hmain, signedMagnitude, if_neg h1, if_neg h2]
  · intro heq
    have h1 : ¬ (specAccumulator key).toNat < 2 ^ 31 := by omega
    have h2 : (specAccumulator key).toNat = 2 ^ 31 := by omega
    rw [hmain, signedMagnitude, if_neg h1, if_pos h2]

/-- Witness of C17: the three cases at capacity 11, `"a"` with a small accumulator,
`"bigbird"` with the sign bit set and `"alxexlnb"` with the accumulator `2^31`. -/
theorem hash_eq_signedMagnitude_witness :
    specAccumulator (str "a") = 97 ∧ specAccumulator (str "alxexlnb") = 2 ^ 31 ∧
    hash (str "a") 11 = some (signedMagnitude (specAccumulator (str "a")).toNat % 11) ∧
    hash (str "a") 11 = some (specHash (str "a") 11) ∧
    hash (str "bigbird") 11 = some ((2 ^ 32 - 4180222393) % 11) ∧
    hash (str "alxexlnb") 11 = some ((2 ^ 64 - 2 ^ 31) % 11) :=
  ⟨by decide, by decide, (hash_eq_signedMagnitude (str "a") 11 (by decide)).1,
    (hash_eq_signedMagnitude (str "a") 11 (by decide)).2.1 (by decide),
    by decide, by decide⟩

theorem put_some_pos {t t' : HashTable} {key : Key} {value : Int}
    (h : put t key value = some t') : 0 < t.table.length := by
  by_contra hn
  have h0 : t.table.length = 0 := by omega
  simp [put, h0, hash_zero] at h

theorem removeKey_some_pos {t : HashTable} {key : Key} {r : Bool × HashTable}
    (h : removeKey t key = some r) : 0 < t.table.length := by
  by_contra hn
  have h0 : t.table.length = 0 := by omega
  simp [removeKey, h0, hash_zero] at h

theorem Inv.put {t t' : HashTable} {key : Key} {value : Int} (hinv : Inv t)
    (h : put t key value = some t') : Inv t' := by
  obtain ⟨t'', h', hinv', _⟩ := put_spec hinv (put_some_pos h) key value
  rw [h] at h'
  cases h'
  exact hinv'

theorem Inv.removeKey {t t' : HashTable} {key : Key} {b : Bool} (hinv : Inv t)
    (h : removeKey t key = some (b, t')) : Inv t' := by
  rcases removeKey_cases h with ⟨_, rfl, _⟩ | ⟨_, v, hv⟩
  · exact hinv
  · obtain ⟨t'', h', hinv', _⟩ := removeKey_of_get_some hinv hv
    rw [h] at h'
    cases h'
    exact hinv'

theorem ReachableAny.inv_holds {t : HashTable} (h : ReachableAny t) : Inv t := by
  induction h with
  | construct capacity debug t hc => exact Inv.construct hc
  | put t t' key value _ hput ih => exact ih.put hput
  | removeKey t t' key b _ hrem ih => exact ih.removeKey hrem
  | clear t _ _ => exact Inv.clear _
  | setDebug t debug _ ih => exact ih.setDebug _
  | copyConstruct t _ ih =>
    rw [copyConstruct_eq ih.count]
    exact ih
  | assign self other _ _ _ ih =>
    rw [assign_eq_copyConstruct, copyConstruct_eq ih.count]
    exact ih

theorem Reachable.any {t : HashTable} (h : Reachable t) : ReachableAny t := by
  induction h with
  | construct capacity debug t _ hc => exact ReachableAny.construct capacity debug t hc
  | put t t' key value _ hput ih => exact ReachableAny.put t t' key value ih hput
  | removeKey t t' key b _ hrem ih => exact ReachableAny.removeKey t t' key b ih hrem
  | clear t _ ih => exact ReachableAny.clear t ih
  | setDebug t debug _ ih => exact ReachableAny.setDebug t debug ih
  | copyConstruct t _ ih => exact ReachableAny.copyConstruct t ih
  | assign self other _ _ ih1 ih2 => exact ReachableAny.assign self other ih1 ih2

theorem reachableAny_table11al : ReachableAny table11al :=
  ReachableAny.put table11a table11al [108] 2
    (ReachableAny.put table11 table11a [97] 1
      (ReachableAny.construct 11 false table11 (by decide)) (by decide))
    (by decide)

theorem walkCount_eq (t : HashTable) : walkCount t = (entries t).length := by
  simp [walkCount, entries, List.length_flatten]

/-- C12 (count invariant): in every table reachable from a construction, with any capacity,
by `put`, `removeKey`, `clear`, copy construction and assignment, `getCount` is the number
of nodes met by walking the chains of all buckets. -/
theorem count_invariant (t : HashTable) (h : ReachableAny t) :
    getCount t = (walkCount t : Int) ∧ getCount t = ((entries t).length : Int) := by
  have := h.inv_holds.count
  exact ⟨by rw [walkCount_eq]; exact this, this⟩

/-- Witness of C12: the table holding `"l"` and `"a"` in one bucket. -/
theorem count_invariant_witness :
    ReachableAny table11al ∧ walkCount table11al = 2 ∧
    getCount table11al = (walkCount table11al : Int) ∧
    getCount table11al = ((entries table11al).length : Int) :=
  ⟨reachableAny_table11al, by decide, count_invariant table11al reachableAny_table11al⟩

/-- C14 (key uniqueness): in every table reachable from a construction, with any capacity,
by `put` (resizing or not), `removeKey`, `clear`, copy construction and assignment, the keys
of all nodes are pairwise distinct: two nodes with equal keys are in the same bucket at
the same position of its chain. -/
theorem key_uniqueness (t : HashTable) (h : ReachableAny t) :
    ((entries t).map Node.key).Nodup ∧
    ∀ (i j p q : Nat) (ci cj : Chain) (n m : Node),
      t.table[i]? = some ci → t.table[j]? = some cj → ci[p]? = some n → cj[q]? = some m →
      n.key = m.key → i = j ∧ p = q := by
  have hinv := h.inv_holds
  refine ⟨hinv.nodup, ?_⟩
  intro i j p q ci cj n m hi hj hp hq hk
  have h1 := hinv.home i ci hi n (List.getElem?_mem hp)
  have h2 := hinv.home j cj hj m (List.getElem?_mem hq)
  rw [hk, h2] at h1
  cases h1
  rw [hi] at hj
  cases hj
  refine ⟨rfl, ?_⟩
  have hnd := hinv.chain_nodup hi
  have hp' : (ci.map Node.key)[p]? = some n.key := by simp [hp]
  have hq' : (ci.map Node.key)[q]? = some n.key := by simp [hq, hk]
  obtain ⟨hpl, hpe⟩ := List.getElem?_eq_some_iff.1 hp'
  obtain ⟨hql, hqe⟩ := List.getElem?_eq_some_iff.1 hq'
  exact (List.Nodup.getElem_inj_iff hnd).1 (hpe.trans hqe.symm)

/-- Witness of C14: the table holding `"l"` and `"a"` in one bucket. -/
theorem key_uniqueness_witness :
    ReachableAny table11al ∧ (entries table11al).map Node.key = [[108], [97]] ∧
    ((entries table11al).map Node.key).Nodup :=
  ⟨reachableAny_table11al, by decide, (key_uniqueness table11al reachableAny_table11al).1⟩

/-- C15 (home bucket): in every table reachable from a construction, with any capacity, by
`put`, `removeKey`, `clear`, copy construction and assignment, every node in the chain of
bucket `i` has a key that hashes to `i` against the current capacity; and whatever table
with at least one bucket `resize` is applied to, this holds of every node of the table it
returns. -/
theorem home_bucket (t : HashTable) (h : ReachableAny t) :
    (∀ (i : Nat) (chain : Chain), t.table[i]? = some chain →
      ∀ n ∈ chain, hash n.key (getCapacity t) = some i) ∧
    (∀ s : HashTable, 1 ≤ getCapacity s →
      ∃ s' : HashTable, resize s = some s' ∧
        ∀ (i : Nat) (chain : Chain), s'.table[i]? = some chain →
          ∀ n ∈ chain, hash n.key (getCapacity s') = some i) := by
  refine ⟨h.inv_holds.home, ?_⟩
  intro s hs
  obtain ⟨s', hres, _, _, _, hhome, _⟩ := resize_spec s hs
  exact ⟨s', hres, hhome⟩

/-- Witness of C15: `"l"` and `"a"` sit in bucket 9 of 11, and after a resize of that
table in buckets 20 and 9 of 22. -/
theorem home_bucket_witness :
    ReachableAny table11al ∧
    hash (str "l") 11 = some 9 ∧ hash (str "a") 11 = some 9 ∧
    hash (str "l") 22 = some 20 ∧ hash (str "a") 22 = some 9 ∧
    (∀ (i : Nat) (chain : Chain), table11al.table[i]? = some chain →
      ∀ n ∈ chain, hash n.key (getCapacity table11al) = some i) :=
  ⟨reachableAny_table11al, by decide, by decide, by decide, by decide,
    (home_bucket table11al reachableAny_table11al).1⟩

theorem resize_get {t t' : HashTable} (hinv : Inv t) (hpos : 0 < t.table.length)
    (h : resize t = some t') (key : Key) : get t' key = get t key := by
  obtain ⟨hinv', hlen, _, _, hperm⟩ := hinv.resize hpos h
  exact get_congr hinv hinv' hpos (by omega) key (fun v => hperm.mem_iff)

/-- C13 (resize preserves all entries): for every table with at least one bucket that
satisfies the representation invariant, as every reachable table does and as the table
does that `put` hands to `resize`, `resize` returns a table of twice the capacity whose
nodes are a permutation of the nodes before; `get` gives the same result for every key, the
recount equals the count before, and the "Count mismatch" branch is not taken. -/
theorem resize_preserves (t : HashTable) (hinv : Inv t) (hcap : 1 ≤ getCapacity t) :
    ∃ t' : HashTable, resize t = some t' ∧ getCapacity t' = 2 * getCapacity t ∧
      (entries t').Perm (entries t) ∧
      (∀ key : Key, get t' key = get t key) ∧
      getCount t' = getCount t ∧ resizeCountMismatch t = some false := by
  obtain ⟨t', hres, _⟩ := resize_total t
  obtain ⟨_, hlen, _, hcnt, hperm⟩ := hinv.resize hcap hres
  refine ⟨t', hres, hlen, hperm, resize_get hinv hcap hres, hcnt, ?_⟩
  simp [resizeCountMismatch, hres, hcnt]

/-- Witness of C13: the reachable table holding `"l"` and `"a"` in bucket 9 of 11; the
resize moves `"l"` to bucket 20 of 22. -/
theorem resize_preserves_witness :
    Reachable table11al ∧ Inv table11al ∧ 1 ≤ getCapacity table11al ∧
    resize table11al = some
      { table := [[], [], [], [], [], [], [], [], [], [{ key := [97], value := 1 }], [], [],
          [], [], [], [], [], [], [], [], [{ key := [108], value := 2 }], []],
        count := 2, debugMode := false } ∧
    ∃ t' : HashTable, resize table11al = some t' ∧
      getCapacity t' = 2 * getCapacity table11al ∧
      (entries t').Perm (entries table11al) ∧
      (∀ key : Key, get t' key = get table11al key) ∧
      getCount t' = getCount table11al ∧ resizeCountMismatch table11al = some false :=
  ⟨Reachable.put table11a table11al [108] 2 reachable_table11a (by decide),
    (Reachable.put table11a table11al [108] 2 reachable_table11a (by decide)).inv.1,
    by decide, by decide,
    resize_preserves table11al
      (Reachable.put table11a table11al [108] 2 reachable_table11a (by decide)).inv.1
      (by decide)⟩

/-- C16 (load factor) against the `float` test of `checkAndResize`.  The claim has
`4 * count < 3 * capacity` after every put.  With 22369628 buckets and the 16777221st key the
load is exactly `3/4`, yet `(float)16777221` is 16777220, the quotient rounds to the `float`
just below `0.75f`, the test `>= 0.75f` fails and the put returns without a resize, with
`4 * count = 3 * capacity`.  The table is reachable: `HashTable(22369628)` filled with the
16777220 keys `numberKey 0`, `numberKey 1`, ... does not resize on the way, and the put of
the next key leaves a reachable table with `4 * count = 3 * capacity`; so does a put of an
absent key on every reachable table of this capacity and count. -/
theorem load_factor_float_rounding :
    toFloat 16777221 = { mantissa := 8388610, exponent := 1 } ∧
    toFloat 22369628 = { mantissa := 11184814, exponent := 1 } ∧
    loadFactor { table := [], count := 0, debugMode := false } = FloatValue.nan ∧
    loadFactorAt 16777221 22369628 =
      FloatValue.positive { mantissa := 12582911, exponent := -24 } ∧
    loadFactorReachedAt 16777221 22369628 = false ∧
    4 * (16777221 : Int) = 3 * 22369628 ∧
    (∃ t0 t t' : HashTable, construct 22369628 false = some t0 ∧
      putAll t0 (numberedEntries 16777220) = some t ∧
      put t (numberKey 16777220) 1 = some t' ∧ Reachable t' ∧
      getCapacity t' = 22369628 ∧ getCount t' = 16777221 ∧
      4 * getCount t' = 3 * (getCapacity t' : Int) ∧
      ¬ 4 * getCount t' < 3 * (getCapacity t' : Int)) ∧
    (∀ (t : HashTable) (key : Key) (value : Int), Reachable t → getCapacity t = 22369628 →
      getCount t = 16777220 → get t key = some none →
      ∃ t' : HashTable, put t key value = some t' ∧ getCapacity t' = 22369628 ∧
        getCount t' = 16777221 ∧ ¬ 4 * getCount t' < 3 * (getCapacity t' : Int)) := by
  have hall : ∀ (t : HashTable) (key : Key) (value : Int), Reachable t →
      getCapacity t = 22369628 → getCount t = 16777220 → get t key = some none →
      ∃ t' : HashTable, put t key value = some t' ∧ getCapacity t' = 22369628 ∧
        getCount t' = 16777221 ∧ ¬ 4 * getCount t' < 3 * (getCapacity t' : Int) := by
    intro t key value h hcap hcnt hnone
    obtain ⟨hinv, hpos⟩ := h.inv
    obtain ⟨t', hput, _, _, _, _, _, hnew⟩ := put_spec hinv hpos key value
    obtain ⟨hcnt', hlen⟩ := hnew hnone
    simp only [getCapacity, getCount] at hcap hcnt
    rw [hcap, hcnt] at hlen
    rw [if_neg (by decide)] at hlen
    rw [hcnt] at hcnt'
    refine ⟨t', hput, hlen, hcnt', ?_⟩
    simp only [getCapacity, getCount, hlen, hcnt']
    decide
  refine ⟨by decide, by decide, by decide, by decide, by decide, by decide, ?_, hall⟩
  obtain ⟨t0, t, hc, hfill, hr, hcap, hcnt, hnone⟩ :=
    reachable_filled 22369628 16777220 (by norm_num) loadFactor_below_22369628
  obtain ⟨t', hput, hcap', hcnt', hnot⟩ := hall t (numberKey 16777220) 1 hr hcap hcnt hnone
  refine ⟨t0, t, t', hc, hfill, hput, Reachable.put t t' _ 1 hr hput, hcap', hcnt', ?_, hnot⟩
  rw [hcap', hcnt']
  decide

theorem put_absent_eq {t : HashTable} {key : Key} {i : Nat} {c : Chain}
    (hi : hash key t.table.length = some i) (hc : t.table[i]? = some c)
    (hf : Chain.find key c = none) (value : Int) :
    put t key value = checkAndResize
      { t with table := t.table.set i ({ key := key, value := value } :: c),
               count := t.count + 1 } := by
  have hu : Chain.update key value c = none := (Chain.update_eq_none_iff key value c).2 hf
  simp [put, hi, hc, hu]

/-- Counterexample to C18 as stated: `"e"` is put into the table of capacity 2 that holds
`"a"`; the put resizes to capacity 4, where both keys hash to bucket 1, and the head of
that chain is `"a"`, the older entry. -/
theorem put_new_entry_not_head :
    Reachable table2a ∧ get table2a (str "e") = some none ∧
    put table2a (str "e") 2 = some table4ae ∧
    hash (str "e") (getCapacity table4ae) = some 1 ∧
    table4ae.table[1]? = some [{ key := str "a", value := 1 }, { key := str "e", value := 2 }] ∧
    (table4ae.table[1]?).bind List.head? ≠ some { key := str "e", value := 2 } :=
  ⟨Reachable.put table1 table2a [97] 1 reachable_table1 (by decide), by decide, by decide,
    by decide, by decide, by decide⟩

/-- C18 (new entries become chain heads), amended: on every reachable table, the put of a
key that is not present returns and leaves the new entry in the chain of the bucket its
key hashes to against the capacity after the call; when the put has not resized the table,
the new entry is the head of that chain. -/
theorem put_new_entry_head (t : HashTable) (h : Reachable t) (key : Key) (value : Int)
    (habs : get t key = some none) :
    ∃ t' : HashTable, put t key value = some t' ∧
      (∃ (i : Nat) (chain : Chain), hash key (getCapacity t') = some i ∧
        t'.table[i]? = some chain ∧ ({ key := key, value := value } : Node) ∈ chain) ∧
      (getCapacity t' = getCapacity t →
        ∃ (i : Nat) (rest : Chain), hash key (getCapacity t') = some i ∧
          t'.table[i]? = some ({ key := key, value := value } :: rest)) := by
  obtain ⟨hinv, hpos⟩ := h.inv
  obtain ⟨t', hput, hinv', _, hmem, _⟩ := put_spec hinv hpos key value
  have hpos' : 0 < t'.table.length := (Reachable.put t t' key value h hput).inv.2
  refine ⟨t', hput, ?_, ?_⟩
  · obtain ⟨i, c, hi, hc⟩ := bucket_of_pos t' key hpos'
    exact ⟨i, c, hi, hc, hinv'.bucket_of_mem hmem hi hc⟩
  · intro hcap
    obtain ⟨i, c, hi, hc, hf⟩ := get_cases habs
    have heq := put_absent_eq hi hc hf.symm value
    rw [hput] at heq
    by_cases hlf : loadFactorReached
        { t with table := t.table.set i ({ key := key, value := value } :: c),
                 count := t.count + 1 } = true
    · exfalso
      simp only [checkAndResize, hlf, if_true] at heq
      obtain ⟨t'', hres, hlen, _⟩ := resize_total
        { t with table := t.table.set i ({ key := key, value := value } :: c),
                 count := t.count + 1 }
      rw [hres] at heq
      cases heq
      simp only [getCapacity, List.length_set] at hcap hlen
      omega
    · simp only [checkAndResize, hlf] at heq
      simp only [Bool.false_eq_true, if_false, Option.some.injEq] at heq
      subst heq
      refine ⟨i, c, ?_, getElem?_set_self_of hc⟩
      simpa [getCapacity] using hi

/-- Witness of C18: `"l"` put into the table holding `"a"` in the same bucket, without a
resize: `"l"` is the head. -/
theorem put_new_entry_head_witness :
    Reachable table11a ∧ get table11a (str "l") = some none ∧
    put table11a (str "l") 2 = some table11al ∧
    ∃ t' : HashTable, put table11a (str "l") 2 = some t' ∧
      (∃ (i : Nat) (chain : Chain), hash (str "l") (getCapacity t') = some i ∧
        t'.table[i]? = some chain ∧ ({ key := str "l", value := 2 } : Node) ∈ chain) ∧
      (getCapacity t' = getCapacity table11a →
        ∃ (i : Nat) (rest : Chain), hash (str "l") (getCapacity t') = some i ∧
          t'.table[i]? = some ({ key := str "l", value := 2 } :: rest)) :=
  ⟨reachable_table11a, by decide, by decide,
    put_new_entry_head table11a reachable_table11a (str "l") 2 (by decide)⟩

theorem clear_setDebug_eq (ht : HashTable) (debug : Bool) :
    clear (setDebug ht debug) =
      { table := List.replicate ht.table.length [], count := 0, debugMode := debug } := by
  simp [clear, setDebug]

/-- C19 (built-in scenario, TEST 5): run on any table of capacity 11, `runTests` reports
capacity 22 with count 9 at "Before resize" and capacity 22 with count 13 at "After adding
more items"; the capacity is still 11, with count 8, before the last put of TEST 4 and that
put, of `"reallycoolbird"`, doubles it, so that the four puts of TEST 5 trigger no resize. -/
theorem runTests_report (ht : HashTable) (hcap : getCapacity ht = 11) :
    (runTests ht).map Prod.fst =
      some { appleValue := some 25, bananaAfterDelete := none,
             beforeCapacity := 22, beforeCount := 9,
             afterCapacity := 22, afterCount := 13 } ∧
    (run (clear (setDebug ht true))
      [Op.put (str "apple") 10, Op.put (str "banana") 7, Op.put (str "cherry") 3,
        Op.put (str "apple") 25, Op.get (str "apple"), Op.removeKey (str "banana"),
        Op.get (str "banana"), Op.put (str "bigbird") 15, Op.put (str "tinybird") 42,
        Op.put (str "widebird") 8, Op.put (str "thinbird") 12, Op.put (str "bluebird") 99,
        Op.put (str "redbird") 50]).map (fun t => (getCapacity t, getCount t))
      = some (11, 8) ∧
    (run (clear (setDebug ht true))
      [Op.put (str "apple") 10, Op.put (str "banana") 7, Op.put (str "cherry") 3,
        Op.put (str "apple") 25, Op.get (str "apple"), Op.removeKey (str "banana"),
        Op.get (str "banana"), Op.put (str "bigbird") 15, Op.put (str "tinybird") 42,
        Op.put (str "widebird") 8, Op.put (str "thinbird") 12, Op.put (str "bluebird") 99,
        Op.put (str "redbird") 50, Op.put (str "reallycoolbird") 100]).map
        (fun t => (getCapacity t, getCount t))
      = some (22, 9) := by
  have hlen : ht.table.length = 11 := hcap
  unfold runTests
  simp only [clear_setDebug_eq, hlen]
  generalize getDebug ht = d
  cases d <;> decide

/-- Witness of C19: `runTests` on the fresh table `HashTable(11, false)`. -/
theorem runTests_report_witness :
    getCapacity table11 = 11 ∧
    (runTests table11).map Prod.fst =
      some { appleValue := some 25, bananaAfterDelete := none,
             beforeCapacity := 22, beforeCount := 9,
             afterCapacity := 22, afterCount := 13 } :=
  ⟨by decide, (runTests_report table11 (by decide)).1⟩

theorem Chain.filter_of_find_none (key : Key) (c : Chain) (h : Chain.find key c = none) :
    c.filter (fun n => decide (n.key ≠ key)) = c := by
  rw [List.filter_eq_self]
  intro n hn
  simpa using (Chain.find_eq_none_iff key c).1 h n hn

theorem Chain.remove_eq_filter (key : Key) (c c' : Chain) (hnd : (c.map Node.key).Nodup)
    (h : Chain.remove key c = some c') :
    c' = c.filter (fun n => decide (n.key ≠ key)) := by
  induction c generalizing c' with
  | nil => simp [Chain.remove] at h
  | cons n rest ih =>
    simp only [List.map_cons, List.nodup_cons] at hnd
    by_cases hk : n.key = key
    · simp [Chain.remove, hk] at h
      subst h
      have hrest : rest.filter (fun m => decide (m.key ≠ key)) = rest := by
        rw [List.filter_eq_self]
        intro m hm
        have : m.key ≠ key := by
          intro e
          apply hnd.1
          rw [hk, ← e]
          exact List.mem_map.2 ⟨m, hm, rfl⟩
        simpa using this
      rw [List.filter_cons, if_neg (by simp [hk]), hrest]
    · simp [Chain.remove, hk] at h
      obtain ⟨r, hr, rfl⟩ := h
      rw [List.filter_cons, if_pos (by simpa using hk), ← ih r hnd.2 hr]

/-- C20 (removeKey affects only its own key): on every reachable table and for every two
distinct keys `k` and `k'`, `removeKey k` returns, true or false, and leaves the result of
`get k'` as it was; the chain of the bucket of `k` becomes the same chain without the node
of `k`, in the same order, and every other bucket keeps its chain. -/
theorem removeKey_frame (t : HashTable) (h : Reachable t) (k k' : Key) (hne : k ≠ k') :
    ∃ (b : Bool) (t' : HashTable) (i : Nat) (chain : Chain),
      removeKey t k = some (b, t') ∧ get t' k' = get t k' ∧
      hash k (getCapacity t) = some i ∧ t.table[i]? = some chain ∧
      t'.table[i]? = some (chain.filter (fun n => decide (n.key ≠ k))) ∧
      (chain.filter (fun n => decide (n.key ≠ k))).Sublist chain ∧
      (∀ j : Nat, j ≠ i → t'.table[j]? = t.table[j]?) ∧
      getCapacity t' = getCapacity t := by
  obtain ⟨hinv, hpos⟩ := h.inv
  obtain ⟨i, c, hi, hc⟩ := bucket_of_pos t k hpos
  cases hr : Chain.remove k c with
  | none =>
    have hf := (Chain.remove_eq_none_iff k c).1 hr
    refine ⟨false, t, i, c, by simp [removeKey, hi, hc, hr], rfl, hi, hc, ?_,
      List.filter_sublist _, fun _ _ => rfl, rfl⟩
    rw [Chain.filter_of_find_none k c hf]
    exact hc
  | some c' =>
    have hrem : removeKey t k =
        some (true, { t with table := t.table.set i c', count := t.count - 1 }) := by
      simp [removeKey, hi, hc, hr]
    have hinv' := hinv.remove hc hr
    refine ⟨true, _, i, c, hrem, ?_, hi, hc, ?_, List.filter_sublist _, ?_, by simp [getCapacity]⟩
    · refine get_congr hinv hinv' hpos (by simpa using hpos) k' (fun v => ?_)
      exact mem_entries_set_iff hc c' (t.count - 1) _
        (Chain.mem_remove_other k c c' hr _ (fun e => hne e.symm))
    · rw [← Chain.remove_eq_filter k c c' (hinv.chain_nodup hc) hr]
      exact getElem?_set_self_of hc
    · intro j hj
      exact getElem?_set_other (fun e => hj e.symm)

/-- Witness of C20: `"l"` is removed from the chain `"l"`, `"a"` of bucket 9; `"a"` is
found as before. -/
theorem removeKey_frame_witness :
    Reachable table11al ∧ str "l" ≠ str "a" ∧
    removeKey table11al (str "l") = some (true, table11a) ∧
    get table11a (str "a") = get table11al (str "a") ∧
    ∃ (b : Bool) (t' : HashTable) (i : Nat) (chain : Chain),
      removeKey table11al (str "l") = some (b, t') ∧
      get t' (str "a") = get table11al (str "a") ∧
      hash (str "l") (getCapacity table11al) = some i ∧ table11al.table[i]? = some chain ∧
      t'.table[i]? = some (chain.filter (fun n => decide (n.key ≠ str "l"))) ∧
      (chain.filter (fun n => decide (n.key ≠ str "l"))).Sublist chain ∧
      (∀ j : Nat, j ≠ i → t'.table[j]? = table11al.table[j]?) ∧
      getCapacity t' = getCapacity table11al :=
  ⟨Reachable.put table11a table11al [108] 2 reachable_table11a (by decide), by decide,
    by decide, by decide,
    removeKey_frame table11al
      (Reachable.put table11a table11al [108] 2 reachable_table11a (by decide))
      (str "l") (str "a") (by decide)⟩

end DSA2HashTable
